import Mathlib

/-!
CSubNet: the neural network module (src/neuralNetwork.c).

A shallow embedding of `neuralNetwork.c` and theorems about it.

Conventions of the embedding.

* `int` values are mathematical integers; a dimension or a count is a natural
  number. Signed overflow is undefined behaviour in C and lies outside the
  embedding.
* `netF` is the element type of a matrix. The codec copies values with
  `memcpy`, so there a value is its 4-byte object representation, held as one
  word. The forward pass and the trainer compute with the values; there the
  element type is a linearly ordered field `F` and `expf`, the activation and
  the random generator are parameters. Rounding and NaN are not represented;
  a statement about `expf` holds of the single precision function as far as
  its hypotheses on `expf` do.
* A buffer is a list of 4-byte words; a pointer into it is a word index. An
  access made by the codec outside the block it points into is undefined
  behaviour in C and is reported as a `Fault`. An index of this file's code
  into a layer array or an intermediates array that does not exist makes the
  result `none`.
* The matrix, layer, training data and utility modules are not part of the
  available sources. What this file uses from them is modelled from the
  specification; each such definition says so. The values the layer accessors
  `getLayerInputs` and `getLayerOutputs` report are carried as the fields
  `inputs` and `outputs` of a layer, next to the weight matrix with its own
  `height` and `width`.
* `cloneNeuralNetwork` and `copyNeuralNetwork` are embedded twice: on network
  values, as the trainer uses them, and on a store of layer objects
  (`cloneNeuralNetworkAt`, `copyNeuralNetworkAt`), where a network is an array
  of addresses. The second form says which objects a call writes to.
* Freed memory and the progress lines written by `PRINT_FLUSH` are not
  represented.
-/

namespace CSubNet

/-! ## Data model -/

/-- Dense matrix: `height` rows, `width` columns and the value storage. -/
structure matrix (F : Type) where
  height : Nat
  width : Nat
  vals : List F
deriving DecidableEq

/-- One layer: the counts reported by `getLayerInputs` and `getLayerOutputs`,
the weight matrix and the bias array. -/
structure neuralLayer (F : Type) where
  inputs : Nat
  outputs : Nat
  matrix : matrix F
  biases : List F
deriving DecidableEq

/-- A network: the array `layers`; `numLayers` is its length. -/
structure neuralNetwork (F : Type) where
  layers : List (neuralLayer F)
deriving DecidableEq

/-- Training data: the input batch and the target batch. -/
structure trainingData (F : Type) where
  input : matrix F
  output : matrix F
deriving DecidableEq

/-- The ways an access of the codec can leave the block it points into. -/
inductive Fault where
  | readPastEnd (pos : Nat)
  | writePastEnd (pos : Nat)
  | sourceTooShort
  | nullPointer
  | negativeSize
deriving DecidableEq

/-- A buffer with its length in bytes: `start` is the block of 4-byte words the
pointer refers to (`none` for `NULL`), `length` the recorded byte count. -/
structure stringFragment where
  start : Option (List Int)
  length : Nat
deriving DecidableEq

deriving instance DecidableEq for Except

/-- The value of `sizeof(int)`. -/
def sizeofInt : Nat := 4

/-- Modelled from the spec: `netF` is declared in coreDefs.h, which is not
available; the spec fixes it as single precision, so `sizeof(netF)` is 4. -/
def sizeofNetF : Nat := 4

section Structural

variable {F : Type}

/-- Number of layers of a network (the field `numLayers`). -/
def neuralNetwork.numLayers (network : neuralNetwork F) : Nat :=
  network.layers.length

/-- Modelled from the spec: `getMatrixVal` belongs to the matrix module. The
slot of `(row, col)` lies at index `row * width + col` of the storage. -/
def matrixIndex (mat : matrix F) (row col : Nat) : Nat := row * mat.width + col

/-- Modelled from the spec: the value in the slot `getMatrixVal(mat, row, col)`
points to, `none` when the slot lies outside the storage. -/
def getMatrixVal (mat : matrix F) (row col : Nat) : Option F :=
  mat.vals[matrixIndex mat row col]?

/-- Modelled from the spec: `cloneLayer(source, target)` belongs to the layer
module. With no target it gives a new layer equal to the source; with a target
it copies the weights and biases of the source into the target. -/
def cloneLayer (source : neuralLayer F) (target : Option (neuralLayer F)) : neuralLayer F :=
  match target with
  | none => source
  | some t => { t with matrix := { t.matrix with vals := source.matrix.vals },
                       biases := source.biases }

/-- The function `cloneNeuralNetwork`. -/
def cloneNeuralNetwork (network : neuralNetwork F) : neuralNetwork F :=
  { layers := network.layers.map (fun l => cloneLayer l none) }

/-- The loop of `copyNeuralNetwork`, over the layers of the target. -/
def copyLayers : List (neuralLayer F) → List (neuralLayer F) → Option (List (neuralLayer F))
  | _, [] => some []
  | [], _ :: _ => none
  | s :: ss, t :: ts =>
    match copyLayers ss ts with
    | none => none
    | some rest => some (cloneLayer s (some t) :: rest)

/-- The function `copyNeuralNetwork(network, target)`. -/
def copyNeuralNetwork (network target : neuralNetwork F) : Option (neuralNetwork F) :=
  (copyLayers network.layers target.layers).map (fun ls => { layers := ls })

/-- The function `getNetworkOutputs`: the output count of `layers[numLayers - 1]`. -/
def getNetworkOutputs (network : neuralNetwork F) : Option Nat :=
  (network.layers[network.numLayers - 1]?).map (fun l => l.outputs)

/-- The function `getNetworkInputs`: the input count of `layers[0]`. -/
def getNetworkInputs (network : neuralNetwork F) : Option Nat :=
  (network.layers[0]?).map (fun l => l.inputs)

/-- Modelled from the spec: `getTrainingDataCount` belongs to the training
data module. It is the number of examples, the row count of the input. -/
def getTrainingDataCount (train : trainingData F) : Nat := train.input.height

/-- The parameters of a layer: its weight values and its biases. -/
def layerParams (l : neuralLayer F) : List F × List F := (l.matrix.vals, l.biases)

/-- Adjacent layers chain: the outputs of one are the inputs of the next. -/
def chained (network : neuralNetwork F) : Prop :=
  List.Chain' (fun a b : neuralLayer F => a.outputs = b.inputs) network.layers

/-- Intermediate buffers of the right shapes for a batch of `rows` rows: one
per layer, of height `rows` and of the width the layer outputs. -/
def shapedFor (rows : Nat) (layers : List (neuralLayer F)) (buffers : List (matrix F)) : Prop :=
  List.Forall₂ (fun (l : neuralLayer F) (m : matrix F) => m.height = rows ∧ m.width = l.outputs)
    layers buffers

instance (network : neuralNetwork F) : Decidable (chained network) :=
  inferInstanceAs (Decidable
    (List.Chain' (fun a b : neuralLayer F => a.outputs = b.inputs) network.layers))

instance (rows : Nat) (layers : List (neuralLayer F)) (buffers : List (matrix F)) :
    Decidable (shapedFor rows layers buffers) :=
  inferInstanceAs (Decidable (List.Forall₂
    (fun (l : neuralLayer F) (m : matrix F) => m.height = rows ∧ m.width = l.outputs)
    layers buffers))

end Structural

/-! ## Codec -/

/-- The first loop of `encodeNeuralNetwork`: adds the byte count of each layer
to `encodedSize`. -/
def encodedSizeLoop : List (neuralLayer Int) → Nat → Nat
  | [], encodedSize => encodedSize
  | l :: rest, encodedSize =>
    encodedSizeLoop rest
      (encodedSize + (sizeofNetF * (l.matrix.width + 1) * l.matrix.height + 2 * sizeofInt))

/-- The call `malloc(size)`: `fresh` is `none` when the allocation fails,
otherwise it gives the indeterminate content of the new block, word by word. -/
def malloc (fresh : Option (Nat → Int)) (size : Nat) : Option (List Int) :=
  fresh.map (fun content => (List.range (size / sizeofInt)).map content)

/-- The assignment `*p = v` for a word pointer `p` into `buf`. -/
def store (buf : List Int) (pos : Nat) (v : Int) : Except Fault (List Int) :=
  if pos < buf.length then .ok (buf.set pos v) else .error (.writePastEnd pos)

/-- The read `*p` for a word pointer `p` into `buf`. -/
def load (buf : List Int) (pos : Nat) : Except Fault Int :=
  match buf[pos]? with
  | some v => .ok v
  | none => .error (.readPastEnd pos)

/-- The call `memcpy(buf + dst, src, count * sizeof(netF))`. -/
def memcpy (buf : List Int) (dst : Nat) (src : List Int) (count : Nat) :
    Except Fault (List Int) :=
  match count, src with
  | 0, _ => .ok buf
  | _ + 1, [] => .error .sourceTooShort
  | n + 1, x :: xs =>
    match store buf dst x with
    | .error e => .error e
    | .ok buf1 => memcpy buf1 (dst + 1) xs n

/-- The second loop of `encodeNeuralNetwork`: writes each layer at the cursor
`ints`. -/
def encodeLayers : List (neuralLayer Int) → List Int → Nat → Except Fault (List Int)
  | [], buf, _ => .ok buf
  | neurLay :: rest, buf, ints => do
    let inputs := neurLay.inputs
    let buf ← store buf ints inputs
    let ints := ints + 1
    let outputs := neurLay.outputs
    let buf ← store buf ints outputs
    let ints := ints + 1
    let netFs := ints
    let netFCount := inputs * outputs
    let buf ← memcpy buf netFs neurLay.matrix.vals netFCount
    let netFs := netFs + netFCount
    let netFCount := outputs
    let buf ← memcpy buf netFs neurLay.biases netFCount
    encodeLayers rest buf (netFs + netFCount)

/-- The function `encodeNeuralNetwork`. -/
def encodeNeuralNetwork (fresh : Option (Nat → Int)) (network : neuralNetwork Int) :
    Except Fault stringFragment :=
  let encodedSize := encodedSizeLoop network.layers sizeofInt
  match malloc fresh encodedSize with
  | none => .ok { start := none, length := encodedSize }
  | some buf => do
    let buf ← store buf 0 network.numLayers
    let buf ← encodeLayers network.layers buf 1
    .ok { start := some buf, length := encodedSize }

/-- Reads `count` consecutive words starting at `pos`. -/
def loadMany (buf : List Int) : Nat → Nat → Except Fault (List Int)
  | _, 0 => .ok []
  | pos, n + 1 => do
    let v ← load buf pos
    let rest ← loadMany buf (pos + 1) n
    .ok (v :: rest)

/-- Modelled from the spec: `createLayerWithValues` belongs to the layer
module, which is not available. It builds a layer whose weight matrix has
shape `(inputs, outputs)` by copying exactly `inputs*outputs` weight values and
`outputs` bias values from the two source pointers, without a bounds check. -/
def createLayerWithValues (buf : List Int) (inputs outputs : Int) (weights biases : Nat) :
    Except Fault (neuralLayer Int) :=
  if inputs < 0 ∨ outputs < 0 then .error .negativeSize
  else do
    let w ← loadMany buf weights (inputs.toNat * outputs.toNat)
    let b ← loadMany buf biases outputs.toNat
    .ok { inputs := inputs.toNat, outputs := outputs.toNat,
          matrix := { height := inputs.toNat, width := outputs.toNat, vals := w },
          biases := b }

/-- The loop of `decodeNeuralNetwork`: `remaining` layers are still to be read
at the cursor `ints`. -/
def decodeLayers (buf : List Int) : Nat → Nat → Except Fault (List (neuralLayer Int))
  | 0, _ => .ok []
  | remaining + 1, ints => do
    let inputs ← load buf ints
    let ints := ints + 1
    let outputs ← load buf ints
    let ints := ints + 1
    let netFs := ints
    let coefficientCount := inputs * outputs
    let layer ← createLayerWithValues buf inputs outputs netFs (netFs + coefficientCount.toNat)
    let rest ← decodeLayers buf remaining (netFs + coefficientCount.toNat + outputs.toNat)
    .ok (layer :: rest)

/-- The function `decodeNeuralNetwork`. It does not look at `frag.length`. A
header count below zero leaves the loop unentered; the result then has no
layers. -/
def decodeNeuralNetwork (frag : stringFragment) : Except Fault (neuralNetwork Int) :=
  match frag.start with
  | none => .error .nullPointer
  | some buf => do
    let layers ← load buf 0
    let ls ← decodeLayers buf layers.toNat 1
    .ok { layers := ls }

/-! ### The binary layout as the specification words it -/

/-- The words one layer occupies in the layout: `inputs`, `outputs`, then
`inputs*outputs` weight values, then `outputs` bias values. -/
def layerWords (l : neuralLayer Int) : List Int :=
  (l.inputs : Int) :: (l.outputs : Int) ::
    (l.matrix.vals.take (l.inputs * l.outputs) ++ l.biases.take l.outputs)

/-- The words of the layers, one after the other without padding. -/
def layersWords : List (neuralLayer Int) → List Int
  | [] => []
  | l :: rest => layerWords l ++ layersWords rest

/-- The words of a network in the layout: `numLayers`, then the layers. -/
def networkWords (network : neuralNetwork Int) : List Int :=
  (network.numLayers : Int) :: layersWords network.layers

/-- The byte length the header fields declare in the layout of the spec:
4 bytes for `numLayers` and, for each layer, 4 + 4 bytes for `inputs` and
`outputs` and 4 bytes for each of the `inputs*outputs + outputs` values. -/
def declaredSize (network : neuralNetwork Int) : Nat :=
  4 + (network.layers.map (fun l => 4 + 4 + 4 * (l.inputs * l.outputs + l.outputs))).sum

/-- The number of words the header fields found in `buf` declare from the
cursor `pos` on, with `remaining` layers to go. A header field that lies
outside the buffer counts as declared, and the walk ends there; it also ends
at a field below zero. -/
def declaredWordsFrom (buf : List Int) : Nat → Nat → Nat
  | 0, pos => pos
  | remaining + 1, pos =>
    match buf[pos]?, buf[pos + 1]? with
    | some inputs, some outputs =>
      if inputs < 0 ∨ outputs < 0 then pos + 2
      else declaredWordsFrom buf remaining (pos + 2 + (inputs * outputs).toNat + outputs.toNat)
    | _, _ => pos + 2

/-- The number of words the header fields of `buf` declare. -/
def declaredWords (buf : List Int) : Nat :=
  match buf[0]? with
  | some layers => declaredWordsFrom buf layers.toNat 1
  | none => 1

/-- A layer holds the values `encodeNeuralNetwork` copies from it. -/
def layerHolds (l : neuralLayer Int) : Prop :=
  l.inputs * l.outputs ≤ l.matrix.vals.length ∧ l.outputs ≤ l.biases.length

instance (l : neuralLayer Int) : Decidable (layerHolds l) :=
  inferInstanceAs (Decidable (l.inputs * l.outputs ≤ l.matrix.vals.length ∧
    l.outputs ≤ l.biases.length))

/-- The layer `createLayerWithValues` rebuilds from the words of `l`. -/
def relaidLayer (l : neuralLayer Int) : neuralLayer Int :=
  { inputs := l.inputs, outputs := l.outputs,
    matrix := { height := l.inputs, width := l.outputs,
                vals := l.matrix.vals.take (l.inputs * l.outputs) },
    biases := l.biases.take l.outputs }

/-! ## Forward pass and trainer -/

section Numeric

variable {F : Type} [LinearOrderedField F]

/-- Modelled from the spec: `createMatrix` and `initMatrix` belong to the
matrix module. They give a matrix of the requested shape; its storage holds
`height*width` values, here zero. -/
def createMatrix (height width : Nat) : matrix F :=
  { height := height, width := width, vals := List.replicate (height * width) 0 }

/-- The value a layer computes for one row of the batch and one output unit:
the activation of the weighted sum of the row plus the bias. -/
def layerValue (activation : F → F) (layer : neuralLayer F) (input : matrix F)
    (row out : Nat) : F :=
  activation
    (((List.range layer.inputs).map (fun i =>
        (getMatrixVal input row i).getD 0 * (getMatrixVal layer.matrix i out).getD 0)).sum
      + layer.biases.getD out 0)

/-- Modelled from the spec: `applyLayer` belongs to the layer module. It
computes `activation(input · weights + biases)`, one row of `outputs` values
per row of the batch, and stores the values in the matrix supplied as
`output`, whose shape it leaves as it is. -/
def applyLayer (activation : F → F) (layer : neuralLayer F) (input output : matrix F) :
    matrix F :=
  { output with
    vals := (List.range input.height).flatMap (fun row =>
      (List.range layer.outputs).map (fun out => layerValue activation layer input row out)) }

/-- The function `createNetworkIntermediates`: one matrix per layer but the
last, of shape `(inputs, getLayerOutputs(layer))`. -/
def createNetworkIntermediates (network : neuralNetwork F) (inputs : Nat) : List (matrix F) :=
  (network.layers.take (network.numLayers - 1)).map (fun l => createMatrix inputs l.outputs)

/-- The loop of `applyNetwork` over the layers before the last: layer `idx`
reads `old` and writes `intermediates[idx]`, which becomes `old`. The result is
the last `old` and the intermediates as written. -/
def applyLayers (activation : F → F) :
    List (neuralLayer F) → matrix F → List (matrix F) → Option (matrix F × List (matrix F))
  | [], old, intermediates => some (old, intermediates)
  | _ :: _, _, [] => none
  | layer :: rest, old, inter :: inters =>
    let inter1 := applyLayer activation layer old inter
    match applyLayers activation rest inter1 inters with
    | none => none
    | some (last, inters1) => some (last, inter1 :: inters1)

/-- The function `applyNetwork`. `output` and `intermediates` are `none` for a
`NULL` argument. The result is the output matrix together with the final
content of the intermediates the pass used. -/
def applyNetwork (activation : F → F) (network : neuralNetwork F) (input : matrix F)
    (output : Option (matrix F)) (intermediates : Option (List (matrix F))) :
    Option (matrix F × List (matrix F)) :=
  let output : Option (matrix F) :=
    match output with
    | some o => some o
    | none => (getNetworkOutputs network).map (fun w => createMatrix input.height w)
  let intermediates : List (matrix F) :=
    match intermediates with
    | some inters => inters
    | none => createNetworkIntermediates network input.height
  match output with
  | none => none
  | some output =>
    match applyLayers activation (network.layers.take (network.numLayers - 1)) input
        intermediates with
    | none => none
    | some (old, inters1) =>
      match network.layers[network.numLayers - 1]? with
      | none => none
      | some last => some (applyLayer activation last old output, inters1)

/-- The function `determineAcceptanceThreshold`. -/
def determineAcceptanceThreshold (expf : F → F) (temp oldErr newErr : F) : F :=
  expf ((oldErr - newErr) * 500 / temp)

/-- Modelled from the spec: `subtractMatrices(a, b, result)` belongs to the
matrix module. It stores the elementwise difference `a - b` in `result`. -/
def subtractMatrices (a b result : matrix F) : matrix F :=
  { result with vals := List.zipWith (fun x y => x - y) a.vals b.vals }

/-- Modelled from the spec: `sumSquareMatrix` belongs to the matrix module. It
is the sum of the squares of all values. -/
def sumSquareMatrix (m : matrix F) : F :=
  (m.vals.map (fun v => v * v)).sum

/-- The function `calculateTrainingDataError`: the error, with the buffers as
the call leaves them. -/
def calculateTrainingDataError (activation : F → F) (network : neuralNetwork F)
    (trains : trainingData F) (output : matrix F) (intermediates : List (matrix F)) :
    Option (F × matrix F × List (matrix F)) :=
  match applyNetwork activation network trains.input (some output) (some intermediates) with
  | none => none
  | some (applied, inters1) =>
    let output := subtractMatrices applied trains.output applied
    some (sumSquareMatrix output / ((output.height * output.width : Nat) : F), output, inters1)

/-- The update `slot += d` of the value at index `i`. -/
def addAt : List F → Nat → F → List F
  | [], _, _ => []
  | x :: xs, 0, d => (x + d) :: xs
  | x :: xs, i + 1, d => x :: addAt xs i d

/-- The two inner loops of the mutation over one weight matrix: every slot
`(rowIdx, colIdx)` gets `(randomNetF() - 0.5) / 2` added. `draws` counts the
values taken from the generator. -/
def mutateMatrix (randomNetF : Nat → F) (mat : matrix F) (draws : Nat) : matrix F × Nat :=
  (List.range mat.height).foldl (fun st rowIdx =>
    (List.range mat.width).foldl (fun st colIdx =>
      ({ st.1 with vals := addAt st.1.vals (matrixIndex st.1 rowIdx colIdx)
                             ((randomNetF st.2 - 1 / 2) / 2) }, st.2 + 1)) st) (mat, draws)

/-- The bias loop of the mutation: each of the first `biases` slots gets
`randomNetF() - 0.5` added. -/
def mutateBiases (randomNetF : Nat → F) (biasVals : List F) (biases : Nat) (draws : Nat) :
    List F × Nat :=
  (List.range biases).foldl (fun st biasIdx =>
    (addAt st.1 biasIdx (randomNetF st.2 - 1 / 2), st.2 + 1)) (biasVals, draws)

/-- The mutation loop over the layers of the mutant. -/
def mutateLayers (randomNetF : Nat → F) :
    List (neuralLayer F) → Nat → List (neuralLayer F) × Nat
  | [], draws => ([], draws)
  | layer :: rest, draws =>
    let m := mutateMatrix randomNetF layer.matrix draws
    let b := mutateBiases randomNetF layer.biases layer.outputs m.2
    let r := mutateLayers randomNetF rest b.2
    ({ layer with matrix := m.1, biases := b.1 } :: r.1, r.2)

/-- The variables of `annealNetwork` that live across cycles. The last four
fields are observations of the run and are not variables of the C code:
`draws` counts the values taken from the generator, `mutantErrors` lists the
errors of the mutants evaluated so far (latest first), `accepted` and `reset`
tell which branch the latest cycle took. -/
structure annealState (F : Type) where
  current : neuralNetwork F
  best : neuralNetwork F
  mutant : neuralNetwork F
  output : matrix F
  intermediates : List (matrix F)
  temp : F
  cyclesWorse : Nat
  initialError : F
  currentStateError : F
  bestStateError : F
  draws : Nat
  mutantErrors : List F
  accepted : Bool
  reset : Bool
deriving DecidableEq

/-- The statements of `annealNetwork` before the loop. -/
def annealInit (activation : F → F) (original : neuralNetwork F) (train : trainingData F) :
    Option (annealState F) :=
  let current := cloneNeuralNetwork original
  let best := cloneNeuralNetwork original
  let mutant := cloneNeuralNetwork original
  match getNetworkOutputs original with
  | none => none
  | some outputs =>
    let output : matrix F := createMatrix train.output.height outputs
    let intermediates : List (matrix F) :=
      createNetworkIntermediates original (getTrainingDataCount train)
    let initialTemp : F := 5
    match calculateTrainingDataError activation original train output intermediates with
    | none => none
    | some (initialError, output, intermediates) =>
      some { current := current, best := best, mutant := mutant, output := output,
             intermediates := intermediates, temp := initialTemp, cyclesWorse := 0,
             initialError := initialError, currentStateError := initialError,
             bestStateError := initialError, draws := 0, mutantErrors := [],
             accepted := false, reset := false }

/-- The acceptance branch of the loop body (the `if`/`else` on the acceptance
test): the new `currentStateError`, `current` and `cyclesWorse`. -/
def acceptOrReset (accepted : Bool) (mutant : neuralNetwork F) (mutantStateError : F)
    (s : annealState F) : Option (F × neuralNetwork F × Nat) :=
  if accepted then
    (copyNeuralNetwork mutant s.current).map (fun current =>
      (mutantStateError, current, s.cyclesWorse))
  else if s.cyclesWorse + 1 = 1000 then
    (copyNeuralNetwork s.best s.current).map (fun current => (s.bestStateError, current, 0))
  else some (s.currentStateError, s.current, s.cyclesWorse + 1)

/-- The best-update step of the loop body (`if (mutantStateError <
bestStateError)`): the new `bestStateError` and `best`. -/
def recordBest (mutant : neuralNetwork F) (mutantStateError : F) (s : annealState F) :
    Option (F × neuralNetwork F) :=
  if mutantStateError < s.bestStateError then
    (copyNeuralNetwork mutant s.best).map (fun best => (mutantStateError, best))
  else some (s.bestStateError, s.best)

/-- The body of the loop of `annealNetwork` for the cycle numbered `cycle`. -/
def annealCycle (activation expf : F → F) (randomNetF : Nat → F) (maxCycles : Nat)
    (train : trainingData F) (cycle : Nat) (s : annealState F) : Option (annealState F) :=
  match copyNeuralNetwork s.current s.mutant with
  | none => none
  | some copied =>
    let mutated := mutateLayers randomNetF copied.layers s.draws
    let mutant : neuralNetwork F := { layers := mutated.1 }
    match calculateTrainingDataError activation mutant train s.output s.intermediates with
    | none => none
    | some (mutantStateError, output, intermediates) =>
      let accepted : Bool :=
        decide (determineAcceptanceThreshold expf s.temp s.currentStateError mutantStateError
          > randomNetF mutated.2)
      match acceptOrReset accepted mutant mutantStateError s with
      | none => none
      | some (currentStateError, current, cyclesWorse) =>
        match recordBest mutant mutantStateError s with
        | none => none
        | some (bestStateError, best) =>
          let initialTemp : F := 5
          some { current := current, best := best, mutant := mutant, output := output,
                 intermediates := intermediates,
                 temp := initialTemp * expf (-(7 / 2) * (cycle : F) / (maxCycles : F)),
                 cyclesWorse := cyclesWorse, initialError := s.initialError,
                 currentStateError := currentStateError, bestStateError := bestStateError,
                 draws := mutated.2 + 1,
                 mutantErrors := mutantStateError :: s.mutantErrors,
                 accepted := accepted,
                 reset := !accepted && decide (s.cyclesWorse + 1 = 1000) }

/-- The state after the first `cycles` cycles of the loop of `annealNetwork`. -/
def annealStates (activation expf : F → F) (randomNetF : Nat → F) (maxCycles : Nat)
    (original : neuralNetwork F) (train : trainingData F) : Nat → Option (annealState F)
  | 0 => annealInit activation original train
  | cycle + 1 =>
    (annealStates activation expf randomNetF maxCycles original train cycle).bind
      (annealCycle activation expf randomNetF maxCycles train cycle)

/-- The function `annealNetwork` with the local `maxCycles` as a parameter:
the loop runs `maxCycles` cycles, then `best` is returned. -/
def annealNetworkFor (activation expf : F → F) (randomNetF : Nat → F) (maxCycles : Nat)
    (original : neuralNetwork F) (train : trainingData F) : Option (neuralNetwork F) :=
  (annealStates activation expf randomNetF maxCycles original train maxCycles).map
    (fun s => s.best)

/-- The function `annealNetwork`; the source sets `maxCycles` to 500000. -/
def annealNetwork (activation expf : F → F) (randomNetF : Nat → F)
    (original : neuralNetwork F) (train : trainingData F) : Option (neuralNetwork F) :=
  annealNetworkFor activation expf randomNetF 500000 original train

/-! ### The forward chain as the specification words it -/

/-- The result of one layer as the spec words it: a matrix of shape
`(input.height, outputs)` holding the layer values. -/
def layerForward (activation : F → F) (layer : neuralLayer F) (input : matrix F) : matrix F :=
  { height := input.height, width := layer.outputs,
    vals := (List.range input.height).flatMap (fun row =>
      (List.range layer.outputs).map (fun out => layerValue activation layer input row out)) }

/-- The forward chain as the spec words it: layer 0, then layer 1, and so on,
each applied to the result of the layer before. -/
def forwardChain (activation : F → F) : List (neuralLayer F) → matrix F → matrix F
  | [], x => x
  | layer :: rest, x => forwardChain activation rest (layerForward activation layer x)

/-- The layer counts a cycle relies on: the three working networks have `n`
layers and there are at least `n - 1` intermediates. -/
def sameLength (n : Nat) (s : annealState F) : Prop :=
  s.current.layers.length = n ∧ s.best.layers.length = n ∧ s.mutant.layers.length = n ∧
    n - 1 ≤ s.intermediates.length

/-- What the loop body relies on at the start of a cycle: a positive
temperature, a best error no greater than the current error, and `best` and
`current` with the same number of layers. -/
def cycleReady (s : annealState F) : Prop :=
  0 < s.temp ∧ s.bestStateError ≤ s.currentStateError ∧
    s.best.layers.length = s.current.layers.length

instance (n : Nat) (s : annealState F) : Decidable (sameLength n s) :=
  inferInstanceAs (Decidable (s.current.layers.length = n ∧ s.best.layers.length = n ∧
    s.mutant.layers.length = n ∧ n - 1 ≤ s.intermediates.length))

instance (s : annealState F) : Decidable (cycleReady s) :=
  inferInstanceAs (Decidable (0 < s.temp ∧ s.bestStateError ≤ s.currentStateError ∧
    s.best.layers.length = s.current.layers.length))

end Numeric

/-! ## Concrete data -/

/-- One layer `0 -> 1` whose weight matrix has height 0 and width 1. -/
def zeroToOne : neuralNetwork Int := ⟨[⟨0, 1, ⟨0, 1, []⟩, [5]⟩]⟩

/-- Layers `[2 -> 3, 3 -> 1]`, each weight matrix of height `inputs` and width
`outputs`. -/
def specNet : neuralNetwork Int :=
  ⟨[⟨2, 3, ⟨2, 3, [1, 2, 3, 4, 5, 6]⟩, [7, 8, 9]⟩, ⟨3, 1, ⟨3, 1, [10, 11, 12]⟩, [13]⟩]⟩

/-- Layers `[2 -> 3, 3 -> 1]`, each weight matrix of height `outputs` and width
`inputs`. -/
def transNet : neuralNetwork Int :=
  ⟨[⟨2, 3, ⟨3, 2, [1, 2, 3, 4, 5, 6]⟩, [7, 8, 9]⟩, ⟨3, 1, ⟨1, 3, [10, 11, 12]⟩, [13]⟩]⟩

/-- A function on the rationals with the order properties of the exponential
that the trainer relies on: positive, and at least 1 from 0 on. -/
def toyExp (x : ℚ) : ℚ := if 0 ≤ x then 1 + x else 1 / (1 - x)

/-- A generator with values in `[0, 1)`: 0 at even draws, 1/2 at odd draws. -/
def toyRand (k : Nat) : ℚ := if k % 2 = 0 then 0 else 1 / 2

/-- One layer without inputs and with one output: a single bias. -/
def biasNet : neuralNetwork ℚ := ⟨[⟨0, 1, ⟨0, 1, []⟩, [0]⟩]⟩

/-- One example without inputs, with target 0. -/
def biasTrain : trainingData ℚ := ⟨⟨1, 0, []⟩, ⟨1, 1, [0]⟩⟩

/-- Layers `[2 -> 3, 3 -> 1]` over the rationals. -/
def twoNet : neuralNetwork ℚ :=
  ⟨[⟨2, 3, ⟨2, 3, [1, 2, 3, 4, 5, 6]⟩, [7, 8, 9]⟩, ⟨3, 1, ⟨3, 1, [1, 1, 1]⟩, [1]⟩]⟩

/-- A batch of two rows for `twoNet`. -/
def batch : matrix ℚ := ⟨2, 2, [1, 0, 0, 1]⟩

/-- The single-bias network with bias -1: its error on `biasTrain` is 1. -/
def driftNet : neuralNetwork ℚ := ⟨[⟨0, 1, ⟨0, 1, []⟩, [-1]⟩]⟩

/-- A state of the loop with 999 cycles counted as worse, in which `current`
(bias -1, error 1) has drifted away from `best` (bias 0, error 0). -/
def lateState : annealState ℚ :=
  { current := driftNet, best := biasNet, mutant := driftNet,
    output := ⟨1, 1, [-1]⟩, intermediates := [], temp := 2, cyclesWorse := 999,
    initialError := 0, currentStateError := 1, bestStateError := 0, draws := 0,
    mutantErrors := [], accepted := false, reset := false }

/-- The state one cycle after `lateState`: the mutant (bias -3/2, error 9/4)
was rejected and `current` was reset. -/
def afterReset : annealState ℚ :=
  { current := biasNet, best := biasNet,
    mutant := ⟨[⟨0, 1, ⟨0, 1, []⟩, [-3 / 2]⟩]⟩,
    output := ⟨1, 1, [-3 / 2]⟩, intermediates := [], temp := 20000 / 10993,
    cyclesWorse := 0, initialError := 0, currentStateError := 0, bestStateError := 0,
    draws := 2, mutantErrors := [9 / 4], accepted := false, reset := true }

/-! ## Network construction -/

section Construction

variable {F : Type} [LinearOrderedField F]

/-- Modelled from the spec: `createLayer(inputs, outputs)` belongs to the layer
module. It gives a layer that reports these counts, with a weight matrix of
shape `(inputs, outputs)` and `outputs` biases. The initial values are not
specified; here they are zero. -/
def createLayer (inputs outputs : Nat) : neuralLayer F :=
  { inputs := inputs, outputs := outputs, matrix := createMatrix inputs outputs,
    biases := List.replicate outputs 0 }

/-- The function `createEmptyNetwork`: the array `layers` of a new network,
`numLayers` slots that `calloc` has set to `NULL`. A slot is `none` while it is
`NULL`. -/
def createEmptyNetwork (numLayers : Nat) : List (Option (neuralLayer F)) :=
  List.replicate numLayers none

/-- The loop of `createSizedNetwork` from index `idx` on, with `count`
iterations left: slot `idx` gets `createLayer(oldSize, sizes[idx + 1])`. A read
of `sizes` outside the array makes the result `none`. -/
def createSizedLayers (sizes : List Nat) :
    Nat → Nat → Nat → List (Option (neuralLayer F)) → Option (List (Option (neuralLayer F)))
  | 0, _, _, slots => some slots
  | count + 1, idx, oldSize, slots =>
    match sizes[idx + 1]? with
    | none => none
    | some newSize =>
      createSizedLayers sizes count (idx + 1) newSize
        (slots.set idx (some (createLayer oldSize newSize)))

/-- The network a filled layer array stands for; `none` while a slot is
`NULL`. -/
def filledNetwork : List (Option (neuralLayer F)) → Option (List (neuralLayer F))
  | [] => some []
  | none :: _ => none
  | some l :: rest =>
    match filledNetwork rest with
    | none => none
    | some ls => some (l :: ls)

/-- The function `createSizedNetwork(sizes, numLayers)`. -/
def createSizedNetwork (sizes : List Nat) (numLayers : Nat) : Option (neuralNetwork F) :=
  let slots : List (Option (neuralLayer F)) := createEmptyNetwork numLayers
  match sizes[0]? with
  | none => none
  | some oldSize =>
    match createSizedLayers sizes numLayers 0 oldSize slots with
    | none => none
    | some filled => (filledNetwork filled).map (fun ls => { layers := ls })

/-- The error as the spec words it: the sum of the squares of
`apply(net, data.input) - data.output`, divided by `rows * outputWidth`, the
row count and the width of the forward output. -/
def meanSquaredError (activation : F → F) (network : neuralNetwork F)
    (data : trainingData F) : F :=
  let forward := forwardChain activation network.layers data.input
  ((List.zipWith (fun x y => x - y) forward.vals data.output.vals).map (fun v => v * v)).sum
    / ((forward.height * forward.width : Nat) : F)

end Construction

/-! ## Networks in memory -/

section Memory

variable {F : Type}

/-- The shape of a layer: the counts it reports and the shape of its weight
matrix. -/
def layerShape (l : neuralLayer F) : Nat × Nat × Nat × Nat :=
  (l.inputs, l.outputs, l.matrix.height, l.matrix.width)

/-- The counts `(inputs, outputs)` a layer reports. -/
def layerCounts (l : neuralLayer F) : Nat × Nat := (l.inputs, l.outputs)

/-- The shape of a matrix. -/
def matrixShape (m : matrix F) : Nat × Nat := (m.height, m.width)

/-- A network as the C code holds it: the array `layers` of pointers to layer
objects. A pointer is the address of a layer object in the store of layer
objects, where `store[a]` is the object at address `a`. -/
structure networkRef where
  layers : List Nat
deriving DecidableEq

/-- The layers a list of pointers refers to; `none` when one of them refers to
no object. -/
def layersAt (store : List (neuralLayer F)) : List Nat → Option (List (neuralLayer F))
  | [] => some []
  | a :: rest =>
    match store[a]?, layersAt store rest with
    | some l, some ls => some (l :: ls)
    | _, _ => none

/-- The network a reference denotes in a store. -/
def networkAt (store : List (neuralLayer F)) (ref : networkRef) : Option (neuralNetwork F) :=
  (layersAt store ref.layers).map (fun ls => { layers := ls })

/-- Modelled from the spec: `cloneLayer(source, target)` on the store. With a
`NULL` target it allocates a new layer object holding a deep copy of the source
and returns its address; with a target it overwrites the weights and biases of
the target object and returns the target. -/
def cloneLayerAt (store : List (neuralLayer F)) (source : Nat) (target : Option Nat) :
    Option (List (neuralLayer F) × Nat) :=
  match store[source]? with
  | none => none
  | some s =>
    match target with
    | none => some (store ++ [cloneLayer s none], store.length)
    | some t =>
      match store[t]? with
      | none => none
      | some old => some (store.set t (cloneLayer s (some old)), t)

/-- The loop of `cloneNeuralNetwork` on the store: the new store and the
pointers written to `clone->layers`. -/
def cloneLayersAt (store : List (neuralLayer F)) :
    List Nat → Option (List (neuralLayer F) × List Nat)
  | [] => some (store, [])
  | a :: rest =>
    match cloneLayerAt store a none with
    | none => none
    | some (store1, c) =>
      match cloneLayersAt store1 rest with
      | none => none
      | some (store2, cs) => some (store2, c :: cs)

/-- The function `cloneNeuralNetwork` on the store: the new store and the
clone. -/
def cloneNeuralNetworkAt (store : List (neuralLayer F)) (network : networkRef) :
    Option (List (neuralLayer F) × networkRef) :=
  (cloneLayersAt store network.layers).map (fun r => (r.1, { layers := r.2 }))

/-- The loop of `copyNeuralNetwork` on the store, over the layers of the
target. -/
def copyLayersAt (store : List (neuralLayer F)) :
    List Nat → List Nat → Option (List (neuralLayer F))
  | _, [] => some store
  | [], _ :: _ => none
  | s :: ss, t :: ts =>
    match cloneLayerAt store s (some t) with
    | none => none
    | some (store1, _) => copyLayersAt store1 ss ts

/-- The function `copyNeuralNetwork(network, target)` on the store: the new
store and the returned pointer, which is `target`. -/
def copyNeuralNetworkAt (store : List (neuralLayer F)) (network target : networkRef) :
    Option (List (neuralLayer F) × networkRef) :=
  (copyLayersAt store network.layers target.layers).map (fun st => (st, target))

end Memory

/-! ## More concrete data -/

/-- A network of one layer `2 -> 3` whose values are all zero. -/
def firstOnly : neuralNetwork Int := ⟨[⟨2, 3, ⟨2, 3, [0, 0, 0, 0, 0, 0]⟩, [0, 0, 0]⟩]⟩

/-- A store of four layer objects: the layers of `specNet` at addresses 0 and
1, and two layers of the same shapes with zero values at addresses 2 and 3. -/
def fourLayers : List (neuralLayer Int) :=
  [⟨2, 3, ⟨2, 3, [1, 2, 3, 4, 5, 6]⟩, [7, 8, 9]⟩, ⟨3, 1, ⟨3, 1, [10, 11, 12]⟩, [13]⟩,
   ⟨2, 3, ⟨2, 3, [0, 0, 0, 0, 0, 0]⟩, [0, 0, 0]⟩, ⟨3, 1, ⟨3, 1, [0, 0, 0]⟩, [0]⟩]

/-- A generator with values in `[0, 1)`: every draw is 3/4. -/
def upRand (_ : Nat) : ℚ := 3 / 4

/-- A stand-in for the single precision `expf` near 0: for `0 ≤ x < 2^-25` the
single nearest to `e^x` is exactly 1, so the value there is 1; elsewhere the
value is that of `toyExp`. It is positive, monotone and at least 1 from 0
on. -/
def roundedExp (x : ℚ) : ℚ := if 0 ≤ x ∧ x < 1 / 2 ^ 25 then 1 else toyExp x

/-- The state `annealNetwork` starts its loop in on `driftNet` and
`biasTrain`: the error of `driftNet` is 1. -/
def driftStart : annealState ℚ :=
  { current := driftNet, best := driftNet, mutant := driftNet,
    output := ⟨1, 1, [-1]⟩, intermediates := [], temp := 5, cyclesWorse := 0,
    initialError := 1, currentStateError := 1, bestStateError := 1, draws := 0,
    mutantErrors := [], accepted := false, reset := false }

/-- The state one cycle after `driftStart` with the generator `upRand`: the
mutant (bias -3/4, error 9/16) was accepted and recorded as `best`. -/
def driftStep : annealState ℚ :=
  { current := ⟨[⟨0, 1, ⟨0, 1, []⟩, [-3 / 4]⟩]⟩, best := ⟨[⟨0, 1, ⟨0, 1, []⟩, [-3 / 4]⟩]⟩,
    mutant := ⟨[⟨0, 1, ⟨0, 1, []⟩, [-3 / 4]⟩]⟩,
    output := ⟨1, 1, [-3 / 4]⟩, intermediates := [], temp := 5, cyclesWorse := 0,
    initialError := 1, currentStateError := 9 / 16, bestStateError := 9 / 16, draws := 2,
    mutantErrors := [9 / 16], accepted := true, reset := false }

/-! ## Lemmas on the codec -/

theorem store_append (pre post : List Int) (y v : Int) :
    store (pre ++ y :: post) pre.length v = .ok (pre ++ v :: post) := by
  simp [store]

theorem memcpy_append (n : Nat) : ∀ (src pre post : List Int),
    n ≤ src.length → n ≤ post.length →
    memcpy (pre ++ post) pre.length src n = .ok (pre ++ src.take n ++ post.drop n) := by
  induction n with
  | zero => intro src pre post _ _; simp [memcpy]
  | succ n ih =>
    intro src pre post hs hp
    cases src with
    | nil => simp at hs
    | cons x xs =>
      cases post with
      | nil => simp at hp
      | cons y ys =>
        simp only [List.length_cons, Nat.add_le_add_iff_right] at hs hp
        rw [memcpy, store_append]
        have h := ih xs (pre ++ [x]) ys hs hp
        simp only [List.length_append, List.length_singleton, List.append_assoc,
          List.singleton_append] at h
        simp [h]

theorem load_append (pre post : List Int) (y : Int) :
    load (pre ++ y :: post) pre.length = .ok y := by
  have h : (pre ++ y :: post)[pre.length]? = some y := by
    rw [List.getElem?_append_right (Nat.le_refl _)]; simp
  simp [load, h]

theorem loadMany_append (xs : List Int) : ∀ (pre post : List Int),
    loadMany (pre ++ xs ++ post) pre.length xs.length = .ok xs := by
  induction xs with
  | nil => intro pre post; simp [loadMany]
  | cons x xs ih =>
    intro pre post
    have h := ih (pre ++ [x]) post
    simp only [List.length_append, List.length_singleton, List.append_assoc,
      List.singleton_append] at h
    simp only [List.length_cons, loadMany, List.append_assoc, List.cons_append]
    rw [load_append]
    simp only [List.cons_append] at h
    simp [h, bind, Except.bind]

theorem layerWords_length (l : neuralLayer Int) (h : layerHolds l) :
    (layerWords l).length = 2 + l.inputs * l.outputs + l.outputs := by
  obtain ⟨h1, h2⟩ := h
  simp only [layerWords, List.length_cons, List.length_append, List.length_take]
  omega

theorem store_at (pre post : List Int) (y v : Int) (pos : Nat) (hpos : pos = pre.length) :
    store (pre ++ y :: post) pos v = .ok (pre ++ v :: post) := by
  subst hpos; exact store_append pre post y v

theorem memcpy_at (n : Nat) (src pre post : List Int) (pos : Nat) (hpos : pos = pre.length)
    (hs : n ≤ src.length) (hp : n ≤ post.length) :
    memcpy (pre ++ post) pos src n = .ok (pre ++ src.take n ++ post.drop n) := by
  subst hpos; exact memcpy_append n src pre post hs hp

theorem encodeLayers_append (ls : List (neuralLayer Int)) : ∀ (pre post : List Int),
    (∀ l ∈ ls, layerHolds l) → (layersWords ls).length ≤ post.length →
    encodeLayers ls (pre ++ post) pre.length
      = .ok (pre ++ layersWords ls ++ post.drop (layersWords ls).length) := by
  induction ls with
  | nil => intro pre post _ _; simp [encodeLayers, layersWords]
  | cons l rest ih =>
    intro pre post hall hlen
    have hl : layerHolds l := hall l (List.mem_cons_self _ _)
    have hrest : ∀ l1 ∈ rest, layerHolds l1 := fun l1 h1 => hall l1 (List.mem_cons_of_mem _ h1)
    have hlw := layerWords_length l hl
    obtain ⟨hv, hb⟩ := hl
    simp only [layersWords, List.length_append] at hlen
    rw [hlw] at hlen
    match post, hlen with
    | [], hlen => simp at hlen
    | [_], hlen => simp at hlen; omega
    | a :: b :: post2, hlen =>
      simp only [List.length_cons] at hlen
      have e1 : store (pre ++ a :: b :: post2) pre.length (l.inputs : Int)
          = .ok (pre ++ (l.inputs : Int) :: b :: post2) := store_append _ _ _ _
      have e2 : store (pre ++ (l.inputs : Int) :: b :: post2) (pre.length + 1) (l.outputs : Int)
          = .ok ((pre ++ [(l.inputs : Int), (l.outputs : Int)]) ++ post2) := by
        have := store_at (pre ++ [(l.inputs : Int)]) post2 b (l.outputs : Int) (pre.length + 1)
          (by simp)
        simpa using this
      have e3 := memcpy_at (l.inputs * l.outputs) l.matrix.vals
          (pre ++ [(l.inputs : Int), (l.outputs : Int)]) post2 (pre.length + 1 + 1) (by simp)
          hv (by omega)
      have e4 := memcpy_at l.outputs l.biases
          (pre ++ [(l.inputs : Int), (l.outputs : Int)] ++ l.matrix.vals.take (l.inputs * l.outputs))
          (post2.drop (l.inputs * l.outputs)) (pre.length + 1 + 1 + l.inputs * l.outputs)
          (by simp [Nat.min_eq_left hv]; omega) hb (by simp; omega)
      have e5 := ih ((pre ++ [(l.inputs : Int), (l.outputs : Int)]
              ++ l.matrix.vals.take (l.inputs * l.outputs)) ++ l.biases.take l.outputs)
              ((post2.drop (l.inputs * l.outputs)).drop l.outputs) hrest (by simp; omega)
      have e6 : ((pre ++ [(l.inputs : Int), (l.outputs : Int)]
              ++ l.matrix.vals.take (l.inputs * l.outputs)) ++ l.biases.take l.outputs).length
            = pre.length + 1 + 1 + l.inputs * l.outputs + l.outputs := by
        simp [Nat.min_eq_left hv, Nat.min_eq_left hb]; omega
      rw [e6] at e5
      simp only [encodeLayers, e1, e2, e3, e4, e5, bind, Except.bind]
      congr 1
      simp only [layersWords, layerWords, List.append_assoc, List.cons_append, List.nil_append,
        List.length_append, List.length_cons, List.length_take, Nat.min_eq_left hv,
        Nat.min_eq_left hb, List.drop_drop, List.append_cancel_left_eq, List.cons.injEq, true_and]
      have hd : ∀ k, List.drop (k + 1 + 1) (a :: b :: post2) = List.drop k post2 := fun _ => rfl
      rw [hd, Nat.add_assoc]

theorem load_at (pre post : List Int) (y : Int) (pos : Nat) (hpos : pos = pre.length) :
    load (pre ++ y :: post) pos = .ok y := by
  subst hpos; exact load_append pre post y

theorem loadMany_at (xs pre post : List Int) (pos n : Nat) (hpos : pos = pre.length)
    (hn : n = xs.length) : loadMany (pre ++ xs ++ post) pos n = .ok xs := by
  subst hpos; subst hn; exact loadMany_append xs pre post

theorem decodeLayers_append (ls : List (neuralLayer Int)) : ∀ (pre post : List Int),
    (∀ l ∈ ls, layerHolds l) →
    decodeLayers (pre ++ layersWords ls ++ post) ls.length pre.length
      = .ok (ls.map relaidLayer) := by
  induction ls with
  | nil => intro pre post _; simp [decodeLayers]
  | cons l rest ih =>
    intro pre post hall
    have hl : layerHolds l := hall l (List.mem_cons_self _ _)
    have hrest : ∀ l1 ∈ rest, layerHolds l1 := fun l1 h1 => hall l1 (List.mem_cons_of_mem _ h1)
    obtain ⟨hv, hb⟩ := hl
    have e1 : load (pre ++ layersWords (l :: rest) ++ post) pre.length = .ok (l.inputs : Int) := by
      have := load_at pre ((l.outputs : Int) :: (l.matrix.vals.take (l.inputs * l.outputs)
        ++ l.biases.take l.outputs) ++ layersWords rest ++ post) (l.inputs : Int) pre.length rfl
      simpa [layersWords, layerWords] using this
    have e2 : load (pre ++ layersWords (l :: rest) ++ post) (pre.length + 1)
        = .ok (l.outputs : Int) := by
      have := load_at (pre ++ [(l.inputs : Int)]) ((l.matrix.vals.take (l.inputs * l.outputs)
        ++ l.biases.take l.outputs) ++ layersWords rest ++ post) (l.outputs : Int)
        (pre.length + 1) (by simp)
      simpa [layersWords, layerWords] using this
    have e3 : loadMany (pre ++ layersWords (l :: rest) ++ post) (pre.length + 1 + 1)
        (l.inputs * l.outputs) = .ok (l.matrix.vals.take (l.inputs * l.outputs)) := by
      have := loadMany_at (l.matrix.vals.take (l.inputs * l.outputs))
        (pre ++ [(l.inputs : Int), (l.outputs : Int)])
        (l.biases.take l.outputs ++ layersWords rest ++ post) (pre.length + 1 + 1)
        (l.inputs * l.outputs) (by simp) (by simp [Nat.min_eq_left hv])
      simpa [layersWords, layerWords] using this
    have e4 : loadMany (pre ++ layersWords (l :: rest) ++ post)
        (pre.length + 1 + 1 + l.inputs * l.outputs)
        l.outputs = .ok (l.biases.take l.outputs) := by
      have := loadMany_at (l.biases.take l.outputs)
        (pre ++ [(l.inputs : Int), (l.outputs : Int)] ++ l.matrix.vals.take (l.inputs * l.outputs))
        (layersWords rest ++ post) (pre.length + 1 + 1 + l.inputs * l.outputs)
        l.outputs (by simp [Nat.min_eq_left hv]; omega) (by simp [Nat.min_eq_left hb])
      simpa [layersWords, layerWords] using this
    have e5 := ih (pre ++ layerWords l) post hrest
    have e6 : (pre ++ layerWords l).length
        = pre.length + 1 + 1 + l.inputs * l.outputs + l.outputs := by
      simp [layerWords, Nat.min_eq_left hv, Nat.min_eq_left hb]; omega
    have e7 : pre ++ layerWords l ++ layersWords rest ++ post
        = pre ++ layersWords (l :: rest) ++ post := by
      simp [layersWords]
    rw [e6, e7] at e5
    have hneg : ¬ ((l.inputs : Int) < 0 ∨ (l.outputs : Int) < 0) := by omega
    have hmul : ((l.inputs : Int) * (l.outputs : Int)).toNat = l.inputs * l.outputs := by
      rw [← Int.natCast_mul]; exact Int.toNat_natCast _
    simp only [List.length_cons, decodeLayers, e1, e2, createLayerWithValues, hneg, if_false,
      Int.toNat_natCast, hmul, e3, e4, e5, bind, Except.bind, List.map_cons, relaidLayer]

theorem encodedSizeLoop_eq (ls : List (neuralLayer Int)) : ∀ acc : Nat,
    encodedSizeLoop ls acc
      = acc + (ls.map (fun l => 4 + 4 + 4 * ((l.matrix.width + 1) * l.matrix.height))).sum := by
  induction ls with
  | nil => intro acc; simp [encodedSizeLoop]
  | cons l rest ih =>
    intro acc
    simp only [encodedSizeLoop, ih, List.map_cons, List.sum_cons, sizeofNetF, sizeofInt]
    ring

theorem layersWords_size (ls : List (neuralLayer Int)) (h : ∀ l ∈ ls, layerHolds l) :
    4 * (layersWords ls).length
      = (ls.map (fun l => 4 + 4 + 4 * (l.inputs * l.outputs + l.outputs))).sum := by
  induction ls with
  | nil => simp [layersWords]
  | cons l rest ih =>
    have h1 := layerWords_length l (h l (List.mem_cons_self _ _))
    have h2 := ih (fun l1 hl1 => h l1 (List.mem_cons_of_mem _ hl1))
    simp only [layersWords, List.length_append, List.map_cons, List.sum_cons, h1]
    omega

theorem networkWords_size (network : neuralNetwork Int)
    (h : ∀ l ∈ network.layers, layerHolds l) :
    4 * (networkWords network).length = declaredSize network := by
  have := layersWords_size network.layers h
  simp only [networkWords, declaredSize, List.length_cons]
  omega

theorem malloc_length (content : Nat → Int) (size : Nat) :
    ∃ block, malloc (some content) size = some block ∧ block.length = size / 4 := by
  exact ⟨_, rfl, by simp [sizeofInt]⟩

theorem encode_ok (content : Nat → Int) (network : neuralNetwork Int)
    (h : ∀ l ∈ network.layers, layerHolds l)
    (hroom : declaredSize network ≤ encodedSizeLoop network.layers sizeofInt) :
    ∃ tail, encodeNeuralNetwork (some content) network
      = .ok { start := some (networkWords network ++ tail),
              length := encodedSizeLoop network.layers sizeofInt } ∧
      4 * (networkWords network ++ tail).length = encodedSizeLoop network.layers sizeofInt := by
  obtain ⟨block, hb, hlen⟩ := malloc_length content (encodedSizeLoop network.layers sizeofInt)
  have hw := networkWords_size network h
  have hdiv : 4 * (encodedSizeLoop network.layers sizeofInt / 4)
      = encodedSizeLoop network.layers sizeofInt := by
    rw [encodedSizeLoop_eq]
    have : ∀ ls : List (neuralLayer Int), ∃ k,
        (ls.map (fun l => 4 + 4 + 4 * ((l.matrix.width + 1) * l.matrix.height))).sum = 4 * k := by
      intro ls
      induction ls with
      | nil => exact ⟨0, by simp⟩
      | cons l rest ih =>
        obtain ⟨k, hk⟩ := ih
        exact ⟨2 + (l.matrix.width + 1) * l.matrix.height + k, by
          simp only [List.map_cons, List.sum_cons, hk]; ring⟩
    obtain ⟨k, hk⟩ := this network.layers
    rw [hk, sizeofInt]
    omega
  have hwl : (networkWords network).length ≤ block.length := by
    rw [hlen]; omega
  simp only [networkWords, List.length_cons] at hwl
  match block, hb, hlen, hwl with
  | [], _, _, hwl => simp at hwl
  | b0 :: rest0, hb, hlen, hwl =>
    simp only [List.length_cons, Nat.add_le_add_iff_right] at hwl
    have e1 : store (b0 :: rest0) 0 (network.numLayers : Int)
        = .ok ([(network.numLayers : Int)] ++ rest0) := by
      simp [store]
    have e2 := encodeLayers_append network.layers [(network.numLayers : Int)] rest0 h hwl
    refine ⟨rest0.drop (layersWords network.layers).length, ?_, ?_⟩
    · simp only [encodeNeuralNetwork, hb, e1, bind, Except.bind]
      simp only [List.length_singleton, List.singleton_append, List.cons_append,
        List.nil_append] at e2
      simp [e2, networkWords]
    · rw [← hdiv, ← hlen]
      simp only [networkWords, List.cons_append, List.length_cons, List.length_append,
        List.length_drop]
      omega

theorem decode_words (network : neuralNetwork Int) (tail : List Int) (length : Nat)
    (h : ∀ l ∈ network.layers, layerHolds l) :
    decodeNeuralNetwork { start := some (networkWords network ++ tail), length := length }
      = .ok { layers := network.layers.map relaidLayer } := by
  have e1 : load (networkWords network ++ tail) 0 = .ok (network.numLayers : Int) := by
    simp [load, networkWords]
  have e2 := decodeLayers_append network.layers [(network.numLayers : Int)] tail h
  simp only [List.length_singleton] at e2
  have e3 : [(network.numLayers : Int)] ++ layersWords network.layers ++ tail
      = networkWords network ++ tail := by simp [networkWords]
  rw [e3] at e2
  simp only [decodeNeuralNetwork, e1, bind, Except.bind, Int.toNat_natCast,
    neuralNetwork.numLayers]
  simp [e2]

theorem relaidLayer_full (l : neuralLayer Int)
    (h : l.matrix.vals.length = l.inputs * l.outputs ∧ l.biases.length = l.outputs) :
    (relaidLayer l).inputs = l.inputs ∧ (relaidLayer l).outputs = l.outputs ∧
    (relaidLayer l).matrix.vals = l.matrix.vals ∧ (relaidLayer l).biases = l.biases := by
  obtain ⟨h1, h2⟩ := h
  refine ⟨rfl, rfl, ?_, ?_⟩
  · simp [relaidLayer, ← h1]
  · simp [relaidLayer, ← h2]

theorem holds_of_full (ls : List (neuralLayer Int))
    (h : ∀ l ∈ ls, l.matrix.vals.length = l.inputs * l.outputs ∧ l.biases.length = l.outputs) :
    ∀ l ∈ ls, layerHolds l := by
  intro l hl
  obtain ⟨h1, h2⟩ := h l hl
  exact ⟨by omega, by omega⟩

theorem transposed_size (network : neuralNetwork Int)
    (hshape : ∀ l ∈ network.layers, l.matrix.height = l.outputs ∧ l.matrix.width = l.inputs) :
    encodedSizeLoop network.layers sizeofInt = declaredSize network := by
  rw [encodedSizeLoop_eq, declaredSize, sizeofInt]
  congr 2
  apply List.map_congr_left
  intro l hl
  obtain ⟨h1, h2⟩ := hshape l hl
  rw [h1, h2]; ring

theorem loadMany_ok (buf : List Int) : ∀ (n pos : Nat), pos + n ≤ buf.length →
    ∃ xs, loadMany buf pos n = .ok xs := by
  intro n
  induction n with
  | zero => intro pos _; exact ⟨[], rfl⟩
  | succ n ih =>
    intro pos h
    obtain ⟨xs, hxs⟩ := ih (pos + 1) (by omega)
    have hlt : pos < buf.length := by omega
    refine ⟨buf[pos] :: xs, ?_⟩
    simp [loadMany, load, List.getElem?_eq_getElem hlt, hxs, bind, Except.bind]

theorem loadMany_past (buf : List Int) : ∀ (n pos : Nat), buf.length < pos + n →
    pos ≤ buf.length → ∃ p, buf.length ≤ p ∧ loadMany buf pos n = .error (.readPastEnd p) := by
  intro n
  induction n with
  | zero => intro pos h1 h2; omega
  | succ n ih =>
    intro pos h1 h2
    by_cases hlt : pos < buf.length
    · obtain ⟨p, hp, hl⟩ := ih (pos + 1) (by omega) (by omega)
      exact ⟨p, hp, by
        simp [loadMany, load, List.getElem?_eq_getElem hlt, hl, bind, Except.bind]⟩
    · have hnone : buf[pos]? = none := List.getElem?_eq_none (by omega)
      exact ⟨pos, by omega, by simp [loadMany, load, hnone, bind, Except.bind]⟩

theorem decodeLayers_past (buf : List Int) : ∀ (remaining pos : Nat), pos ≤ buf.length →
    buf.length < declaredWordsFrom buf remaining pos →
    ∃ p, buf.length ≤ p ∧ decodeLayers buf remaining pos = .error (.readPastEnd p) := by
  intro remaining
  induction remaining with
  | zero => intro pos h1 h2; simp only [declaredWordsFrom] at h2; omega
  | succ k ih =>
    intro pos h1 h2
    by_cases hlt : pos < buf.length
    · by_cases hlt1 : pos + 1 < buf.length
      · have g0 : buf[pos]? = some buf[pos] := List.getElem?_eq_getElem hlt
        have g1 : buf[pos + 1]? = some buf[pos + 1] := List.getElem?_eq_getElem hlt1
        simp only [declaredWordsFrom, g0, g1] at h2
        by_cases hneg : buf[pos] < 0 ∨ buf[pos + 1] < 0
        · simp only [hneg, if_true] at h2; omega
        · simp only [hneg, if_false] at h2
          simp only [decodeLayers, load, g0, g1, createLayerWithValues, hneg, if_false, bind,
            Except.bind]
          have hmul : buf[pos].toNat * buf[pos + 1].toNat = (buf[pos] * buf[pos + 1]).toNat := by
            have a0 : 0 ≤ buf[pos] := by omega
            have a1 : 0 ≤ buf[pos + 1] := by omega
            apply Int.ofNat_inj.mp
            push_cast
            rw [Int.toNat_of_nonneg a0, Int.toNat_of_nonneg a1,
              Int.toNat_of_nonneg (mul_nonneg a0 a1)]
          rw [hmul]
          by_cases hw : pos + 1 + 1 + (buf[pos] * buf[pos + 1]).toNat ≤ buf.length
          · obtain ⟨ws, hws⟩ := loadMany_ok buf _ _ hw
            rw [hws]
            by_cases hbs : pos + 1 + 1 + (buf[pos] * buf[pos + 1]).toNat + buf[pos + 1].toNat
                ≤ buf.length
            · obtain ⟨bs, hbs1⟩ := loadMany_ok buf _ _ hbs
              obtain ⟨p, hp, hrest⟩ := ih _ hbs h2
              exact ⟨p, hp, by simp [hbs1, hrest]⟩
            · obtain ⟨p, hp, hl⟩ := loadMany_past buf buf[pos + 1].toNat
                (pos + 1 + 1 + (buf[pos] * buf[pos + 1]).toNat) (by omega) hw
              exact ⟨p, hp, by simp [hl]⟩
          · obtain ⟨p, hp, hl⟩ := loadMany_past buf (buf[pos] * buf[pos + 1]).toNat
              (pos + 1 + 1) (by omega) (by omega)
            exact ⟨p, hp, by simp [hl]⟩
      · have g0 : buf[pos]? = some buf[pos] := List.getElem?_eq_getElem hlt
        have g1 : buf[pos + 1]? = none := List.getElem?_eq_none (by omega)
        exact ⟨pos + 1, by omega, by simp [decodeLayers, load, g0, g1, bind, Except.bind]⟩
    · have g0 : buf[pos]? = none := List.getElem?_eq_none (by omega)
      exact ⟨pos, by omega, by simp [decodeLayers, load, g0, bind, Except.bind]⟩

theorem decode_past (buf : List Int) (length : Nat)
    (hshort : buf.length < declaredWords buf) :
    ∃ pos, buf.length ≤ pos ∧
      decodeNeuralNetwork { start := some buf, length := length } = .error (.readPastEnd pos) := by
  unfold declaredWords at hshort
  cases hb : buf[0]? with
  | none =>
    exact ⟨0, by
      have := List.getElem?_eq_none_iff.mp hb
      omega, by simp [decodeNeuralNetwork, load, hb, bind, Except.bind]⟩
  | some layers =>
    rw [hb] at hshort
    have h1 : 1 ≤ buf.length := by
      cases buf with
      | nil => simp at hb
      | cons _ _ => simp
    obtain ⟨p, hp, hd⟩ := decodeLayers_past buf layers.toNat 1 h1 hshort
    exact ⟨p, hp, by simp [decodeNeuralNetwork, load, hb, hd, bind, Except.bind]⟩

theorem declaredWordsFrom_ge (buf : List Int) : ∀ (remaining pos : Nat),
    pos ≤ declaredWordsFrom buf remaining pos := by
  intro remaining
  induction remaining with
  | zero => intro pos; simp [declaredWordsFrom]
  | succ k ih =>
    intro pos
    simp only [declaredWordsFrom]
    split
    · split
      · omega
      · exact le_trans (by omega) (ih _)
    · omega

theorem decodeLayers_fits (buf : List Int) : ∀ (remaining pos : Nat),
    declaredWordsFrom buf remaining pos ≤ buf.length →
    (∃ ls, decodeLayers buf remaining pos = .ok ls) ∨
      decodeLayers buf remaining pos = .error .negativeSize := by
  intro remaining
  induction remaining with
  | zero => intro pos _; exact Or.inl ⟨[], rfl⟩
  | succ k ih =>
    intro pos h
    by_cases hlt1 : pos + 1 < buf.length
    · have hlt : pos < buf.length := by omega
      have g0 : buf[pos]? = some buf[pos] := List.getElem?_eq_getElem hlt
      have g1 : buf[pos + 1]? = some buf[pos + 1] := List.getElem?_eq_getElem hlt1
      simp only [declaredWordsFrom, g0, g1] at h
      by_cases hneg : buf[pos] < 0 ∨ buf[pos + 1] < 0
      · right
        simp [decodeLayers, load, g0, g1, createLayerWithValues, hneg, bind, Except.bind]
      · simp only [hneg, if_false] at h
        have hge := declaredWordsFrom_ge buf k
          (pos + 2 + (buf[pos] * buf[pos + 1]).toNat + buf[pos + 1].toNat)
        have hmul : buf[pos].toNat * buf[pos + 1].toNat = (buf[pos] * buf[pos + 1]).toNat := by
          have a0 : 0 ≤ buf[pos] := by omega
          have a1 : 0 ≤ buf[pos + 1] := by omega
          apply Int.ofNat_inj.mp
          push_cast
          rw [Int.toNat_of_nonneg a0, Int.toNat_of_nonneg a1,
            Int.toNat_of_nonneg (mul_nonneg a0 a1)]
        obtain ⟨ws, hws⟩ := loadMany_ok buf (buf[pos] * buf[pos + 1]).toNat (pos + 1 + 1)
          (by omega)
        obtain ⟨bs, hbs⟩ := loadMany_ok buf buf[pos + 1].toNat
          (pos + 1 + 1 + (buf[pos] * buf[pos + 1]).toNat) (by omega)
        simp only [decodeLayers, load, g0, g1, createLayerWithValues, hneg, if_false, bind,
          Except.bind, hmul, hws, hbs]
        rcases ih _ h with ⟨ls, hls⟩ | herr
        · left; exact ⟨_, by rw [hls]⟩
        · right; rw [herr]
    · exfalso
      have : declaredWordsFrom buf (k + 1) pos = pos + 2 := by
        simp only [declaredWordsFrom]
        have g1 : buf[pos + 1]? = none := List.getElem?_eq_none (by omega)
        rw [g1]
        split
        · rename_i heq; simp at heq
        · rfl
      omega

theorem store_in_block (buf : List Int) (pos : Nat) (v : Int) (h : pos < buf.length) :
    ∃ b, store buf pos v = .ok b ∧ b.length = buf.length := by
  exact ⟨buf.set pos v, by simp [store, h], by simp⟩

theorem store_past_block (buf : List Int) (pos : Nat) (v : Int) (h : buf.length ≤ pos) :
    store buf pos v = .error (.writePastEnd pos) := by
  simp [store, Nat.not_lt.mpr h]

theorem memcpy_in_block (count : Nat) : ∀ (src buf : List Int) (dst : Nat),
    count ≤ src.length → dst + count ≤ buf.length →
    ∃ b, memcpy buf dst src count = .ok b ∧ b.length = buf.length := by
  induction count with
  | zero => intro src buf dst _ _; exact ⟨buf, by simp [memcpy], rfl⟩
  | succ n ih =>
    intro src buf dst hs hd
    cases src with
    | nil => simp at hs
    | cons x xs =>
      obtain ⟨b1, hb1, hl1⟩ := store_in_block buf dst x (by omega)
      obtain ⟨b2, hb2, hl2⟩ := ih xs b1 (dst + 1) (by simpa using hs) (by omega)
      exact ⟨b2, by rw [memcpy, hb1]; exact hb2, by omega⟩

theorem memcpy_past_block (count : Nat) : ∀ (src buf : List Int) (dst : Nat),
    count ≤ src.length → buf.length < dst + count → dst ≤ buf.length →
    ∃ p, memcpy buf dst src count = .error (.writePastEnd p) := by
  induction count with
  | zero => intro src buf dst _ h1 h2; omega
  | succ n ih =>
    intro src buf dst hs h1 h2
    cases src with
    | nil => simp at hs
    | cons x xs =>
      by_cases hlt : dst < buf.length
      · obtain ⟨b1, hb1, hl1⟩ := store_in_block buf dst x hlt
        obtain ⟨p, hp⟩ := ih xs b1 (dst + 1) (by simpa using hs) (by omega) (by omega)
        exact ⟨p, by rw [memcpy, hb1]; exact hp⟩
      · exact ⟨dst, by rw [memcpy, store_past_block buf dst x (by omega)]⟩

theorem encodeLayers_past_block (ls : List (neuralLayer Int)) : ∀ (buf : List Int) (pos : Nat),
    (∀ l ∈ ls, layerHolds l) → pos ≤ buf.length →
    buf.length < pos + (layersWords ls).length →
    ∃ p, encodeLayers ls buf pos = .error (.writePastEnd p) := by
  induction ls with
  | nil => intro buf pos _ h1 h2; simp [layersWords] at h2; omega
  | cons l rest ih =>
    intro buf pos hall h1 h2
    have hl : layerHolds l := hall l (List.mem_cons_self _ _)
    have hrest : ∀ l1 ∈ rest, layerHolds l1 := fun l1 h => hall l1 (List.mem_cons_of_mem _ h)
    have hlw := layerWords_length l hl
    obtain ⟨hv, hb⟩ := hl
    simp only [layersWords, List.length_append, hlw] at h2
    by_cases c1 : pos < buf.length
    · obtain ⟨b1, e1, l1⟩ := store_in_block buf pos (l.inputs : Int) c1
      by_cases c2 : pos + 1 < buf.length
      · obtain ⟨b2, e2, l2⟩ := store_in_block b1 (pos + 1) (l.outputs : Int) (by omega)
        by_cases c3 : pos + 1 + 1 + l.inputs * l.outputs ≤ buf.length
        · obtain ⟨b3, e3, l3⟩ := memcpy_in_block (l.inputs * l.outputs) l.matrix.vals b2
            (pos + 1 + 1) hv (by omega)
          by_cases c4 : pos + 1 + 1 + l.inputs * l.outputs + l.outputs ≤ buf.length
          · obtain ⟨b4, e4, l4⟩ := memcpy_in_block l.outputs l.biases b3
              (pos + 1 + 1 + l.inputs * l.outputs) hb (by omega)
            obtain ⟨p, hp⟩ := ih b4 (pos + 1 + 1 + l.inputs * l.outputs + l.outputs) hrest
              (by omega) (by omega)
            exact ⟨p, by simp only [encodeLayers, e1, e2, e3, e4, hp, bind, Except.bind]⟩
          · obtain ⟨p, hp⟩ := memcpy_past_block l.outputs l.biases b3
              (pos + 1 + 1 + l.inputs * l.outputs) hb (by omega) (by omega)
            exact ⟨p, by simp only [encodeLayers, e1, e2, e3, hp, bind, Except.bind]⟩
        · obtain ⟨p, hp⟩ := memcpy_past_block (l.inputs * l.outputs) l.matrix.vals b2
            (pos + 1 + 1) hv (by omega) (by omega)
          exact ⟨p, by simp only [encodeLayers, e1, e2, hp, bind, Except.bind]⟩
      · exact ⟨pos + 1, by
          simp only [encodeLayers, e1, store_past_block b1 (pos + 1) _ (by omega), bind,
            Except.bind]⟩
    · exact ⟨pos, by
        simp only [encodeLayers, store_past_block buf pos _ (by omega), bind, Except.bind]⟩

theorem encodedSize_words (ls : List (neuralLayer Int)) :
    4 * (encodedSizeLoop ls sizeofInt / 4) = encodedSizeLoop ls sizeofInt := by
  rw [encodedSizeLoop_eq]
  have : ∀ ks : List (neuralLayer Int), ∃ k,
      (ks.map (fun l => 4 + 4 + 4 * ((l.matrix.width + 1) * l.matrix.height))).sum = 4 * k := by
    intro ks
    induction ks with
    | nil => exact ⟨0, by simp⟩
    | cons l rest ih =>
      obtain ⟨k, hk⟩ := ih
      exact ⟨2 + (l.matrix.width + 1) * l.matrix.height + k, by
        simp only [List.map_cons, List.sum_cons, hk]; ring⟩
  obtain ⟨k, hk⟩ := this ls
  rw [hk, sizeofInt]
  omega

theorem encode_overrun (content : Nat → Int) (network : neuralNetwork Int)
    (h : ∀ l ∈ network.layers, layerHolds l)
    (hshort : encodedSizeLoop network.layers sizeofInt < declaredSize network) :
    ∃ p, encodeNeuralNetwork (some content) network = .error (.writePastEnd p) := by
  obtain ⟨block, hb, hlen⟩ := malloc_length content (encodedSizeLoop network.layers sizeofInt)
  have hw := networkWords_size network h
  have hdiv := encodedSize_words network.layers
  have hwl : block.length < (networkWords network).length := by
    rw [hlen]; omega
  simp only [networkWords, List.length_cons] at hwl
  have hpos : 1 ≤ block.length := by
    rw [hlen]
    have := encodedSizeLoop_eq network.layers sizeofInt
    simp only [sizeofInt] at this hdiv ⊢
    omega
  obtain ⟨b1, e1, l1⟩ := store_in_block block 0 (network.numLayers : Int) (by omega)
  obtain ⟨p, hp⟩ := encodeLayers_past_block network.layers b1 1 h (by omega) (by omega)
  exact ⟨p, by simp only [encodeNeuralNetwork, hb, e1, hp, bind, Except.bind]⟩

/-! ## The codec: round trip, length, layout, truncated input -/

/-- The round trip where the allocation covers the writes. For every network
whose layers each hold
`inputs*outputs` weights and `outputs` biases, and for which the size
`encodeNeuralNetwork` allocates, `4 + Σ (8 + 4*(width+1)*height)` bytes, is at
least the `4 + Σ (8 + 4*(inputs*outputs + outputs))` bytes it writes (as
it is when every weight matrix has height `outputs` and width `inputs`),
encoding succeeds and decoding the result gives a network with the same number
of layers, the same `(inputs, outputs)` for every layer, and the same weight
and bias values, position by position. -/
theorem decode_encode_roundtrip (content : Nat → Int) (network : neuralNetwork Int)
    (hfull : ∀ l ∈ network.layers,
      l.matrix.vals.length = l.inputs * l.outputs ∧ l.biases.length = l.outputs)
    (hroom : declaredSize network ≤ encodedSizeLoop network.layers sizeofInt) :
    ∃ frag decoded,
      encodeNeuralNetwork (some content) network = .ok frag ∧
      decodeNeuralNetwork frag = .ok decoded ∧
      decoded.numLayers = network.numLayers ∧
      decoded.layers.map (fun l => (l.inputs, l.outputs))
        = network.layers.map (fun l => (l.inputs, l.outputs)) ∧
      decoded.layers.map (fun l => (l.matrix.vals, l.biases))
        = network.layers.map (fun l => (l.matrix.vals, l.biases)) := by
  have hh := holds_of_full network.layers hfull
  obtain ⟨tail, he, _⟩ := encode_ok content network hh hroom
  refine ⟨_, _, he, decode_words network tail _ hh, ?_, ?_, ?_⟩
  · simp [neuralNetwork.numLayers]
  · rw [List.map_map]
    apply List.map_congr_left
    intro l hl
    obtain ⟨h1, h2, _, _⟩ := relaidLayer_full l (hfull l hl)
    simp [h1, h2]
  · rw [List.map_map]
    apply List.map_congr_left
    intro l hl
    obtain ⟨_, _, h3, h4⟩ := relaidLayer_full l (hfull l hl)
    simp [h3, h4]

/-- The round trip at the network `[2 -> 3, 3 -> 1]` stored with height
`outputs` and width `inputs`. -/
theorem decode_encode_roundtrip_witness :
    (∀ l ∈ transNet.layers,
      l.matrix.vals.length = l.inputs * l.outputs ∧ l.biases.length = l.outputs) ∧
    declaredSize transNet ≤ encodedSizeLoop transNet.layers sizeofInt ∧
    ∃ frag decoded,
      encodeNeuralNetwork (some (fun _ => 0)) transNet = .ok frag ∧
      decodeNeuralNetwork frag = .ok decoded ∧
      decoded.numLayers = transNet.numLayers ∧
      decoded.layers.map (fun l => (l.inputs, l.outputs))
        = transNet.layers.map (fun l => (l.inputs, l.outputs)) ∧
      decoded.layers.map (fun l => (l.matrix.vals, l.biases))
        = transNet.layers.map (fun l => (l.matrix.vals, l.biases)) :=
  ⟨by decide, by decide, decode_encode_roundtrip (fun _ => 0) transNet (by decide) (by decide)⟩

/-- The length where the size loop and the write loop agree. The length
`encodeNeuralNetwork` records is
`4 + Σ (4 + 4 + 4*(width+1)*height)` bytes. For every network whose layer i
has a weight matrix of height `outputs_i` and width `inputs_i` (and holds its
values), this is `4 + Σ (4 + 4 + 4*(inputs_i*outputs_i + outputs_i))`, exactly
the bytes the header fields determine, and, when the allocation succeeds,
exactly the bytes written: the block is the layout and nothing else. -/
theorem encoded_length (fresh : Option (Nat → Int)) (network : neuralNetwork Int)
    (hfull : ∀ l ∈ network.layers,
      l.matrix.vals.length = l.inputs * l.outputs ∧ l.biases.length = l.outputs)
    (hshape : ∀ l ∈ network.layers, l.matrix.height = l.outputs ∧ l.matrix.width = l.inputs) :
    ∃ frag, encodeNeuralNetwork fresh network = .ok frag ∧
      frag.length
        = 4 + (network.layers.map
            (fun l => 4 + 4 + 4 * ((l.matrix.width + 1) * l.matrix.height))).sum ∧
      frag.length
        = 4 + (network.layers.map
            (fun l => 4 + 4 + 4 * (l.inputs * l.outputs + l.outputs))).sum ∧
      (fresh.isSome → frag.start = some (networkWords network)) ∧
      4 * (networkWords network).length = frag.length := by
  have hh := holds_of_full network.layers hfull
  have hsz := transposed_size network hshape
  have hw := networkWords_size network hh
  have hgen := encodedSizeLoop_eq network.layers sizeofInt
  cases fresh with
  | none =>
    refine ⟨_, rfl, hgen, hsz, ?_, ?_⟩
    · intro hc; simp at hc
    · show _ = encodedSizeLoop network.layers sizeofInt
      rw [hsz, hw]
  | some content =>
    obtain ⟨tail, he, hl⟩ := encode_ok content network hh (by omega)
    have ht : tail = [] := by
      have : (networkWords network ++ tail).length = (networkWords network).length := by omega
      simpa using this
    subst ht
    refine ⟨_, he, hgen, hsz, ?_, ?_⟩
    · intro _; simp
    · simp only [List.append_nil] at hl; exact hl

/-- The length at layers `[2 -> 3, 3 -> 1]` stored with height `outputs` and
width `inputs`: 72 bytes. -/
theorem encoded_length_witness :
    (∀ l ∈ transNet.layers,
      l.matrix.vals.length = l.inputs * l.outputs ∧ l.biases.length = l.outputs) ∧
    (∀ l ∈ transNet.layers, l.matrix.height = l.outputs ∧ l.matrix.width = l.inputs) ∧
    transNet.layers.map (fun l => (l.inputs, l.outputs)) = [(2, 3), (3, 1)] ∧
    ∃ frag, encodeNeuralNetwork (some (fun _ => 0)) transNet = .ok frag ∧
      frag.length = 72 ∧
      frag.length = 4 + 2 * (4 + 4) + (2 * 3 + 3) * 4 + (3 * 1 + 1) * 4 ∧
      ((some (fun _ : Nat => (0 : Int))).isSome → frag.start = some (networkWords transNet)) ∧
      4 * (networkWords transNet).length = frag.length :=
  ⟨by decide, by decide, by decide,
    encoded_length (some (fun _ => 0)) transNet (by decide) (by decide)⟩

/-- Claim C3, amended. For every network whose layers each hold
`inputs*outputs` weights and `outputs` biases and for which the allocation
covers what is written, the buffer `encodeNeuralNetwork` returns starts with
`numLayers`, followed for each layer in order, without padding, by `inputs`,
`outputs`, the weight values in storage order, then the bias values in order.
The value the matrix holds at `(row, col)` sits at index `row * width + col`
of the weight values; that is `in * outputs + out` only for a matrix whose
width is `outputs`. -/
theorem encoded_layout (content : Nat → Int) (network : neuralNetwork Int)
    (hfull : ∀ l ∈ network.layers,
      l.matrix.vals.length = l.inputs * l.outputs ∧ l.biases.length = l.outputs)
    (hroom : declaredSize network ≤ encodedSizeLoop network.layers sizeofInt) :
    (∃ frag tail, encodeNeuralNetwork (some content) network = .ok frag ∧
      frag.start = some ((network.numLayers : Int) :: layersWords network.layers ++ tail)) ∧
    (∀ l ∈ network.layers,
      layerWords l = (l.inputs : Int) :: (l.outputs : Int) :: (l.matrix.vals ++ l.biases)) ∧
    (∀ l ∈ network.layers, ∀ row col : Nat,
      row * l.matrix.width + col < l.inputs * l.outputs →
      (l.matrix.vals ++ l.biases)[row * l.matrix.width + col]?
        = getMatrixVal l.matrix row col) := by
  have hh := holds_of_full network.layers hfull
  obtain ⟨tail, he, _⟩ := encode_ok content network hh hroom
  refine ⟨⟨_, tail, he, rfl⟩, ?_, ?_⟩
  · intro l hl
    obtain ⟨h1, h2⟩ := hfull l hl
    rw [layerWords, List.take_of_length_le (by omega), List.take_of_length_le (by omega)]
  · intro l hl row col hlt
    obtain ⟨h1, _⟩ := hfull l hl
    rw [getMatrixVal, matrixIndex, List.getElem?_append_left (by omega)]

/-- The layout at layers `[2 -> 3, 3 -> 1]` whose weight matrices have height
`inputs` and width `outputs`; the 76 bytes allocated cover the 72 written. -/
theorem encoded_layout_witness :
    (∀ l ∈ specNet.layers,
      l.matrix.vals.length = l.inputs * l.outputs ∧ l.biases.length = l.outputs) ∧
    declaredSize specNet ≤ encodedSizeLoop specNet.layers sizeofInt ∧
    ((∃ frag tail, encodeNeuralNetwork (some (fun _ => 0)) specNet = .ok frag ∧
      frag.start = some ((specNet.numLayers : Int) :: layersWords specNet.layers ++ tail)) ∧
    (∀ l ∈ specNet.layers,
      layerWords l = (l.inputs : Int) :: (l.outputs : Int) :: (l.matrix.vals ++ l.biases)) ∧
    (∀ l ∈ specNet.layers, ∀ row col : Nat,
      row * l.matrix.width + col < l.inputs * l.outputs →
      (l.matrix.vals ++ l.biases)[row * l.matrix.width + col]?
        = getMatrixVal l.matrix row col)) :=
  ⟨by decide, by decide, encoded_layout (fun _ => 0) specNet (by decide) (by decide)⟩

/-- Claim C3 as stated fails whichever way the weight matrix is stored. At
layers `[2 -> 3, 3 -> 1]` stored with height `outputs` and width `inputs`, the
storage the size formula of `encodeNeuralNetwork` is written for, the weight
values of the first layer are written as `1, 2, 3, 4, 5, 6`: index
`in * outputs + out` for `in = 1`, `out = 0` holds 4, and the matrix holds 3
at `(row = 1, col = 0)`. At the layer `0 -> 1` stored with height `inputs` and
width `outputs`, 12 bytes are allocated and the bias, written at word 3, lies
past the block: the buffer does not hold the bias values. -/
theorem layout_index_mismatch :
    (∀ l ∈ transNet.layers,
      l.matrix.vals.length = l.inputs * l.outputs ∧ l.biases.length = l.outputs) ∧
    (encodeNeuralNetwork (some (fun _ => 0)) transNet).map (fun frag => frag.start)
      = .ok (some [2, 2, 3, 1, 2, 3, 4, 5, 6, 7, 8, 9, 3, 1, 10, 11, 12, 13]) ∧
    transNet.layers.head?.map (fun l => (l.inputs, l.outputs, l.matrix.height, l.matrix.width))
      = some (2, 3, 3, 2) ∧
    ([1, 2, 3, 4, 5, 6] : List Int)[1 * 3 + 0]? = some 4 ∧
    transNet.layers.head?.bind (fun l => getMatrixVal l.matrix 1 0) = some 3 ∧
    zeroToOne.layers.map (fun l => (l.inputs, l.outputs, l.matrix.height, l.matrix.width))
      = [(0, 1, 0, 1)] ∧
    encodedSizeLoop zeroToOne.layers sizeofInt = 12 ∧
    encodeNeuralNetwork (some (fun _ => 0)) zeroToOne = .error (.writePastEnd 3) := by
  decide

/-- Claim C4, amended. `decodeNeuralNetwork` has no length check and no
`TruncatedDataError`; it does not look at the length of the fragment. A buffer
is shorter than its header fields declare exactly when `decodeNeuralNetwork`
reads a position at or past the end of the buffer, which is undefined
behaviour in C. -/
theorem decodeNeuralNetwork_truncated (buf : List Int) (length : Nat) :
    buf.length < declaredWords buf ↔
    ∃ pos, buf.length ≤ pos ∧
      decodeNeuralNetwork { start := some buf, length := length } = .error (.readPastEnd pos) := by
  constructor
  · exact decode_past buf length
  · rintro ⟨pos, _, hd⟩
    by_contra hnot
    have hfit : declaredWords buf ≤ buf.length := by omega
    unfold declaredWords at hfit
    cases hb : buf[0]? with
    | none =>
      rw [hb] at hfit
      simp only at hfit
      have := List.getElem?_eq_none_iff.mp hb
      omega
    | some layers =>
      rw [hb] at hfit
      simp only at hfit
      rcases decodeLayers_fits buf layers.toNat 1 hfit with ⟨ls, hls⟩ | herr
      · simp [decodeNeuralNetwork, load, hb, hls, bind, Except.bind] at hd
      · simp [decodeNeuralNetwork, load, hb, herr, bind, Except.bind] at hd

/-- A truncated buffer: two layers announced, four words present, seven
declared; the read leaves the buffer. -/
theorem decodeNeuralNetwork_truncated_witness :
    [2, 1, 1, 7].length < declaredWords [2, 1, 1, 7] ∧
    ∃ pos, [2, 1, 1, 7].length ≤ pos ∧
      decodeNeuralNetwork { start := some [2, 1, 1, 7], length := 16 }
        = .error (.readPastEnd pos) :=
  ⟨by decide, (decodeNeuralNetwork_truncated [2, 1, 1, 7] 16).mp (by decide)⟩

/-- Claim C4 as stated fails at the 4-byte buffer holding `numLayers = 1`: its
header declares 3 words, and `decodeNeuralNetwork` reads word 1, which lies at
the end of the buffer; no error is reported. -/
theorem decode_reads_past_end :
    declaredWords [1] = 3 ∧ 4 * [(1 : Int)].length = 4 ∧
    decodeNeuralNetwork { start := some [1], length := 4 } = .error (.readPastEnd 1) := by
  decide

/-! ## Lemmas on the forward pass and the trainer -/

section StructuralLemmas

variable {F : Type}

theorem last_layer_split {α : Type} (ls : List α) (hne : ls ≠ []) :
    ∃ l, ls[ls.length - 1]? = some l ∧ ls = ls.take (ls.length - 1) ++ [l] := by
  rcases List.eq_nil_or_concat ls with h | ⟨init, l, h⟩
  · exact absurd h hne
  · subst h
    refine ⟨l, ?_, ?_⟩
    · simp
    · simp

theorem grid_length {α : Type} (f : Nat → Nat → α) (w : Nat) : ∀ h : Nat,
    ((List.range h).flatMap (fun row => (List.range w).map (fun out => f row out))).length
      = h * w := by
  intro h
  induction h with
  | zero => simp
  | succ n ih =>
    rw [List.range_succ, List.flatMap_append, List.length_append, ih]
    simp [Nat.succ_mul]

theorem copyLayers_some (ss : List (neuralLayer F)) : ∀ ts : List (neuralLayer F),
    ts.length ≤ ss.length → ∃ r, copyLayers ss ts = some r := by
  induction ss with
  | nil =>
    intro ts h
    cases ts with
    | nil => exact ⟨[], rfl⟩
    | cons t ts => simp at h
  | cons x xs ih =>
    intro ts h
    cases ts with
    | nil => exact ⟨[], rfl⟩
    | cons t ts =>
      obtain ⟨r, hr⟩ := ih ts (by simpa using h)
      exact ⟨cloneLayer x (some t) :: r, by simp [copyLayers, hr]⟩

theorem copyLayers_length (ss : List (neuralLayer F)) : ∀ (ts r : List (neuralLayer F)),
    copyLayers ss ts = some r → r.length = ts.length ∧ ts.length ≤ ss.length := by
  induction ss with
  | nil =>
    intro ts r h
    cases ts with
    | nil => simp [copyLayers] at h; subst h; simp
    | cons t ts => simp [copyLayers] at h
  | cons x xs ih =>
    intro ts r h
    cases ts with
    | nil => simp [copyLayers] at h; subst h; simp
    | cons t ts =>
      simp only [copyLayers] at h
      cases hc : copyLayers xs ts with
      | none => simp [hc] at h
      | some rest =>
        simp only [hc, Option.some.injEq] at h
        subst h
        obtain ⟨h1, h2⟩ := ih ts rest hc
        simp [h1, h2]

theorem copyLayers_params (ss : List (neuralLayer F)) : ∀ (ts r : List (neuralLayer F)),
    copyLayers ss ts = some r → ss.length = ts.length →
    r.map layerParams = ss.map layerParams := by
  induction ss with
  | nil =>
    intro ts r h hl
    cases ts with
    | nil => simp [copyLayers] at h; subst h; rfl
    | cons t ts => simp at hl
  | cons x xs ih =>
    intro ts r h hl
    cases ts with
    | nil => simp at hl
    | cons t ts =>
      simp only [copyLayers] at h
      cases hc : copyLayers xs ts with
      | none => simp [hc] at h
      | some rest =>
        simp only [hc, Option.some.injEq] at h
        subst h
        have := ih ts rest hc (by simpa using hl)
        simp [this, layerParams, cloneLayer]

theorem cloneNeuralNetwork_eq (network : neuralNetwork F) :
    cloneNeuralNetwork network = network := by
  cases network with
  | mk layers =>
    simp only [cloneNeuralNetwork, cloneLayer]
    congr 1
    exact List.map_id layers

theorem copyNeuralNetwork_some (a b : neuralNetwork F) (h : b.layers.length ≤ a.layers.length) :
    ∃ r, copyNeuralNetwork a b = some r ∧ r.layers.length = b.layers.length := by
  obtain ⟨r, hr⟩ := copyLayers_some a.layers b.layers h
  exact ⟨{ layers := r }, by simp [copyNeuralNetwork, hr], (copyLayers_length _ _ _ hr).1⟩

theorem copyNeuralNetwork_length {a b r : neuralNetwork F} (h : copyNeuralNetwork a b = some r) :
    r.layers.length = b.layers.length ∧ b.layers.length ≤ a.layers.length := by
  unfold copyNeuralNetwork at h
  cases hc : copyLayers a.layers b.layers with
  | none => simp [hc] at h
  | some ls =>
    simp only [hc, Option.map_some', Option.some.injEq] at h
    subst h
    exact copyLayers_length _ _ _ hc

theorem copyNeuralNetwork_params {a b r : neuralNetwork F} (h : copyNeuralNetwork a b = some r)
    (hl : a.layers.length = b.layers.length) :
    r.layers.map layerParams = a.layers.map layerParams := by
  unfold copyNeuralNetwork at h
  cases hc : copyLayers a.layers b.layers with
  | none => simp [hc] at h
  | some ls =>
    simp only [hc, Option.map_some', Option.some.injEq] at h
    subst h
    exact copyLayers_params _ _ _ hc hl

theorem acceptOrReset_length {accepted : Bool} {mutant : neuralNetwork F} {e : F}
    {s : annealState F} {ce : F} {cn : neuralNetwork F} {cw : Nat}
    (h : acceptOrReset accepted mutant e s = some (ce, cn, cw)) :
    cn.layers.length = s.current.layers.length := by
  unfold acceptOrReset at h
  split at h
  · cases hc : copyNeuralNetwork mutant s.current with
    | none => simp [hc] at h
    | some r =>
      simp only [hc, Option.map_some', Option.some.injEq, Prod.mk.injEq] at h
      obtain ⟨_, h2, _⟩ := h
      subst h2
      exact (copyNeuralNetwork_length hc).1
  · split at h
    · cases hc : copyNeuralNetwork s.best s.current with
      | none => simp [hc] at h
      | some r =>
        simp only [hc, Option.map_some', Option.some.injEq, Prod.mk.injEq] at h
        obtain ⟨_, h2, _⟩ := h
        subst h2
        exact (copyNeuralNetwork_length hc).1
    · simp only [Option.some.injEq, Prod.mk.injEq] at h
      obtain ⟨_, h2, _⟩ := h
      subst h2
      rfl

theorem acceptOrReset_some (accepted : Bool) (mutant : neuralNetwork F) (e : F)
    (s : annealState F) (hm : s.current.layers.length ≤ mutant.layers.length)
    (hb : s.current.layers.length ≤ s.best.layers.length) :
    ∃ r, acceptOrReset accepted mutant e s = some r := by
  unfold acceptOrReset
  split
  · obtain ⟨r, hr, _⟩ := copyNeuralNetwork_some mutant s.current hm
    exact ⟨_, by rw [hr]; rfl⟩
  · split
    · obtain ⟨r, hr, _⟩ := copyNeuralNetwork_some s.best s.current hb
      exact ⟨_, by rw [hr]; rfl⟩
    · exact ⟨_, rfl⟩

end StructuralLemmas

section NumericLemmas

variable {F : Type} [LinearOrderedField F]

theorem applyLayer_eq_layerForward (activation : F → F) (layer : neuralLayer F)
    (input output : matrix F) (hh : output.height = input.height)
    (hw : output.width = layer.outputs) :
    applyLayer activation layer input output = layerForward activation layer input := by
  cases output
  simp only at hh hw
  simp [applyLayer, layerForward, hh, hw]

theorem layerForward_height (activation : F → F) (layer : neuralLayer F) (input : matrix F) :
    (layerForward activation layer input).height = input.height := rfl

theorem forwardChain_height (activation : F → F) (layers : List (neuralLayer F)) :
    ∀ input : matrix F, (forwardChain activation layers input).height = input.height := by
  induction layers with
  | nil => intro input; rfl
  | cons l rest ih => intro input; simp [forwardChain, ih, layerForward_height]

theorem forwardChain_concat (activation : F → F) (layers : List (neuralLayer F))
    (last : neuralLayer F) : ∀ input : matrix F,
    forwardChain activation (layers ++ [last]) input
      = layerForward activation last (forwardChain activation layers input) := by
  induction layers with
  | nil => intro input; rfl
  | cons l rest ih => intro input; simp [forwardChain, ih]

theorem applyLayers_shaped (activation : F → F) (layers : List (neuralLayer F)) :
    ∀ (old : matrix F) (buffers : List (matrix F)), shapedFor old.height layers buffers →
    ∃ inters, applyLayers activation layers old buffers
        = some (forwardChain activation layers old, inters) ∧
      inters.length = buffers.length := by
  induction layers with
  | nil =>
    intro old buffers _
    exact ⟨buffers, by simp [applyLayers, forwardChain], rfl⟩
  | cons l rest ih =>
    intro old buffers hs
    cases hs with
    | cons hhead htail =>
      rename_i b bs
      obtain ⟨hh, hw⟩ := hhead
      have e := applyLayer_eq_layerForward activation l old b hh hw
      obtain ⟨inters, hi, hl⟩ := ih (layerForward activation l old) bs
        (by rw [layerForward_height]; exact htail)
      exact ⟨layerForward activation l old :: inters, by
        simp [applyLayers, e, hi, forwardChain], by simp [hl]⟩

theorem createNetworkIntermediates_shaped (network : neuralNetwork F) (rows : Nat) :
    shapedFor rows (network.layers.take (network.numLayers - 1))
      (createNetworkIntermediates network rows : List (matrix F)) := by
  unfold shapedFor createNetworkIntermediates
  generalize network.layers.take (network.numLayers - 1) = ls
  induction ls with
  | nil => exact List.Forall₂.nil
  | cons l rest ih => exact List.Forall₂.cons ⟨rfl, rfl⟩ ih

theorem applyNetwork_core (activation : F → F) (network : neuralNetwork F)
    (input : matrix F) (hne : network.layers ≠ []) (o : matrix F) (bufs : List (matrix F))
    (hoh : o.height = input.height) (how : getNetworkOutputs network = some o.width)
    (hibuf : shapedFor input.height (network.layers.take (network.numLayers - 1)) bufs) :
    ∃ inters, (match applyLayers activation (network.layers.take (network.numLayers - 1)) input
        bufs with
      | none => none
      | some (old, inters1) =>
        match network.layers[network.numLayers - 1]? with
        | none => none
        | some last => some (applyLayer activation last old o, inters1))
        = some (forwardChain activation network.layers input, inters) ∧
      inters.length = network.numLayers - 1 := by
  obtain ⟨last, hlast, hsplit⟩ := last_layer_split network.layers hne
  have hno : getNetworkOutputs network = some last.outputs := by
    simp [getNetworkOutputs, neuralNetwork.numLayers, hlast]
  rw [hno] at how
  have how1 : o.width = last.outputs := (Option.some.inj how).symm
  obtain ⟨inters, hi, hl⟩ := applyLayers_shaped activation _ input _ hibuf
  have hlen : inters.length = network.numLayers - 1 := by
    rw [hl, ← List.Forall₂.length_eq hibuf]
    simp [neuralNetwork.numLayers]
  refine ⟨inters, ?_, hlen⟩
  have hfinal : applyLayer activation last
      (forwardChain activation (network.layers.take (network.numLayers - 1)) input) o
      = forwardChain activation network.layers input := by
    rw [applyLayer_eq_layerForward _ _ _ _ (by rw [forwardChain_height, hoh]) how1,
      ← forwardChain_concat]
    simp only [neuralNetwork.numLayers]
    rw [← hsplit]
  simp only [neuralNetwork.numLayers] at hlast hfinal hi ⊢
  simp [hi, hlast, hfinal]

theorem applyNetwork_forward (activation : F → F) (network : neuralNetwork F)
    (input : matrix F) (hne : network.layers ≠ [])
    (output : Option (matrix F)) (intermediates : Option (List (matrix F)))
    (hout : ∀ o, output = some o →
      o.height = input.height ∧ getNetworkOutputs network = some o.width)
    (hint : ∀ bufs, intermediates = some bufs →
      shapedFor input.height (network.layers.take (network.numLayers - 1)) bufs) :
    ∃ inters, applyNetwork activation network input output intermediates
        = some (forwardChain activation network.layers input, inters) ∧
      inters.length = network.numLayers - 1 := by
  obtain ⟨last, hlast, _⟩ := last_layer_split network.layers hne
  have hno : getNetworkOutputs network = some last.outputs := by
    simp [getNetworkOutputs, neuralNetwork.numLayers, hlast]
  cases output with
  | none =>
    cases intermediates with
    | none =>
      simp only [applyNetwork, hno, Option.map]
      exact applyNetwork_core activation network input hne _ _ rfl hno
        (createNetworkIntermediates_shaped network input.height)
    | some bufs =>
      simp only [applyNetwork, hno, Option.map]
      exact applyNetwork_core activation network input hne _ _ rfl hno (hint bufs rfl)
  | some o =>
    obtain ⟨h1, h2⟩ := hout o rfl
    cases intermediates with
    | none =>
      simp only [applyNetwork]
      exact applyNetwork_core activation network input hne _ _ h1 h2
        (createNetworkIntermediates_shaped network input.height)
    | some bufs =>
      simp only [applyNetwork]
      exact applyNetwork_core activation network input hne _ _ h1 h2 (hint bufs rfl)

theorem mutateLayers_length (randomNetF : Nat → F) (ls : List (neuralLayer F)) :
    ∀ draws : Nat, (mutateLayers randomNetF ls draws).1.length = ls.length := by
  induction ls with
  | nil => intro draws; rfl
  | cons l rest ih => intro draws; simp [mutateLayers, ih]

theorem applyLayers_some (activation : F → F) (layers : List (neuralLayer F)) :
    ∀ (old : matrix F) (bufs : List (matrix F)), layers.length ≤ bufs.length →
    ∃ last inters, applyLayers activation layers old bufs = some (last, inters) ∧
      inters.length = bufs.length := by
  induction layers with
  | nil => intro old bufs _; exact ⟨old, bufs, rfl, rfl⟩
  | cons l rest ih =>
    intro old bufs h
    cases bufs with
    | nil => simp at h
    | cons b bs =>
      obtain ⟨last, inters, hi, hl⟩ := ih (applyLayer activation l old b) bs (by simpa using h)
      exact ⟨last, applyLayer activation l old b :: inters, by simp [applyLayers, hi], by
        simp [hl]⟩

theorem calculateTrainingDataError_some (activation : F → F) (network : neuralNetwork F)
    (trains : trainingData F) (output : matrix F) (bufs : List (matrix F))
    (hne : network.layers ≠ []) (hb : network.numLayers - 1 ≤ bufs.length) :
    ∃ e out inters, calculateTrainingDataError activation network trains output bufs
        = some (e, out, inters) ∧ inters.length = bufs.length := by
  obtain ⟨l, hlast, _⟩ := last_layer_split network.layers hne
  obtain ⟨last, inters, hi, hl⟩ := applyLayers_some activation
    (network.layers.take (network.numLayers - 1)) trains.input bufs (by
      simp only [List.length_take]; omega)
  simp only [neuralNetwork.numLayers] at hi
  have hc : calculateTrainingDataError activation network trains output bufs
      = some (sumSquareMatrix (subtractMatrices (applyLayer activation l last output)
            trains.output (applyLayer activation l last output))
          / (((subtractMatrices (applyLayer activation l last output) trains.output
                (applyLayer activation l last output)).height
              * (subtractMatrices (applyLayer activation l last output) trains.output
                (applyLayer activation l last output)).width : Nat) : F),
          subtractMatrices (applyLayer activation l last output) trains.output
            (applyLayer activation l last output), inters) := by
    simp only [calculateTrainingDataError, applyNetwork, neuralNetwork.numLayers, hi, hlast]
  exact ⟨_, _, inters, hc, hl⟩

theorem annealCycle_inv {activation expf : F → F} {randomNetF : Nat → F} {maxCycles : Nat}
    {train : trainingData F} {cycle : Nat} {s s1 : annealState F}
    (h : annealCycle activation expf randomNetF maxCycles train cycle s = some s1) :
    ∃ (copied : neuralNetwork F) (e : F) (out : matrix F) (inters : List (matrix F)),
      copyNeuralNetwork s.current s.mutant = some copied ∧
      s1.mutant = { layers := (mutateLayers randomNetF copied.layers s.draws).1 } ∧
      calculateTrainingDataError activation s1.mutant train s.output s.intermediates
        = some (e, out, inters) ∧
      s1.output = out ∧ s1.intermediates = inters ∧
      s1.mutantErrors = e :: s.mutantErrors ∧
      s1.initialError = s.initialError ∧
      s1.temp = 5 * expf (-(7 / 2) * (cycle : F) / (maxCycles : F)) ∧
      s1.accepted = decide (determineAcceptanceThreshold expf s.temp s.currentStateError e
        > randomNetF (mutateLayers randomNetF copied.layers s.draws).2) ∧
      s1.reset = (!s1.accepted && decide (s.cyclesWorse + 1 = 1000)) ∧
      acceptOrReset s1.accepted s1.mutant e s
        = some (s1.currentStateError, s1.current, s1.cyclesWorse) ∧
      recordBest s1.mutant e s = some (s1.bestStateError, s1.best) := by
  unfold annealCycle at h
  split at h
  · exact absurd h (by simp)
  · rename_i copied hcopy
    simp only at h
    split at h
    · exact absurd h (by simp)
    · rename_i e out inters hcalc
      split at h
      · exact absurd h (by simp)
      · rename_i ce cn cw hacc
        split at h
        · exact absurd h (by simp)
        · rename_i be bn hbest
          simp only [Option.some.injEq] at h
          subst h
          exact ⟨copied, e, out, inters, hcopy, rfl, hcalc, rfl, rfl, rfl, rfl, rfl, rfl, rfl,
            hacc, hbest⟩

theorem recordBest_length {mutant : neuralNetwork F} {e : F} {s : annealState F}
    {be : F} {bn : neuralNetwork F} (h : recordBest mutant e s = some (be, bn)) :
    bn.layers.length = s.best.layers.length ∧ be = min e s.bestStateError := by
  unfold recordBest at h
  split at h
  · rename_i hlt
    cases hc : copyNeuralNetwork mutant s.best with
    | none => simp [hc] at h
    | some r =>
      simp only [hc, Option.map_some', Option.some.injEq, Prod.mk.injEq] at h
      obtain ⟨h1, h2⟩ := h
      subst h1 h2
      exact ⟨(copyNeuralNetwork_length hc).1, (min_eq_left (le_of_lt hlt)).symm⟩
  · rename_i hlt
    simp only [Option.some.injEq, Prod.mk.injEq] at h
    obtain ⟨h1, h2⟩ := h
    subst h1 h2
    exact ⟨rfl, (min_eq_right (not_lt.mp hlt)).symm⟩

theorem recordBest_some (mutant : neuralNetwork F) (e : F) (s : annealState F)
    (hm : s.best.layers.length ≤ mutant.layers.length) :
    ∃ r, recordBest mutant e s = some r := by
  unfold recordBest
  split
  · obtain ⟨r, hr, _⟩ := copyNeuralNetwork_some mutant s.best hm
    exact ⟨_, by rw [hr]; rfl⟩
  · exact ⟨_, rfl⟩

theorem annealCycle_some (activation expf : F → F) (randomNetF : Nat → F) (maxCycles : Nat)
    (train : trainingData F) (cycle : Nat) (n : Nat) (hn : 1 ≤ n) (s : annealState F)
    (hs : sameLength n s) :
    ∃ s1, annealCycle activation expf randomNetF maxCycles train cycle s = some s1 ∧
      sameLength n s1 := by
  obtain ⟨hc, hb, hm, hi⟩ := hs
  obtain ⟨copied, hcopy, hcl⟩ := copyNeuralNetwork_some s.current s.mutant (by omega)
  have hml : (mutateLayers randomNetF copied.layers s.draws).1.length = n := by
    rw [mutateLayers_length, hcl, hm]
  obtain ⟨e, out, inters, hcalc, hil⟩ := calculateTrainingDataError_some activation
    { layers := (mutateLayers randomNetF copied.layers s.draws).1 } train s.output
    s.intermediates (by
      intro h0
      have h1 : (mutateLayers randomNetF copied.layers s.draws).1.length = 0 := by
        simp only at h0; rw [h0]; rfl
      omega) (by simp only [neuralNetwork.numLayers]; omega)
  obtain ⟨⟨ce, cn, cw⟩, hacc⟩ := acceptOrReset_some
    (decide (determineAcceptanceThreshold expf s.temp s.currentStateError e
      > randomNetF (mutateLayers randomNetF copied.layers s.draws).2))
    { layers := (mutateLayers randomNetF copied.layers s.draws).1 } e s
    (by simp only; omega) (by omega)
  obtain ⟨⟨be, bn⟩, hbest⟩ := recordBest_some
    { layers := (mutateLayers randomNetF copied.layers s.draws).1 } e s (by simp only; omega)
  refine ⟨_, by simp only [annealCycle, hcopy, hcalc, hacc, hbest]; rfl, ?_⟩
  refine ⟨?_, ?_, ?_, ?_⟩
  · simp only; rw [acceptOrReset_length hacc, hc]
  · simp only; rw [(recordBest_length hbest).1, hb]
  · simp only; exact hml
  · simp only; omega

theorem annealInit_some (activation : F → F) (original : neuralNetwork F)
    (train : trainingData F) (hne : original.layers ≠ []) :
    ∃ s, annealInit activation original train = some s ∧
      sameLength original.layers.length s ∧
      s.current = original ∧ s.best = original ∧ s.mutant = original ∧
      s.currentStateError = s.initialError ∧ s.bestStateError = s.initialError ∧
      s.mutantErrors = [] ∧ s.temp = 5 ∧ s.cyclesWorse = 0 ∧
      ∃ outputs out inters, getNetworkOutputs original = some outputs ∧
        calculateTrainingDataError activation original train
          (createMatrix train.output.height outputs)
          (createNetworkIntermediates original (getTrainingDataCount train))
          = some (s.initialError, out, inters) := by
  obtain ⟨last, hlast, _⟩ := last_layer_split original.layers hne
  have hno : getNetworkOutputs original = some last.outputs := by
    simp [getNetworkOutputs, neuralNetwork.numLayers, hlast]
  have hlen : (createNetworkIntermediates original (getTrainingDataCount train)
      : List (matrix F)).length = original.numLayers - 1 := by
    simp only [createNetworkIntermediates, List.length_map, List.length_take,
      neuralNetwork.numLayers]
    omega
  obtain ⟨e, out, inters, hcalc, hil⟩ := calculateTrainingDataError_some activation original
    train (createMatrix train.output.height last.outputs)
    (createNetworkIntermediates original (getTrainingDataCount train)) hne (by omega)
  refine ⟨_, by simp only [annealInit, hno, hcalc]; rfl, ?_, ?_, ?_, ?_, rfl, rfl, rfl, rfl, rfl,
    ⟨last.outputs, out, inters, hno, hcalc⟩⟩
  · refine ⟨?_, ?_, ?_, ?_⟩
    · simp [cloneNeuralNetwork_eq]
    · simp [cloneNeuralNetwork_eq]
    · simp [cloneNeuralNetwork_eq]
    · simp only [hil, hlen, neuralNetwork.numLayers]; omega
  · exact cloneNeuralNetwork_eq original
  · exact cloneNeuralNetwork_eq original
  · exact cloneNeuralNetwork_eq original

theorem annealStates_some (activation expf : F → F) (randomNetF : Nat → F) (maxCycles : Nat)
    (original : neuralNetwork F) (train : trainingData F) (hne : original.layers ≠ []) :
    ∀ cycles : Nat, ∃ s,
      annealStates activation expf randomNetF maxCycles original train cycles = some s ∧
      sameLength original.layers.length s := by
  have hn : 1 ≤ original.layers.length := by
    cases h : original.layers with
    | nil => exact absurd h hne
    | cons _ _ => simp
  intro cycles
  induction cycles with
  | zero =>
    obtain ⟨s, hs, hl, _⟩ := annealInit_some activation original train hne
    exact ⟨s, hs, hl⟩
  | succ c ih =>
    obtain ⟨s, hs, hl⟩ := ih
    obtain ⟨s1, hs1, hl1⟩ := annealCycle_some activation expf randomNetF maxCycles train c _ hn
      s hl
    exact ⟨s1, by simp [annealStates, hs, hs1], hl1⟩

theorem annealStates_succ {activation expf : F → F} {randomNetF : Nat → F} {maxCycles : Nat}
    {original : neuralNetwork F} {train : trainingData F} {cycles : Nat} {s1 : annealState F}
    (h : annealStates activation expf randomNetF maxCycles original train (cycles + 1)
      = some s1) :
    ∃ s, annealStates activation expf randomNetF maxCycles original train cycles = some s ∧
      annealCycle activation expf randomNetF maxCycles train cycles s = some s1 := by
  simp only [annealStates] at h
  cases hs : annealStates activation expf randomNetF maxCycles original train cycles with
  | none => simp [hs] at h
  | some s => exact ⟨s, rfl, by simpa [hs] using h⟩

theorem annealStates_errors (activation expf : F → F) (randomNetF : Nat → F) (maxCycles : Nat)
    (original : neuralNetwork F) (train : trainingData F) (s0 : annealState F)
    (h0 : annealInit activation original train = some s0) :
    ∀ (cycles : Nat) (s : annealState F),
      annealStates activation expf randomNetF maxCycles original train cycles = some s →
      s.initialError = s0.initialError ∧ s.mutantErrors.length = cycles ∧
      s.bestStateError = s.mutantErrors.foldr min s.initialError := by
  intro cycles
  induction cycles with
  | zero =>
    intro s hs
    simp only [annealStates, h0, Option.some.injEq] at hs
    subst hs
    unfold annealInit at h0
    split at h0
    · exact absurd h0 (by simp)
    · simp only at h0
      split at h0
      · exact absurd h0 (by simp)
      · simp only [Option.some.injEq] at h0
        subst h0
        exact ⟨rfl, rfl, rfl⟩
  | succ c ih =>
    intro s1 hs1
    obtain ⟨s, hs, hstep⟩ := annealStates_succ hs1
    obtain ⟨hi, hl, hb⟩ := ih s hs
    obtain ⟨copied, e, out, inters, _, _, _, _, _, hme, hie, _, _, _, _, hrec⟩ :=
      annealCycle_inv hstep
    have hmin := (recordBest_length hrec).2
    refine ⟨by rw [hie, hi], by rw [hme, List.length_cons, hl], ?_⟩
    rw [hmin, hme, List.foldr_cons, hie, hb]

theorem foldr_min_le (init : F) : ∀ xs : List F,
    xs.foldr min init ≤ init ∧ ∀ x ∈ xs, xs.foldr min init ≤ x := by
  intro xs
  induction xs with
  | nil => exact ⟨le_refl _, by simp⟩
  | cons y ys ih =>
    obtain ⟨h1, h2⟩ := ih
    refine ⟨le_trans (min_le_right _ _) h1, ?_⟩
    intro x hx
    rcases List.mem_cons.mp hx with rfl | hx
    · exact min_le_left _ _
    · exact le_trans (min_le_right _ _) (h2 x hx)

theorem accepted_cycle {activation expf : F → F} {randomNetF : Nat → F} {maxCycles : Nat}
    {train : trainingData F} {cycle : Nat} {s s1 : annealState F}
    (hstep : annealCycle activation expf randomNetF maxCycles train cycle s = some s1)
    (hacc : s1.accepted = true) :
    s1.mutantErrors.head? = some s1.currentStateError ∧
    s1.current.layers.map layerParams = s1.mutant.layers.map layerParams := by
  obtain ⟨copied, e, out, inters, hcopy, hmut, _, _, _, hme, _, _, _, _, hbranch, _⟩ :=
    annealCycle_inv hstep
  rw [hacc] at hbranch
  simp only [acceptOrReset, if_true] at hbranch
  cases hc : copyNeuralNetwork s1.mutant s.current with
  | none => simp [hc] at hbranch
  | some r =>
    simp only [hc, Option.map_some', Option.some.injEq, Prod.mk.injEq] at hbranch
    obtain ⟨h1, h2, _⟩ := hbranch
    have l1 := copyNeuralNetwork_length hcopy
    have l2 := copyNeuralNetwork_length hc
    have l3 : s1.mutant.layers.length = copied.layers.length := by
      rw [hmut]; exact mutateLayers_length _ _ _
    refine ⟨by rw [hme, ← h1]; rfl, ?_⟩
    rw [← h2]
    exact copyNeuralNetwork_params hc (by omega)

theorem rejected_cycle {activation expf : F → F} {randomNetF : Nat → F} {maxCycles : Nat}
    {train : trainingData F} {cycle : Nat} {s s1 : annealState F}
    (hexp_ge : ∀ x, 0 ≤ x → 1 ≤ expf x) (hrand : ∀ k, randomNetF k < 1)
    (htemp : 0 < s.temp)
    (hstep : annealCycle activation expf randomNetF maxCycles train cycle s = some s1)
    (hrej : s1.accepted = false) :
    ∃ e, s1.mutantErrors = e :: s.mutantErrors ∧ s.currentStateError < e := by
  obtain ⟨copied, e, out, inters, _, _, _, _, _, hme, _, _, hacc, _, _, _⟩ :=
    annealCycle_inv hstep
  refine ⟨e, hme, ?_⟩
  rw [hrej] at hacc
  have hle : ¬ (determineAcceptanceThreshold expf s.temp s.currentStateError e
      > randomNetF (mutateLayers randomNetF copied.layers s.draws).2) := by
    intro hgt
    have := decide_eq_true hgt
    rw [← hacc] at this
    exact Bool.false_ne_true this
  by_contra hnot
  have hge : e ≤ s.currentStateError := not_lt.mp hnot
  have hx : 0 ≤ (s.currentStateError - e) * 500 / s.temp :=
    div_nonneg (mul_nonneg (sub_nonneg.mpr hge) (by norm_num)) (le_of_lt htemp)
  have h1 := hexp_ge _ hx
  exact hle (lt_of_lt_of_le (hrand _) h1)

theorem cycle_keeps_ready {activation expf : F → F} {randomNetF : Nat → F} {maxCycles : Nat}
    {train : trainingData F} {cycle : Nat} {s s1 : annealState F}
    (hexp_pos : ∀ x, 0 < expf x) (hexp_ge : ∀ x, 0 ≤ x → 1 ≤ expf x)
    (hrand : ∀ k, randomNetF k < 1) (hs : cycleReady s)
    (hstep : annealCycle activation expf randomNetF maxCycles train cycle s = some s1) :
    cycleReady s1 := by
  obtain ⟨htemp, hbest, hlen⟩ := hs
  obtain ⟨copied, e, out, inters, _, _, _, _, _, hme, _, ht, _, _, hbranch, hrec⟩ :=
    annealCycle_inv hstep
  obtain ⟨hbl, hbe⟩ := recordBest_length hrec
  have hcl := acceptOrReset_length hbranch
  refine ⟨by rw [ht]; exact mul_pos (by norm_num) (hexp_pos _), ?_, by rw [hbl, hcl, hlen]⟩
  cases hacc : s1.accepted with
  | true =>
    obtain ⟨hh, _⟩ := accepted_cycle hstep hacc
    rw [hme] at hh
    simp only [List.head?_cons, Option.some.injEq] at hh
    rw [hbe, ← hh]
    exact min_le_left _ _
  | false =>
    obtain ⟨e1, hme1, hlt⟩ := rejected_cycle hexp_ge hrand htemp hstep hacc
    rw [hacc] at hbranch
    simp only [acceptOrReset, Bool.false_eq_true, if_false] at hbranch
    rw [hbe]
    split at hbranch
    · cases hc : copyNeuralNetwork s.best s.current with
      | none => simp [hc] at hbranch
      | some r =>
        simp only [hc, Option.map_some', Option.some.injEq, Prod.mk.injEq] at hbranch
        rw [← hbranch.1]
        exact min_le_right _ _
    · simp only [Option.some.injEq, Prod.mk.injEq] at hbranch
      rw [← hbranch.1]
      exact le_trans (min_le_right _ _) hbest

theorem annealStates_ready (activation expf : F → F) (randomNetF : Nat → F) (maxCycles : Nat)
    (original : neuralNetwork F) (train : trainingData F)
    (hexp_pos : ∀ x, 0 < expf x) (hexp_ge : ∀ x, 0 ≤ x → 1 ≤ expf x)
    (hrand : ∀ k, randomNetF k < 1) :
    ∀ (cycles : Nat) (s : annealState F),
      annealStates activation expf randomNetF maxCycles original train cycles = some s →
      cycleReady s := by
  intro cycles
  induction cycles with
  | zero =>
    intro s hs
    simp only [annealStates] at hs
    unfold annealInit at hs
    split at hs
    · exact absurd hs (by simp)
    · simp only at hs
      split at hs
      · exact absurd hs (by simp)
      · simp only [Option.some.injEq] at hs
        subst hs
        exact ⟨by norm_num, le_refl _, rfl⟩
  | succ c ih =>
    intro s1 hs1
    obtain ⟨s, hs, hstep⟩ := annealStates_succ hs1
    exact cycle_keeps_ready hexp_pos hexp_ge hrand (ih s hs) hstep

theorem forwardChain_last (activation : F → F) (layers : List (neuralLayer F))
    (input : matrix F) (last : neuralLayer F)
    (hlast : layers[layers.length - 1]? = some last) :
    (forwardChain activation layers input).width = last.outputs ∧
    (forwardChain activation layers input).vals.length
      = (forwardChain activation layers input).height
        * (forwardChain activation layers input).width := by
  have hne : layers ≠ [] := by
    intro h; subst h; simp at hlast
  obtain ⟨l, hl, hsplit⟩ := last_layer_split layers hne
  rw [hlast] at hl
  have hll : last = l := Option.some.inj hl
  subst hll
  rw [hsplit, forwardChain_concat]
  exact ⟨rfl, grid_length _ _ _⟩

end NumericLemmas

theorem toyExp_pos (x : ℚ) : 0 < toyExp x := by
  unfold toyExp
  split
  · linarith
  · apply div_pos one_pos; linarith

theorem toyExp_ge (x : ℚ) (hx : 0 ≤ x) : 1 ≤ toyExp x := by
  unfold toyExp
  rw [if_pos hx]; linarith

theorem toyRand_lt (k : Nat) : toyRand k < 1 := by
  unfold toyRand
  split <;> norm_num

/-! ## The forward pass -/

section ForwardClaims

variable {F : Type} [LinearOrderedField F]

/-- Claim C5. For every network with at least one layer whose adjacent layers
chain and every input batch whose width is the input count of the network,
`applyNetwork` called with no output buffer (with no intermediates, or with
intermediates of the right shapes) returns a matrix of height `input.height`
and of width `getNetworkOutputs(network)`, the output count of the last layer;
its storage holds `height * width` values. -/
theorem applyNetwork_output_shape (activation : F → F) (network : neuralNetwork F)
    (input : matrix F) (intermediates : Option (List (matrix F)))
    (hlayers : 1 ≤ network.numLayers) (_hchain : chained network)
    (_hwidth : getNetworkInputs network = some input.width)
    (hshaped : ∀ bufs, intermediates = some bufs →
      shapedFor input.height (network.layers.take (network.numLayers - 1)) bufs) :
    ∃ out inters outputs,
      applyNetwork activation network input none intermediates = some (out, inters) ∧
      getNetworkOutputs network = some outputs ∧
      out.height = input.height ∧ out.width = outputs ∧
      out.vals.length = out.height * out.width := by
  have hne : network.layers ≠ [] := by
    intro h; simp [neuralNetwork.numLayers, h] at hlayers
  obtain ⟨last, hlast, _⟩ := last_layer_split network.layers hne
  have hno : getNetworkOutputs network = some last.outputs := by
    simp [getNetworkOutputs, neuralNetwork.numLayers, hlast]
  obtain ⟨inters, happ, _⟩ := applyNetwork_forward activation network input hne none
    intermediates (by intro o h; cases h) hshaped
  obtain ⟨hw, hv⟩ := forwardChain_last activation network.layers input last hlast
  exact ⟨_, inters, last.outputs, happ, hno, forwardChain_height _ _ _, hw, hv⟩

/-- Claim C6. For every chained network with at least one layer and every
compatible input batch, the matrix `applyNetwork` returns is the forward
chain: layer 0, then layer 1, up to the last layer, each applied to the result
of the layer before. It is the same whether `applyNetwork` allocates the
output and the intermediates or the caller supplies either of them, correctly
shaped and with any prior content. -/
theorem applyNetwork_is_forwardChain (activation : F → F) (network : neuralNetwork F)
    (input : matrix F) (hlayers : 1 ≤ network.numLayers) (_hchain : chained network)
    (_hwidth : getNetworkInputs network = some input.width) :
    (∃ inters, applyNetwork activation network input none none
        = some (forwardChain activation network.layers input, inters)) ∧
    ∀ (output : Option (matrix F)) (intermediates : Option (List (matrix F))),
      (∀ o, output = some o →
        o.height = input.height ∧ getNetworkOutputs network = some o.width) →
      (∀ bufs, intermediates = some bufs →
        shapedFor input.height (network.layers.take (network.numLayers - 1)) bufs) →
      ∃ inters, applyNetwork activation network input output intermediates
        = some (forwardChain activation network.layers input, inters) := by
  have hne : network.layers ≠ [] := by
    intro h; simp [neuralNetwork.numLayers, h] at hlayers
  constructor
  · obtain ⟨inters, happ, _⟩ := applyNetwork_forward activation network input hne none none
      (by intro o h; cases h) (by intro b h; cases h)
    exact ⟨inters, happ⟩
  · intro output intermediates hout hint
    obtain ⟨inters, happ, _⟩ := applyNetwork_forward activation network input hne
      output intermediates hout hint
    exact ⟨inters, happ⟩

end ForwardClaims

/-- The output shape at layers `[2 -> 3, 3 -> 1]` and a batch of two rows. -/
theorem applyNetwork_output_shape_witness :
    1 ≤ twoNet.numLayers ∧ chained twoNet ∧ getNetworkInputs twoNet = some batch.width ∧
    ∃ out inters outputs,
      applyNetwork id twoNet batch none none = some (out, inters) ∧
      getNetworkOutputs twoNet = some outputs ∧
      out.height = batch.height ∧ out.width = outputs ∧
      out.vals.length = out.height * out.width :=
  ⟨by decide, by simp [chained, twoNet], rfl,
    applyNetwork_output_shape id twoNet batch none (by decide) (by simp [chained, twoNet]) rfl
      (by intro bufs h; cases h)⟩

/-- The forward chain at layers `[2 -> 3, 3 -> 1]` and a batch of two rows,
with buffers allocated by `applyNetwork` and with buffers supplied. -/
theorem applyNetwork_is_forwardChain_witness :
    1 ≤ twoNet.numLayers ∧ chained twoNet ∧ getNetworkInputs twoNet = some batch.width ∧
    (∃ inters, applyNetwork id twoNet batch none none
        = some (forwardChain id twoNet.layers batch, inters)) ∧
    (∃ inters, applyNetwork id twoNet batch (some ⟨2, 1, [5, 5]⟩) (some [⟨2, 3, [9, 9, 9, 9, 9, 9]⟩])
        = some (forwardChain id twoNet.layers batch, inters)) :=
  ⟨by decide, by simp [chained, twoNet], rfl,
    (applyNetwork_is_forwardChain id twoNet batch (by decide) (by simp [chained, twoNet])
      rfl).1,
    (applyNetwork_is_forwardChain id twoNet batch (by decide) (by simp [chained, twoNet])
      rfl).2 (some ⟨2, 1, [5, 5]⟩) (some [⟨2, 3, [9, 9, 9, 9, 9, 9]⟩])
      (by intro o h; cases h; exact ⟨rfl, rfl⟩)
      (by
        intro bufs h; cases h
        exact List.Forall₂.cons ⟨rfl, rfl⟩ List.Forall₂.nil)⟩

/-! ## The trainer -/

section TrainerClaims

variable {F : Type} [LinearOrderedField F]

/-- Claim C9. In every cycle of `annealNetwork` in which the cycles-worse
counter reaches 1000 (the reset branch runs), at the end of the cycle the
weights and biases of `current` equal those of `best`, `currentStateError`
equals `bestStateError`, and the counter is 0. The cycle starts from the state
of a run of `annealNetwork`, or from any state with a positive temperature, a
best error no greater than the current error and equally long `best` and
`current`. The exponential is positive and at least 1 from 0 on; the random
draws are below 1. -/
theorem reset_restores_best (activation expf : F → F) (randomNetF : Nat → F)
    (maxCycles : Nat) (original : neuralNetwork F) (train : trainingData F) (cycle : Nat)
    (s s1 : annealState F)
    (hexp_pos : ∀ x, 0 < expf x) (hexp_ge : ∀ x, 0 ≤ x → 1 ≤ expf x)
    (hrand : ∀ k, randomNetF k < 1)
    (hs : annealStates activation expf randomNetF maxCycles original train cycle = some s
      ∨ cycleReady s)
    (hstep : annealCycle activation expf randomNetF maxCycles train cycle s = some s1)
    (hreset : s1.reset = true) :
    s1.current.layers.map layerParams = s1.best.layers.map layerParams ∧
    s1.currentStateError = s1.bestStateError ∧ s1.cyclesWorse = 0 := by
  have hready : cycleReady s := by
    rcases hs with hs | hs
    · exact annealStates_ready activation expf randomNetF maxCycles original train hexp_pos
        hexp_ge hrand cycle s hs
    · exact hs
  obtain ⟨htemp, hbest, hlen⟩ := hready
  obtain ⟨copied, e, out, inters, _, _, _, _, _, hme, _, _, _, hres, hbranch, hrec⟩ :=
    annealCycle_inv hstep
  rw [hreset] at hres
  have hacc : s1.accepted = false := by
    cases h : s1.accepted with
    | true => rw [h] at hres; simp at hres
    | false => rfl
  have hcw : s.cyclesWorse + 1 = 1000 := by
    rw [hacc] at hres
    simpa using hres.symm
  obtain ⟨e1, hme1, hlt⟩ := rejected_cycle hexp_ge hrand htemp hstep hacc
  have hee : e1 = e := by
    rw [hme] at hme1
    exact (List.cons.inj hme1).1.symm
  subst hee
  have hnot : ¬ e1 < s.bestStateError := not_lt.mpr (le_trans hbest (le_of_lt hlt))
  simp only [recordBest, hnot, if_false, Option.some.injEq, Prod.mk.injEq] at hrec
  rw [hacc] at hbranch
  simp only [acceptOrReset, Bool.false_eq_true, if_false, hcw, if_true] at hbranch
  cases hc : copyNeuralNetwork s.best s.current with
  | none => simp [hc] at hbranch
  | some r =>
    simp only [hc, Option.map_some', Option.some.injEq, Prod.mk.injEq] at hbranch
    obtain ⟨h1, h2, h3⟩ := hbranch
    obtain ⟨h4, h5⟩ := hrec
    refine ⟨?_, by rw [← h1, ← h4], h3.symm⟩
    rw [← h2, ← h5]
    exact copyNeuralNetwork_params hc hlen

/-- Claim C10. With the number of cycles set to 0, `annealNetwork` returns the
starting network (a copy: same topology, weights and biases), the error
recorded for it is the initial error, and its error on the training data is
the error of the initial network. -/
theorem annealNetwork_zero_cycles (activation expf : F → F) (randomNetF : Nat → F)
    (original : neuralNetwork F) (train : trainingData F) (hne : original.layers ≠ []) :
    annealNetworkFor activation expf randomNetF 0 original train = some original ∧
    ∃ s, annealStates activation expf randomNetF 0 original train 0 = some s ∧
      s.best = original ∧ s.bestStateError = s.initialError ∧
      ∃ outputs out inters, getNetworkOutputs original = some outputs ∧
        calculateTrainingDataError activation original train
          (createMatrix train.output.height outputs)
          (createNetworkIntermediates original (getTrainingDataCount train))
          = some (s.initialError, out, inters) ∧
        calculateTrainingDataError activation s.best train
          (createMatrix train.output.height outputs)
          (createNetworkIntermediates original (getTrainingDataCount train))
          = some (s.bestStateError, out, inters) := by
  obtain ⟨s0, h0, _, _, hbest, _, _, hbe, _, _, _, outputs, out, inters, hno, hcalc⟩ :=
    annealInit_some activation original train hne
  refine ⟨by simp [annealNetworkFor, annealStates, h0, hbest], s0, by simp [annealStates, h0],
    hbest, hbe, outputs, out, inters, hno, hcalc, ?_⟩
  rw [hbest, hbe]; exact hcalc

end TrainerClaims

theorem lateState_cycle :
    annealCycle id toyExp toyRand 2000 biasTrain 999 lateState = some afterReset := by
  simp [annealCycle, lateState, afterReset, copyNeuralNetwork, copyLayers, cloneLayer,
    driftNet, biasNet, biasTrain, mutateLayers, mutateMatrix, mutateBiases, addAt, toyRand,
    toyExp, calculateTrainingDataError, applyNetwork, applyLayers, applyLayer, layerValue,
    neuralNetwork.numLayers, subtractMatrices, sumSquareMatrix, acceptOrReset, recordBest,
    determineAcceptanceThreshold, getMatrixVal, matrixIndex, List.range, List.range.loop]
  norm_num

/-- A reset cycle: from `lateState`, with 999 cycles counted as worse and
`current` different from `best`, the mutant is rejected, the counter reaches
1000 and `current` is reset. -/
theorem reset_restores_best_witness :
    cycleReady lateState ∧
    lateState.current.layers.map layerParams ≠ lateState.best.layers.map layerParams ∧
    annealCycle id toyExp toyRand 2000 biasTrain 999 lateState = some afterReset ∧
    afterReset.reset = true ∧
    afterReset.current.layers.map layerParams = afterReset.best.layers.map layerParams ∧
    afterReset.currentStateError = afterReset.bestStateError ∧ afterReset.cyclesWorse = 0 :=
  ⟨by simp [cycleReady, lateState, driftNet, biasNet], by decide, lateState_cycle, rfl,
    reset_restores_best id toyExp toyRand 2000 biasNet biasTrain 999 lateState afterReset
      toyExp_pos toyExp_ge toyRand_lt
      (Or.inr (by simp [cycleReady, lateState, driftNet, biasNet])) lateState_cycle rfl⟩

/-- Zero cycles at the single-bias network. -/
theorem annealNetwork_zero_cycles_witness :
    biasNet.layers ≠ [] ∧
    annealNetworkFor id toyExp toyRand 0 biasNet biasTrain = some biasNet :=
  ⟨by simp [biasNet],
    (annealNetwork_zero_cycles id toyExp toyRand biasNet biasTrain (by simp [biasNet])).1⟩

/-! ## The error function -/

section ErrorClaims
variable {F : Type} [LinearOrderedField F]

theorem zipWith_sub_self_sq : ∀ xs : List F,
    ((List.zipWith (fun x y => x - y) xs xs).map (fun v => v * v)).sum = 0 := by
  intro xs
  induction xs with
  | nil => rfl
  | cons x xs ih =>
    simp only [List.zipWith_cons_cons, List.map_cons, List.sum_cons, ih]
    simp

/-- Claim C11. With an output buffer and intermediates of the shapes of the
batch, `calculateTrainingDataError` is the error as the spec words it: the sum
of the squares of the forward output minus the target, divided by the row
count times the output width. It is zero when the forward output holds the
values of the target. -/
theorem calculateTrainingDataError_is_mean_square (activation : F → F)
    (network : neuralNetwork F) (trains : trainingData F) (output : matrix F)
    (bufs : List (matrix F)) (hne : network.layers ≠ [])
    (hout : output.height = trains.input.height ∧
      getNetworkOutputs network = some output.width)
    (hbufs : shapedFor trains.input.height
      (network.layers.take (network.numLayers - 1)) bufs) :
    (∃ out inters, calculateTrainingDataError activation network trains output bufs
        = some (meanSquaredError activation network trains, out, inters)) ∧
    (forwardChain activation network.layers trains.input).height = trains.input.height ∧
    (forwardChain activation network.layers trains.input).width = output.width ∧
    ((forwardChain activation network.layers trains.input).vals = trains.output.vals →
      meanSquaredError activation network trains = 0) := by
  obtain ⟨inters, happ, _⟩ := applyNetwork_forward activation network trains.input hne
    (some output) (some bufs)
    (by intro o ho; cases ho; exact hout)
    (by intro b hb; cases hb; exact hbufs)
  refine ⟨⟨subtractMatrices (forwardChain activation network.layers trains.input) trains.output
      (forwardChain activation network.layers trains.input), inters, ?_⟩, forwardChain_height activation network.layers trains.input, ?_, ?_⟩
  · unfold calculateTrainingDataError
    rw [happ]
    rfl
  · obtain ⟨l, hl, _⟩ := last_layer_split network.layers hne
    have hw := (forwardChain_last activation network.layers trains.input l hl).1
    have h2 := hout.2
    unfold getNetworkOutputs neuralNetwork.numLayers at h2
    rw [hl] at h2
    simp only [Option.map_some', Option.some.injEq] at h2
    rw [hw, h2]
  · intro hv
    unfold meanSquaredError
    simp only
    rw [← hv, zipWith_sub_self_sq, zero_div]

/-- Claim C11 on the single-bias network, whose forward output is the target. -/
theorem calculateTrainingDataError_is_mean_square_witness :
    biasNet.layers ≠ [] ∧
    ((⟨1, 1, [0]⟩ : matrix ℚ).height = biasTrain.input.height ∧
      getNetworkOutputs biasNet = some (⟨1, 1, [0]⟩ : matrix ℚ).width) ∧
    shapedFor biasTrain.input.height (biasNet.layers.take (biasNet.numLayers - 1)) [] ∧
    ((∃ out inters, calculateTrainingDataError id biasNet biasTrain ⟨1, 1, [0]⟩ []
        = some (meanSquaredError id biasNet biasTrain, out, inters)) ∧
    (forwardChain id biasNet.layers biasTrain.input).height = biasTrain.input.height ∧
    (forwardChain id biasNet.layers biasTrain.input).width = (⟨1, 1, [0]⟩ : matrix ℚ).width ∧
    ((forwardChain id biasNet.layers biasTrain.input).vals = biasTrain.output.vals →
      meanSquaredError id biasNet biasTrain = 0)) :=
  ⟨by decide, by decide, by decide,
    calculateTrainingDataError_is_mean_square id biasNet biasTrain ⟨1, 1, [0]⟩ []
      (by decide) (by decide) (by decide)⟩

end ErrorClaims

/-! ## The sized constructor -/

section ConstructionLemmas

variable {F : Type}

theorem filledNetwork_map_some : ∀ ls : List (neuralLayer F),
    filledNetwork (ls.map some) = some ls := by
  intro ls
  induction ls with
  | nil => rfl
  | cons l ls ih => simp only [List.map_cons, filledNetwork, ih]

theorem getElem?_eq_some_getD {α : Type} (xs : List α) (i : Nat) (d : α) (h : i < xs.length) :
    xs[i]? = some (xs.getD i d) := by
  rw [List.getD_eq_getElem?_getD, List.getElem?_eq_getElem h]
  rfl

end ConstructionLemmas

section ConstructionClaims

variable {F : Type} [LinearOrderedField F]

/-- The layers `createSizedNetwork` builds from index `idx` on. -/
theorem createSizedLayers_fill (sizes : List Nat) : ∀ (count idx oldSize : Nat)
    (done : List (neuralLayer F)), done.length = idx → sizes[idx]? = some oldSize →
    idx + count + 1 ≤ sizes.length →
    createSizedLayers sizes count idx oldSize (done.map some ++ List.replicate count none)
      = some ((done ++ (List.range count).map (fun k =>
          createLayer (sizes.getD (idx + k) 0) (sizes.getD (idx + k + 1) 0))).map some) := by
  intro count
  induction count with
  | zero =>
    intro idx oldSize done _ _ _
    simp [createSizedLayers]
  | succ count ih =>
    intro idx oldSize done hd hold hlen
    have hnew : sizes[idx + 1]? = some (sizes.getD (idx + 1) 0) :=
      getElem?_eq_some_getD sizes (idx + 1) 0 (by omega)
    have hold2 : sizes[idx]? = some (sizes.getD idx 0) :=
      getElem?_eq_some_getD sizes idx 0 (by omega)
    have holdeq : oldSize = sizes.getD idx 0 := by
      rw [hold] at hold2
      exact Option.some.inj hold2
    have hset : (done.map some ++ List.replicate (count + 1) none).set idx
        (some (createLayer oldSize (sizes.getD (idx + 1) 0)))
        = (done ++ [createLayer oldSize (sizes.getD (idx + 1) 0)]).map some
          ++ List.replicate count (none : Option (neuralLayer F)) := by
      rw [List.set_append]
      simp [hd, List.replicate_succ]
    unfold createSizedLayers
    rw [hnew]
    simp only
    rw [hset, ih (idx + 1) (sizes.getD (idx + 1) 0)
      (done ++ [createLayer oldSize (sizes.getD (idx + 1) 0)]) (by simp [hd]) hnew (by omega)]
    congr 2
    rw [List.range_succ_eq_map, List.map_cons, List.map_map, List.append_assoc]
    congr 1
    rw [holdeq]
    simp only [List.singleton_append, Nat.add_zero, List.cons.injEq, true_and]
    apply List.map_congr_left
    intro k _
    simp only [Function.comp, Nat.succ_eq_add_one]
    rw [show idx + 1 + k = idx + (k + 1) by omega]

/-- The network `createSizedNetwork` returns, layer by layer. -/
theorem createSizedNetwork_layers (sizes : List Nat) (numLayers : Nat)
    (hs : numLayers + 1 ≤ sizes.length) :
    createSizedNetwork sizes numLayers
      = some ({ layers := (List.range numLayers).map (fun k =>
          createLayer (sizes.getD k 0) (sizes.getD (k + 1) 0)) } : neuralNetwork F) := by
  have h0 : sizes[0]? = some (sizes.getD 0 0) := getElem?_eq_some_getD sizes 0 0 (by omega)
  have hfill := createSizedLayers_fill (F := F) sizes numLayers 0 (sizes.getD 0 0) [] rfl h0
    (by omega)
  simp only [List.map_nil, List.nil_append, Nat.zero_add] at hfill
  unfold createSizedNetwork createEmptyNetwork
  rw [h0]
  simp only
  rw [hfill]
  simp only [filledNetwork_map_some, Option.map_some']

/-- Claim C12. For `numLayers >= 1` and `numLayers + 1` sizes,
`createSizedNetwork` returns a network of exactly `numLayers` layers in which
layer `i` has `sizes[i]` inputs and `sizes[i + 1]` outputs; the layers chain,
`getNetworkInputs` is `sizes[0]` and `getNetworkOutputs` is
`sizes[numLayers]`. -/
theorem createSizedNetwork_chained (sizes : List Nat) (numLayers : Nat)
    (hn : 1 ≤ numLayers) (hs : sizes.length = numLayers + 1) :
    ∃ network : neuralNetwork F, createSizedNetwork sizes numLayers = some network ∧
      network.numLayers = numLayers ∧
      (∀ i, i < numLayers → ∃ l, network.layers[i]? = some l ∧
        sizes[i]? = some l.inputs ∧ sizes[i + 1]? = some l.outputs) ∧
      chained network ∧
      getNetworkInputs network = sizes[0]? ∧
      getNetworkOutputs network = sizes[numLayers]? := by
  refine ⟨_, createSizedNetwork_layers sizes numLayers (by omega), ?_, ?_, ?_, ?_, ?_⟩
  · simp [neuralNetwork.numLayers]
  · intro i hi
    refine ⟨createLayer (sizes.getD i 0) (sizes.getD (i + 1) 0), ?_, ?_, ?_⟩
    · simp [hi]
    · exact getElem?_eq_some_getD sizes i 0 (by omega)
    · exact getElem?_eq_some_getD sizes (i + 1) 0 (by omega)
  · unfold chained
    simp only
    rw [List.chain'_map]
    obtain ⟨m, rfl⟩ : ∃ m, numLayers = m + 1 := ⟨numLayers - 1, by omega⟩
    rw [List.chain'_range_succ]
    intro k _
    rfl
  · unfold getNetworkInputs
    rw [getElem?_eq_some_getD sizes 0 0 (by omega)]
    simp [show 0 < numLayers by omega, createLayer]
  · unfold getNetworkOutputs neuralNetwork.numLayers
    rw [getElem?_eq_some_getD sizes numLayers 0 (by omega)]
    simp [show numLayers - 1 < numLayers by omega, createLayer,
      show numLayers - 1 + 1 = numLayers by omega]

/-- Claim C12 on the sizes `[2, 3, 1]`. -/
theorem createSizedNetwork_chained_witness :
    1 ≤ 2 ∧ [2, 3, 1].length = 2 + 1 ∧
    ∃ network : neuralNetwork ℚ, createSizedNetwork [2, 3, 1] 2 = some network ∧
      network.numLayers = 2 ∧
      (∀ i, i < 2 → ∃ l, network.layers[i]? = some l ∧
        [2, 3, 1][i]? = some l.inputs ∧ [2, 3, 1][i + 1]? = some l.outputs) ∧
      chained network ∧
      getNetworkInputs network = [2, 3, 1][0]? ∧
      getNetworkOutputs network = [2, 3, 1][2]? :=
  ⟨by decide, by decide, createSizedNetwork_chained [2, 3, 1] 2 (by decide) (by decide)⟩

end ConstructionClaims

/-! ## Cloning and copying -/

section MemoryLemmas

variable {F : Type}

theorem layersAt_cons_some {store : List (neuralLayer F)} {a : Nat} {rest : List Nat}
    {ls : List (neuralLayer F)} (h : layersAt store (a :: rest) = some ls) :
    ∃ l ls1, store[a]? = some l ∧ layersAt store rest = some ls1 ∧ ls = l :: ls1 := by
  unfold layersAt at h
  cases ha : store[a]? with
  | none => simp [ha] at h
  | some l =>
    cases hr : layersAt store rest with
    | none => simp [ha, hr] at h
    | some ls1 =>
      simp only [ha, hr, Option.some.injEq] at h
      exact ⟨l, ls1, rfl, rfl, h.symm⟩

theorem layersAt_cons_eq {store : List (neuralLayer F)} {a : Nat} {rest : List Nat}
    {l : neuralLayer F} {ls1 : List (neuralLayer F)} (ha : store[a]? = some l)
    (hr : layersAt store rest = some ls1) :
    layersAt store (a :: rest) = some (l :: ls1) := by
  unfold layersAt
  simp only [ha, hr]

theorem layersAt_bound (store : List (neuralLayer F)) : ∀ (as : List Nat)
    (ls : List (neuralLayer F)), layersAt store as = some ls →
    ls.length = as.length ∧ ∀ a ∈ as, a < store.length := by
  intro as
  induction as with
  | nil =>
    intro ls h
    simp only [layersAt, Option.some.injEq] at h
    subst h
    simp
  | cons a rest ih =>
    intro ls h
    obtain ⟨l, ls1, ha, hr, rfl⟩ := layersAt_cons_some h
    obtain ⟨hlen, hb⟩ := ih ls1 hr
    refine ⟨by simp [hlen], ?_⟩
    intro b hb1
    rcases List.mem_cons.mp hb1 with rfl | hb2
    · by_contra hge
      rw [List.getElem?_eq_none (by omega)] at ha
      cases ha
    · exact hb b hb2

theorem layersAt_congr (store1 store2 : List (neuralLayer F)) : ∀ as : List Nat,
    (∀ a ∈ as, store2[a]? = store1[a]?) → layersAt store2 as = layersAt store1 as := by
  intro as
  induction as with
  | nil => intro _; rfl
  | cons a rest ih =>
    intro h
    unfold layersAt
    rw [h a (List.mem_cons_self a rest),
      ih (fun b hb => h b (List.mem_cons_of_mem a hb))]

/-- The loop of `cloneNeuralNetwork` appends copies of the layers to the store
and returns their addresses, all of them new. -/
theorem cloneLayersAt_spec : ∀ (as : List Nat) (store ls : List (neuralLayer F)),
    layersAt store as = some ls →
    ∃ cs, cloneLayersAt store as = some (store ++ ls, cs) ∧
      layersAt (store ++ ls) cs = some ls ∧ ∀ c ∈ cs, store.length ≤ c := by
  intro as
  induction as with
  | nil =>
    intro store ls h
    simp only [layersAt, Option.some.injEq] at h
    subst h
    exact ⟨[], by simp [cloneLayersAt], rfl, by simp⟩
  | cons a rest ih =>
    intro store ls h
    obtain ⟨l, ls1, ha, hr, rfl⟩ := layersAt_cons_some h
    obtain ⟨_, hb⟩ := layersAt_bound store rest ls1 hr
    have hr1 : layersAt (store ++ [l]) rest = some ls1 := by
      rw [layersAt_congr store (store ++ [l]) rest, hr]
      intro b hb1
      exact List.getElem?_append_left (hb b hb1)
    obtain ⟨cs, hc, hcs, hfresh⟩ := ih (store ++ [l]) ls1 hr1
    have happ : store ++ [l] ++ ls1 = store ++ l :: ls1 := by simp
    rw [happ] at hc hcs
    refine ⟨store.length :: cs, ?_, ?_, ?_⟩
    · unfold cloneLayersAt cloneLayerAt
      simp only [ha, cloneLayer, hc]
    · apply layersAt_cons_eq _ hcs
      rw [List.getElem?_append_right (Nat.le_refl _)]
      simp
    · intro c hc1
      rcases List.mem_cons.mp hc1 with rfl | hc2
      · exact Nat.le_refl _
      · have := hfresh c hc2
        simp only [List.length_append, List.length_singleton] at this
        omega

theorem copyLayers_same_shape : ∀ (ss ts : List (neuralLayer F)),
    ss.map layerShape = ts.map layerShape → copyLayers ss ts = some ss := by
  intro ss
  induction ss with
  | nil =>
    intro ts h
    cases ts with
    | nil => rfl
    | cons t ts => simp at h
  | cons s ss ih =>
    intro ts h
    cases ts with
    | nil => simp at h
    | cons t ts =>
      simp only [List.map_cons, List.cons.injEq] at h
      obtain ⟨hst, hrest⟩ := h
      unfold copyLayers
      rw [ih ts hrest]
      simp only [Option.some.injEq, List.cons.injEq, and_true]
      obtain ⟨si, so, ⟨sh, sw, svals⟩, sb⟩ := s
      obtain ⟨ti, tou, ⟨th, tw, tvals⟩, tb⟩ := t
      simp only [layerShape, Prod.mk.injEq] at hst
      obtain ⟨h1, h2, h3, h4⟩ := hst
      subst h1 h2 h3 h4
      rfl

theorem copyLayers_shape (ss : List (neuralLayer F)) : ∀ (ts r : List (neuralLayer F)),
    copyLayers ss ts = some r → r.map layerShape = ts.map layerShape := by
  induction ss with
  | nil =>
    intro ts r h
    cases ts with
    | nil =>
      simp only [copyLayers, Option.some.injEq] at h
      subst h
      rfl
    | cons t ts => simp [copyLayers] at h
  | cons s ss ih =>
    intro ts r h
    cases ts with
    | nil =>
      simp only [copyLayers, Option.some.injEq] at h
      subst h
      rfl
    | cons t ts =>
      unfold copyLayers at h
      cases hr : copyLayers ss ts with
      | none => simp [hr] at h
      | some rest =>
        simp only [hr, Option.some.injEq] at h
        subst h
        simp only [List.map_cons, ih ts rest hr, List.cons.injEq, and_true]
        rfl

theorem copyLayers_leading : ∀ (ss ts : List (neuralLayer F)),
    ts.map layerShape = (ss.take ts.length).map layerShape →
    copyLayers ss ts = some (ss.take ts.length) := by
  intro ss
  induction ss with
  | nil =>
    intro ts h
    cases ts with
    | nil => rfl
    | cons t ts => simp at h
  | cons s ss ih =>
    intro ts h
    cases ts with
    | nil => rfl
    | cons t ts =>
      simp only [List.length_cons, List.take_succ_cons, List.map_cons, List.cons.injEq] at h
      obtain ⟨hst, hrest⟩ := h
      unfold copyLayers
      rw [ih ts hrest]
      simp only [List.length_cons, List.take_succ_cons, Option.some.injEq, List.cons.injEq,
        and_true]
      obtain ⟨si, so, ⟨sh, sw, svals⟩, sb⟩ := s
      obtain ⟨ti, tou, ⟨th, tw, tvals⟩, tb⟩ := t
      simp only [layerShape, Prod.mk.injEq] at hst
      obtain ⟨h1, h2, h3, h4⟩ := hst
      subst h1 h2 h3 h4
      rfl

theorem copyLayers_none (ss : List (neuralLayer F)) : ∀ ts : List (neuralLayer F),
    copyLayers ss ts = none ↔ ss.length < ts.length := by
  induction ss with
  | nil =>
    intro ts
    cases ts with
    | nil => simp [copyLayers]
    | cons t ts => simp [copyLayers]
  | cons s ss ih =>
    intro ts
    cases ts with
    | nil => simp [copyLayers]
    | cons t ts =>
      unfold copyLayers
      cases hr : copyLayers ss ts with
      | none =>
        have := (ih ts).mp hr
        simp only [List.length_cons, true_iff]
        omega
      | some rest =>
        have hn : ¬ ss.length < ts.length := by
          intro hlt
          rw [(ih ts).mpr hlt] at hr
          cases hr
        simp only [List.length_cons, false_iff, reduceCtorEq]
        omega

/-- The loop of `copyNeuralNetwork` on the store, when the target layers are
distinct objects and none of them is a source layer: it writes what the loop on
values computes and touches no other object. -/
theorem copyLayersAt_spec : ∀ (ts ss : List Nat) (store svs tvs : List (neuralLayer F)),
    layersAt store ss = some svs → layersAt store ts = some tvs →
    ts.length ≤ ss.length → ts.Nodup → (∀ a ∈ ts, a ∉ ss) →
    ∃ store1 r, copyLayersAt store ss ts = some store1 ∧ copyLayers svs tvs = some r ∧
      layersAt store1 ts = some r ∧ ∀ a, a ∉ ts → store1[a]? = store[a]? := by
  intro ts
  induction ts with
  | nil =>
    intro ss store svs tvs _ ht _ _ _
    simp only [layersAt, Option.some.injEq] at ht
    subst ht
    refine ⟨store, [], ?_, ?_, rfl, fun _ _ => rfl⟩
    · cases ss <;> rfl
    · cases svs <;> rfl
  | cons t ts ih =>
    intro ss store svs tvs hs ht hlen hnd hdis
    cases ss with
    | nil => simp at hlen
    | cons s ss =>
      obtain ⟨sl, svs1, hsl, hsr, rfl⟩ := layersAt_cons_some hs
      obtain ⟨tl, tvs1, htl, htr, rfl⟩ := layersAt_cons_some ht
      have htlt : t < store.length := (layersAt_bound store _ _ ht).2 t (List.mem_cons_self t ts)
      have htts : t ∉ ts := (List.nodup_cons.mp hnd).1
      have htss : t ∉ ss := fun hm => hdis t (List.mem_cons_self t ts) (List.mem_cons_of_mem s hm)
      have hsr1 : layersAt (store.set t (cloneLayer sl (some tl))) ss = some svs1 := by
        rw [layersAt_congr store _ ss, hsr]
        intro b hb
        exact List.getElem?_set_ne (fun (hbt : t = b) => htss (by rw [hbt]; exact hb))
      have htr1 : layersAt (store.set t (cloneLayer sl (some tl))) ts = some tvs1 := by
        rw [layersAt_congr store _ ts, htr]
        intro b hb
        exact List.getElem?_set_ne (fun (hbt : t = b) => htts (by rw [hbt]; exact hb))
      obtain ⟨store1, r, hcopy, hval, hread, hframe⟩ :=
        ih ss (store.set t (cloneLayer sl (some tl))) svs1 tvs1 hsr1 htr1
          (by simp only [List.length_cons] at hlen; omega) (List.nodup_cons.mp hnd).2
          (fun a ha hm => hdis a (List.mem_cons_of_mem t ha) (List.mem_cons_of_mem s hm))
      refine ⟨store1, cloneLayer sl (some tl) :: r, ?_, ?_, ?_, ?_⟩
      · unfold copyLayersAt cloneLayerAt
        simp only [hsl, htl, hcopy]
      · unfold copyLayers
        simp only [hval]
      · apply layersAt_cons_eq _ hread
        rw [hframe t htts, List.getElem?_set_self htlt]
      · intro a ha
        have hat : a ≠ t := fun h => ha (h ▸ List.mem_cons_self t ts)
        have hats : a ∉ ts := fun h => ha (List.mem_cons_of_mem t h)
        rw [hframe a hats]
        exact List.getElem?_set_ne (fun h => hat h.symm)

/-- The loop of `copyNeuralNetwork` on the store writes only to target
layers. -/
theorem copyLayersAt_frame : ∀ (ts ss : List Nat) (store store1 : List (neuralLayer F)),
    copyLayersAt store ss ts = some store1 → ∀ a, a ∉ ts → store1[a]? = store[a]? := by
  intro ts
  induction ts with
  | nil =>
    intro ss store store1 h a _
    have : copyLayersAt store ss [] = some store := by cases ss <;> rfl
    rw [this] at h
    cases h
    rfl
  | cons t ts ih =>
    intro ss store store1 h a ha
    cases ss with
    | nil => simp [copyLayersAt] at h
    | cons s ss =>
      unfold copyLayersAt cloneLayerAt at h
      cases hsl : store[s]? with
      | none => simp [hsl] at h
      | some sl =>
        cases htl : store[t]? with
        | none => simp [hsl, htl] at h
        | some tl =>
          simp only [hsl, htl] at h
          rw [ih ss _ store1 h a (fun hm => ha (List.mem_cons_of_mem t hm))]
          exact List.getElem?_set_ne (fun (hta : t = a) => ha (by rw [← hta]; exact List.mem_cons_self t ts))

theorem networkAt_some {store : List (neuralLayer F)} {ref : networkRef}
    {n : neuralNetwork F} :
    networkAt store ref = some n ↔ layersAt store ref.layers = some n.layers := by
  unfold networkAt
  cases h : layersAt store ref.layers with
  | none => simp
  | some ls =>
    obtain ⟨nl⟩ := n
    simp

end MemoryLemmas

section MemoryClaims

variable {F : Type}

/-- Claim C13. For a source and a target held in the store, with identical
layer shapes (hence the same number of layers), where the target layers are
distinct objects owned by the target alone: `copyNeuralNetwork(source, target)`
returns `target`, whose layers then hold the weights and biases of the source;
the layer count and the shapes of the target are as before, and the source is
as before. The loop on values computes the same network. -/
theorem copyNeuralNetwork_copies (store : List (neuralLayer F)) (source target : networkRef)
    (sv tv : neuralNetwork F)
    (hs : networkAt store source = some sv) (ht : networkAt store target = some tv)
    (hshape : sv.layers.map layerShape = tv.layers.map layerShape)
    (hown : target.layers.Nodup ∧ ∀ a ∈ target.layers, a ∉ source.layers) :
    ∃ store1 r, copyNeuralNetworkAt store source target = some (store1, target) ∧
      networkAt store1 target = some r ∧ copyNeuralNetwork sv tv = some r ∧
      r.layers.map layerParams = sv.layers.map layerParams ∧
      r.numLayers = tv.numLayers ∧ r.layers.map layerShape = tv.layers.map layerShape ∧
      networkAt store1 source = some sv := by
  have hs1 := networkAt_some.mp hs
  have ht1 := networkAt_some.mp ht
  have hlen : sv.layers.length = tv.layers.length := by
    have := congrArg List.length hshape
    simpa using this
  have hsl := (layersAt_bound store _ _ hs1).1
  have htl := (layersAt_bound store _ _ ht1).1
  obtain ⟨store1, r, hcopy, hval, hread, hframe⟩ :=
    copyLayersAt_spec target.layers source.layers store sv.layers tv.layers hs1 ht1
      (by omega) hown.1 hown.2
  have hr : r = sv.layers := by
    rw [copyLayers_same_shape sv.layers tv.layers hshape] at hval
    exact (Option.some.inj hval).symm
  subst hr
  refine ⟨store1, sv, ?_, ?_, ?_, rfl, ?_, hshape, ?_⟩
  · unfold copyNeuralNetworkAt
    rw [hcopy]
    rfl
  · exact networkAt_some.mpr hread
  · unfold copyNeuralNetwork
    rw [hval]
    rfl
  · exact hlen
  · apply networkAt_some.mpr
    rw [layersAt_congr store store1 source.layers, hs1]
    intro a ha
    exact hframe a (fun hm => hown.2 a hm ha)

/-- Claim C13 on a store of four layers: the layers of `specNet` are copied
into the two zero layers. -/
theorem copyNeuralNetwork_copies_witness :
    networkAt fourLayers ⟨[0, 1]⟩ = some specNet ∧
    networkAt fourLayers ⟨[2, 3]⟩ = some ⟨fourLayers.drop 2⟩ ∧
    specNet.layers.map layerShape
      = (⟨fourLayers.drop 2⟩ : neuralNetwork Int).layers.map layerShape ∧
    ((⟨[2, 3]⟩ : networkRef).layers.Nodup ∧
      ∀ a ∈ (⟨[2, 3]⟩ : networkRef).layers, a ∉ (⟨[0, 1]⟩ : networkRef).layers) ∧
    ∃ store1 r, copyNeuralNetworkAt fourLayers ⟨[0, 1]⟩ ⟨[2, 3]⟩ = some (store1, ⟨[2, 3]⟩) ∧
      networkAt store1 ⟨[2, 3]⟩ = some r ∧
      copyNeuralNetwork specNet ⟨fourLayers.drop 2⟩ = some r ∧
      r.layers.map layerParams = specNet.layers.map layerParams ∧
      r.numLayers = (⟨fourLayers.drop 2⟩ : neuralNetwork Int).numLayers ∧
      r.layers.map layerShape
        = (⟨fourLayers.drop 2⟩ : neuralNetwork Int).layers.map layerShape ∧
      networkAt store1 ⟨[0, 1]⟩ = some specNet :=
  ⟨by decide, by decide, by decide, by decide,
    copyNeuralNetwork_copies fourLayers ⟨[0, 1]⟩ ⟨[2, 3]⟩ specNet ⟨fourLayers.drop 2⟩
      (by decide) (by decide) (by decide) (by decide)⟩

/-- Claim C14, as the code has it. `copyNeuralNetwork` makes no check and has
no error result. When the layers of the target have the shapes of the first
layers of the source, also when the target has fewer layers than the source,
it returns the target with every layer overwritten by the layer of the source
at the same index. When the target has more layers than the source it reads a
layer of the source that does not exist. -/
theorem copyNeuralNetwork_unchecked (source target : neuralNetwork F) :
    (target.layers.map layerShape
        = (source.layers.take target.numLayers).map layerShape →
      copyNeuralNetwork source target
        = some { layers := source.layers.take target.numLayers }) ∧
    (source.numLayers < target.numLayers → copyNeuralNetwork source target = none) := by
  constructor
  · intro hshape
    unfold copyNeuralNetwork neuralNetwork.numLayers
    rw [copyLayers_leading source.layers target.layers hshape]
    rfl
  · intro hlt
    unfold copyNeuralNetwork
    rw [Option.map_eq_none', copyLayers_none]
    exact hlt

/-- Claim C14 as amended, on `specNet` and `firstOnly`: copying into the
shorter network succeeds, copying into the longer one reads past the layers of
the source. -/
theorem copyNeuralNetwork_unchecked_witness :
    copyNeuralNetwork specNet firstOnly
      = some { layers := specNet.layers.take firstOnly.numLayers } ∧
    copyNeuralNetwork firstOnly specNet = none :=
  ⟨(copyNeuralNetwork_unchecked specNet firstOnly).1 (by decide),
    (copyNeuralNetwork_unchecked firstOnly specNet).2 (by decide)⟩

/-- Claim C14 fails as stated: copying the two layers of `specNet` into a
target of one layer reports nothing and overwrites the layer of the target. -/
theorem copy_into_shorter_target :
    specNet.numLayers ≠ firstOnly.numLayers ∧
    copyNeuralNetwork specNet firstOnly
      = some ⟨[⟨2, 3, ⟨2, 3, [1, 2, 3, 4, 5, 6]⟩, [7, 8, 9]⟩]⟩ ∧
    copyNeuralNetwork specNet firstOnly ≠ some firstOnly := by
  decide

/-- Claim C15. For a network held in the store, `cloneNeuralNetwork` returns a
clone with the same layers: the same count and, layer by layer, the same
shape, weights and biases. The network is as before, and it stays so in every
store that differs only at layer objects of the clone, in particular after
`copyNeuralNetwork` from any source into the clone. -/
theorem cloneNeuralNetwork_independent (store : List (neuralLayer F)) (ref : networkRef)
    (n : neuralNetwork F) (h : networkAt store ref = some n) :
    ∃ store1 clone, cloneNeuralNetworkAt store ref = some (store1, clone) ∧
      networkAt store1 clone = some (cloneNeuralNetwork n) ∧ cloneNeuralNetwork n = n ∧
      networkAt store1 ref = some n ∧
      (∀ store2 : List (neuralLayer F),
        (∀ a, a ∉ clone.layers → store2[a]? = store1[a]?) →
        networkAt store2 ref = some n) ∧
      (∀ (source : networkRef) (store2 : List (neuralLayer F)) (r : networkRef),
        copyNeuralNetworkAt store1 source clone = some (store2, r) →
        networkAt store2 ref = some n) := by
  have h1 := networkAt_some.mp h
  obtain ⟨cs, hc, hcs, hfresh⟩ := cloneLayersAt_spec ref.layers store n.layers h1
  obtain ⟨_, hb⟩ := layersAt_bound store _ _ h1
  have hkeep : ∀ store2 : List (neuralLayer F),
      (∀ a, a ∉ cs → store2[a]? = (store ++ n.layers)[a]?) →
      networkAt store2 ref = some n := by
    intro store2 hsame
    apply networkAt_some.mpr
    rw [layersAt_congr store store2 ref.layers, h1]
    intro a ha
    have halt := hb a ha
    rw [hsame a (fun hm => by have := hfresh a hm; omega)]
    exact List.getElem?_append_left halt
  refine ⟨store ++ n.layers, ⟨cs⟩, ?_, ?_, cloneNeuralNetwork_eq n, ?_, hkeep, ?_⟩
  · unfold cloneNeuralNetworkAt
    rw [hc]
    rfl
  · rw [cloneNeuralNetwork_eq]
    exact networkAt_some.mpr hcs
  · exact hkeep _ (fun _ _ => rfl)
  · intro source store2 r hcopy
    unfold copyNeuralNetworkAt at hcopy
    cases hcl : copyLayersAt (store ++ n.layers) source.layers cs with
    | none => simp [hcl] at hcopy
    | some st =>
      simp only [hcl, Option.map_some', Option.some.injEq, Prod.mk.injEq] at hcopy
      obtain ⟨rfl, _⟩ := hcopy
      exact hkeep _ (copyLayersAt_frame cs source.layers _ _ hcl)

/-- Claim C15 on the store `fourLayers` and the network of its first two
layers. -/
theorem cloneNeuralNetwork_independent_witness :
    networkAt fourLayers ⟨[0, 1]⟩ = some specNet ∧
    ∃ store1 clone, cloneNeuralNetworkAt fourLayers ⟨[0, 1]⟩ = some (store1, clone) ∧
      networkAt store1 clone = some (cloneNeuralNetwork specNet) ∧
      cloneNeuralNetwork specNet = specNet ∧
      networkAt store1 ⟨[0, 1]⟩ = some specNet ∧
      (∀ store2 : List (neuralLayer Int),
        (∀ a, a ∉ clone.layers → store2[a]? = store1[a]?) →
        networkAt store2 ⟨[0, 1]⟩ = some specNet) ∧
      (∀ (source : networkRef) (store2 : List (neuralLayer Int)) (r : networkRef),
        copyNeuralNetworkAt store1 source clone = some (store2, r) →
        networkAt store2 ⟨[0, 1]⟩ = some specNet) :=
  ⟨by decide, cloneNeuralNetwork_independent fourLayers ⟨[0, 1]⟩ specNet (by decide)⟩

end MemoryClaims

/-! ## Shapes during training -/

section ShapeLemmas

variable {F : Type}

theorem foldl_keeps {α β : Type} (P : α → Prop) (f : α → β → α)
    (h : ∀ a b, P a → P (f a b)) : ∀ (l : List β) (a : α), P a → P (l.foldl f a) := by
  intro l
  induction l with
  | nil => intro a ha; exact ha
  | cons b l ih => intro a ha; exact ih (f a b) (h a b ha)

theorem counts_of_shape {ls ms : List (neuralLayer F)}
    (h : ls.map layerShape = ms.map layerShape) :
    ls.map layerCounts = ms.map layerCounts := by
  have hc : ∀ xs : List (neuralLayer F),
      xs.map layerCounts = (xs.map layerShape).map (fun p => (p.1, p.2.1)) := by
    intro xs
    rw [List.map_map]
    rfl
  rw [hc ls, hc ms, h]

theorem chained_iff_counts (network : neuralNetwork F) :
    chained network ↔
      List.Chain' (fun p q : Nat × Nat => p.2 = q.1) (network.layers.map layerCounts) := by
  unfold chained
  rw [List.chain'_map]
  rfl

theorem chained_of_counts {a b : neuralNetwork F}
    (h : a.layers.map layerCounts = b.layers.map layerCounts) (hb : chained b) :
    chained a := by
  rw [chained_iff_counts] at hb ⊢
  rw [h]
  exact hb

theorem copyNeuralNetwork_shape {a b r : neuralNetwork F} (h : copyNeuralNetwork a b = some r) :
    r.layers.map layerShape = b.layers.map layerShape := by
  unfold copyNeuralNetwork at h
  cases hc : copyLayers a.layers b.layers with
  | none => simp [hc] at h
  | some ls =>
    simp only [hc, Option.map_some', Option.some.injEq] at h
    subst h
    exact copyLayers_shape a.layers b.layers ls hc

theorem copyNeuralNetwork_same_shape {a b : neuralNetwork F}
    (h : a.layers.map layerShape = b.layers.map layerShape) :
    copyNeuralNetwork a b = some a := by
  unfold copyNeuralNetwork
  rw [copyLayers_same_shape a.layers b.layers h]
  rfl

theorem acceptOrReset_shape {accepted : Bool} {mutant : neuralNetwork F} {e : F}
    {s : annealState F} {ce : F} {cn : neuralNetwork F} {cw : Nat}
    (h : acceptOrReset accepted mutant e s = some (ce, cn, cw)) :
    cn.layers.map layerShape = s.current.layers.map layerShape := by
  unfold acceptOrReset at h
  split at h
  · cases hc : copyNeuralNetwork mutant s.current with
    | none => simp [hc] at h
    | some r =>
      simp only [hc, Option.map_some', Option.some.injEq, Prod.mk.injEq] at h
      obtain ⟨_, rfl, _⟩ := h
      exact copyNeuralNetwork_shape hc
  · split at h
    · cases hc : copyNeuralNetwork s.best s.current with
      | none => simp [hc] at h
      | some r =>
        simp only [hc, Option.map_some', Option.some.injEq, Prod.mk.injEq] at h
        obtain ⟨_, rfl, _⟩ := h
        exact copyNeuralNetwork_shape hc
    · simp only [Option.some.injEq, Prod.mk.injEq] at h
      obtain ⟨_, rfl, _⟩ := h
      rfl

/-- What the acceptance branch leaves, when the three networks have the same
shapes. -/
theorem acceptOrReset_value {accepted : Bool} {mutant : neuralNetwork F} {e : F}
    {s : annealState F} {ce : F} {cn : neuralNetwork F} {cw : Nat}
    (hm : mutant.layers.map layerShape = s.current.layers.map layerShape)
    (hb : s.best.layers.map layerShape = s.current.layers.map layerShape)
    (h : acceptOrReset accepted mutant e s = some (ce, cn, cw)) :
    (accepted = true ∧ ce = e ∧ cn = mutant ∧ cw = s.cyclesWorse) ∨
    (accepted = false ∧ s.cyclesWorse + 1 = 1000 ∧ ce = s.bestStateError ∧ cn = s.best ∧
      cw = 0) ∨
    (accepted = false ∧ s.cyclesWorse + 1 ≠ 1000 ∧ ce = s.currentStateError ∧
      cn = s.current ∧ cw = s.cyclesWorse + 1) := by
  unfold acceptOrReset at h
  split at h
  · rename_i hacc
    rw [copyNeuralNetwork_same_shape hm] at h
    simp only [Option.map_some', Option.some.injEq, Prod.mk.injEq] at h
    obtain ⟨rfl, rfl, rfl⟩ := h
    exact Or.inl ⟨hacc, rfl, rfl, rfl⟩
  · rename_i hacc
    have hacc1 : accepted = false := by simpa using hacc
    split at h
    · rename_i hk
      rw [copyNeuralNetwork_same_shape hb] at h
      simp only [Option.map_some', Option.some.injEq, Prod.mk.injEq] at h
      obtain ⟨rfl, rfl, rfl⟩ := h
      exact Or.inr (Or.inl ⟨hacc1, hk, rfl, rfl, rfl⟩)
    · rename_i hk
      simp only [Option.some.injEq, Prod.mk.injEq] at h
      obtain ⟨rfl, rfl, rfl⟩ := h
      exact Or.inr (Or.inr ⟨hacc1, hk, rfl, rfl, rfl⟩)

end ShapeLemmas

section ShapeNumericLemmas

variable {F : Type} [LinearOrderedField F]

theorem mutateMatrix_shape (randomNetF : Nat → F) (mat : matrix F) (draws : Nat) :
    (mutateMatrix randomNetF mat draws).1.height = mat.height ∧
    (mutateMatrix randomNetF mat draws).1.width = mat.width := by
  unfold mutateMatrix
  apply foldl_keeps (fun st : matrix F × Nat => st.1.height = mat.height ∧ st.1.width = mat.width)
  · intro st rowIdx hst
    apply foldl_keeps
      (fun st : matrix F × Nat => st.1.height = mat.height ∧ st.1.width = mat.width)
    · intro st2 colIdx hst2
      exact hst2
    · exact hst
  · exact ⟨rfl, rfl⟩

theorem mutateLayers_shape (randomNetF : Nat → F) (ls : List (neuralLayer F)) :
    ∀ draws : Nat, (mutateLayers randomNetF ls draws).1.map layerShape = ls.map layerShape := by
  induction ls with
  | nil => intro draws; rfl
  | cons l ls ih =>
    intro draws
    simp only [mutateLayers, List.map_cons, ih, List.cons.injEq, and_true]
    have hm := mutateMatrix_shape randomNetF l.matrix draws
    simp only [layerShape, hm.1, hm.2]

theorem recordBest_shape {mutant : neuralNetwork F} {e : F} {s : annealState F}
    {be : F} {bn : neuralNetwork F} (h : recordBest mutant e s = some (be, bn)) :
    bn.layers.map layerShape = s.best.layers.map layerShape := by
  unfold recordBest at h
  split at h
  · cases hc : copyNeuralNetwork mutant s.best with
    | none => simp [hc] at h
    | some r =>
      simp only [hc, Option.map_some', Option.some.injEq, Prod.mk.injEq] at h
      obtain ⟨_, rfl⟩ := h
      exact copyNeuralNetwork_shape hc
  · simp only [Option.some.injEq, Prod.mk.injEq] at h
    obtain ⟨_, rfl⟩ := h
    rfl

/-- What the best-update step leaves, when `mutant` and `best` have the same
shapes. -/
theorem recordBest_value {mutant : neuralNetwork F} {e : F} {s : annealState F}
    {be : F} {bn : neuralNetwork F}
    (hm : mutant.layers.map layerShape = s.best.layers.map layerShape)
    (h : recordBest mutant e s = some (be, bn)) :
    (e < s.bestStateError ∧ be = e ∧ bn = mutant) ∨
    (¬ e < s.bestStateError ∧ be = s.bestStateError ∧ bn = s.best) := by
  unfold recordBest at h
  split at h
  · rename_i hlt
    rw [copyNeuralNetwork_same_shape hm] at h
    simp only [Option.map_some', Option.some.injEq, Prod.mk.injEq] at h
    obtain ⟨rfl, rfl⟩ := h
    exact Or.inl ⟨hlt, rfl, rfl⟩
  · rename_i hlt
    simp only [Option.some.injEq, Prod.mk.injEq] at h
    obtain ⟨rfl, rfl⟩ := h
    exact Or.inr ⟨hlt, rfl, rfl⟩

/-- A cycle leaves the shapes of the three working networks as they are. -/
theorem annealCycle_shape {activation expf : F → F} {randomNetF : Nat → F} {maxCycles : Nat}
    {train : trainingData F} {cycle : Nat} {s s1 : annealState F}
    (h : annealCycle activation expf randomNetF maxCycles train cycle s = some s1) :
    s1.current.layers.map layerShape = s.current.layers.map layerShape ∧
    s1.best.layers.map layerShape = s.best.layers.map layerShape ∧
    s1.mutant.layers.map layerShape = s.mutant.layers.map layerShape := by
  obtain ⟨copied, e, out, inters, hcopy, hmut, _, _, _, _, _, _, _, _, hacc, hbest⟩ :=
    annealCycle_inv h
  refine ⟨acceptOrReset_shape hacc, recordBest_shape hbest, ?_⟩
  rw [hmut]
  simp only
  rw [mutateLayers_shape, copyNeuralNetwork_shape hcopy]

/-- The statements before the loop, read off the initial state. -/
theorem annealInit_inv {activation : F → F} {original : neuralNetwork F}
    {train : trainingData F} {s : annealState F}
    (h : annealInit activation original train = some s) :
    ∃ outputs, getNetworkOutputs original = some outputs ∧
      calculateTrainingDataError activation original train
        (createMatrix train.output.height outputs)
        (createNetworkIntermediates original (getTrainingDataCount train))
        = some (s.initialError, s.output, s.intermediates) ∧
      s.current = original ∧ s.best = original ∧ s.mutant = original ∧
      s.currentStateError = s.initialError ∧ s.bestStateError = s.initialError ∧
      s.temp = 5 ∧ s.cyclesWorse = 0 ∧ s.accepted = false ∧ s.reset = false := by
  unfold annealInit at h
  simp only [cloneNeuralNetwork_eq] at h
  cases ho : getNetworkOutputs original with
  | none => simp [ho] at h
  | some outputs =>
    simp only [ho] at h
    cases hc : calculateTrainingDataError activation original train
        (createMatrix train.output.height outputs)
        (createNetworkIntermediates original (getTrainingDataCount train)) with
    | none => simp [hc] at h
    | some r =>
      obtain ⟨e, out, inters⟩ := r
      simp only [hc, Option.some.injEq] at h
      subst h
      exact ⟨outputs, rfl, hc, rfl, rfl, rfl, rfl, rfl, rfl, rfl, rfl, rfl⟩

/-- On every state of a run the three working networks have the shapes of
the starting network. -/
theorem annealStates_shape (activation expf : F → F) (randomNetF : Nat → F) (maxCycles : Nat)
    (original : neuralNetwork F) (train : trainingData F) :
    ∀ (cycles : Nat) (s : annealState F),
      annealStates activation expf randomNetF maxCycles original train cycles = some s →
      s.current.layers.map layerShape = original.layers.map layerShape ∧
      s.best.layers.map layerShape = original.layers.map layerShape ∧
      s.mutant.layers.map layerShape = original.layers.map layerShape := by
  intro cycles
  induction cycles with
  | zero =>
    intro s h
    obtain ⟨_, _, _, hc, hb, hm, _⟩ := annealInit_inv h
    rw [hc, hb, hm]
    exact ⟨rfl, rfl, rfl⟩
  | succ n ih =>
    intro s1 h
    obtain ⟨s, hs, hstep⟩ := annealStates_succ h
    obtain ⟨h1, h2, h3⟩ := ih s hs
    obtain ⟨g1, g2, g3⟩ := annealCycle_shape hstep
    exact ⟨g1.trans h1, g2.trans h2, g3.trans h3⟩

end ShapeNumericLemmas

section TopologyClaim

variable {F : Type} [LinearOrderedField F]

/-- Claim C18. For every chained starting network, after any number of cycles
of `annealNetwork` the networks `current`, `best` and `mutant`, and the network
returned, have the layer count of the starting network and the same
`(inputs, outputs)` in every layer, and their layers chain. -/
theorem training_keeps_topology (activation expf : F → F) (randomNetF : Nat → F)
    (maxCycles : Nat) (original : neuralNetwork F) (train : trainingData F)
    (hne : original.layers ≠ []) (hchain : chained original) :
    (∀ cycles : Nat, ∃ s,
      annealStates activation expf randomNetF maxCycles original train cycles = some s ∧
      s.current.numLayers = original.numLayers ∧ s.best.numLayers = original.numLayers ∧
      s.mutant.numLayers = original.numLayers ∧
      s.current.layers.map layerCounts = original.layers.map layerCounts ∧
      s.best.layers.map layerCounts = original.layers.map layerCounts ∧
      s.mutant.layers.map layerCounts = original.layers.map layerCounts ∧
      chained s.current ∧ chained s.best ∧ chained s.mutant) ∧
    ∃ r, annealNetworkFor activation expf randomNetF maxCycles original train = some r ∧
      r.numLayers = original.numLayers ∧
      r.layers.map layerCounts = original.layers.map layerCounts ∧ chained r := by
  have hall : ∀ cycles : Nat, ∃ s,
      annealStates activation expf randomNetF maxCycles original train cycles = some s ∧
      s.current.numLayers = original.numLayers ∧ s.best.numLayers = original.numLayers ∧
      s.mutant.numLayers = original.numLayers ∧
      s.current.layers.map layerCounts = original.layers.map layerCounts ∧
      s.best.layers.map layerCounts = original.layers.map layerCounts ∧
      s.mutant.layers.map layerCounts = original.layers.map layerCounts ∧
      chained s.current ∧ chained s.best ∧ chained s.mutant := by
    intro cycles
    obtain ⟨s, hs, hlen⟩ :=
      annealStates_some activation expf randomNetF maxCycles original train hne cycles
    obtain ⟨h1, h2, h3⟩ :=
      annealStates_shape activation expf randomNetF maxCycles original train cycles s hs
    have c1 := counts_of_shape h1
    have c2 := counts_of_shape h2
    have c3 := counts_of_shape h3
    exact ⟨s, hs, hlen.1, hlen.2.1, hlen.2.2.1, c1, c2, c3, chained_of_counts c1 hchain,
      chained_of_counts c2 hchain, chained_of_counts c3 hchain⟩
  refine ⟨hall, ?_⟩
  obtain ⟨s, hs, _, hb, _, _, cb, _, _, chb, _⟩ := hall maxCycles
  refine ⟨s.best, ?_, hb, cb, chb⟩
  unfold annealNetworkFor
  rw [hs]
  rfl

/-- Claim C18 on the chained network `twoNet`. -/
theorem training_keeps_topology_witness :
    twoNet.layers ≠ [] ∧ chained twoNet ∧
    ((∀ cycles : Nat, ∃ s,
      annealStates id toyExp toyRand 3 twoNet ⟨batch, ⟨2, 1, [0, 0]⟩⟩ cycles = some s ∧
      s.current.numLayers = twoNet.numLayers ∧ s.best.numLayers = twoNet.numLayers ∧
      s.mutant.numLayers = twoNet.numLayers ∧
      s.current.layers.map layerCounts = twoNet.layers.map layerCounts ∧
      s.best.layers.map layerCounts = twoNet.layers.map layerCounts ∧
      s.mutant.layers.map layerCounts = twoNet.layers.map layerCounts ∧
      chained s.current ∧ chained s.best ∧ chained s.mutant) ∧
    ∃ r, annealNetworkFor id toyExp toyRand 3 twoNet ⟨batch, ⟨2, 1, [0, 0]⟩⟩ = some r ∧
      r.numLayers = twoNet.numLayers ∧
      r.layers.map layerCounts = twoNet.layers.map layerCounts ∧ chained r) :=
  ⟨by decide, by simp [chained, twoNet],
    training_keeps_topology id toyExp toyRand 3 twoNet ⟨batch, ⟨2, 1, [0, 0]⟩⟩
      (by decide) (by simp [chained, twoNet])⟩

end TopologyClaim

/-! ## The recorded errors -/

section ErrorLemmas

variable {F : Type} [LinearOrderedField F]

theorem applyLayer_congr (activation : F → F) (layer : neuralLayer F) (input o1 o2 : matrix F)
    (h : matrixShape o1 = matrixShape o2) :
    applyLayer activation layer input o1 = applyLayer activation layer input o2 := by
  obtain ⟨h1, w1, v1⟩ := o1
  obtain ⟨h2, w2, v2⟩ := o2
  simp only [matrixShape, Prod.mk.injEq] at h
  obtain ⟨rfl, rfl⟩ := h
  rfl

theorem applyLayer_shape (activation : F → F) (layer : neuralLayer F) (input o : matrix F) :
    matrixShape (applyLayer activation layer input o) = matrixShape o := rfl

/-- The loop of `applyNetwork` uses of its buffers only their shapes. -/
theorem applyLayers_congr (activation : F → F) (layers : List (neuralLayer F)) :
    ∀ (old : matrix F) (b1 b2 : List (matrix F)), b1.map matrixShape = b2.map matrixShape →
    (applyLayers activation layers old b1).map (fun r => r.1)
      = (applyLayers activation layers old b2).map (fun r => r.1) := by
  induction layers with
  | nil => intro old b1 b2 _; rfl
  | cons layer rest ih =>
    intro old b1 b2 h
    cases b1 with
    | nil =>
      cases b2 with
      | nil => rfl
      | cons m2 b2 => simp at h
    | cons m1 b1 =>
      cases b2 with
      | nil => simp at h
      | cons m2 b2 =>
        simp only [List.map_cons, List.cons.injEq] at h
        have hrest := ih (applyLayer activation layer old m2) b1 b2 h.2
        unfold applyLayers
        simp only
        rw [applyLayer_congr activation layer old m1 m2 h.1]
        cases h1 : applyLayers activation rest (applyLayer activation layer old m2) b1 with
        | none =>
          cases h2 : applyLayers activation rest (applyLayer activation layer old m2) b2 with
          | none => rfl
          | some r2 => rw [h1, h2] at hrest; simp at hrest
        | some r1 =>
          cases h2 : applyLayers activation rest (applyLayer activation layer old m2) b2 with
          | none => rw [h1, h2] at hrest; simp at hrest
          | some r2 =>
            rw [h1, h2] at hrest
            simpa using hrest

theorem applyLayers_shapes (activation : F → F) (layers : List (neuralLayer F)) :
    ∀ (old last : matrix F) (bufs inters : List (matrix F)),
    applyLayers activation layers old bufs = some (last, inters) →
    inters.map matrixShape = bufs.map matrixShape := by
  induction layers with
  | nil =>
    intro old last bufs inters h
    simp only [applyLayers, Option.some.injEq, Prod.mk.injEq] at h
    rw [h.2]
  | cons layer rest ih =>
    intro old last bufs inters h
    cases bufs with
    | nil => simp [applyLayers] at h
    | cons m bufs =>
      unfold applyLayers at h
      simp only at h
      cases h1 : applyLayers activation rest (applyLayer activation layer old m) bufs with
      | none => simp [h1] at h
      | some r =>
        obtain ⟨l1, i1⟩ := r
        simp only [h1, Option.some.injEq, Prod.mk.injEq] at h
        obtain ⟨_, rfl⟩ := h
        simp only [List.map_cons, ih _ _ _ _ h1, applyLayer_shape]

/-- The error `calculateTrainingDataError` returns depends on the buffers only
through their shapes. -/
theorem calculateTrainingDataError_congr (activation : F → F) (network : neuralNetwork F)
    (trains : trainingData F) (o1 o2 : matrix F) (b1 b2 : List (matrix F))
    (ho : matrixShape o1 = matrixShape o2) (hb : b1.map matrixShape = b2.map matrixShape) :
    (calculateTrainingDataError activation network trains o1 b1).map (fun r => r.1)
      = (calculateTrainingDataError activation network trains o2 b2).map (fun r => r.1) := by
  have hl := applyLayers_congr activation (network.layers.take (network.numLayers - 1))
    trains.input b1 b2 hb
  unfold calculateTrainingDataError applyNetwork
  simp only
  cases h1 : applyLayers activation (network.layers.take (network.numLayers - 1))
      trains.input b1 with
  | none =>
    cases h2 : applyLayers activation (network.layers.take (network.numLayers - 1))
        trains.input b2 with
    | none => rfl
    | some r2 => rw [h1, h2] at hl; simp at hl
  | some r1 =>
    cases h2 : applyLayers activation (network.layers.take (network.numLayers - 1))
        trains.input b2 with
    | none => rw [h1, h2] at hl; simp at hl
    | some r2 =>
      rw [h1, h2] at hl
      simp only [Option.map_some', Option.some.injEq] at hl
      obtain ⟨old1, i1⟩ := r1
      obtain ⟨old2, i2⟩ := r2
      simp only at hl
      subst hl
      cases hlast : network.layers[network.numLayers - 1]? with
      | none => rfl
      | some last =>
        simp only [Option.map_some', Option.some.injEq]
        rw [applyLayer_congr activation last old1 o1 o2 ho]

/-- The buffers `calculateTrainingDataError` leaves have the shapes of the
buffers it was given. -/
theorem calculateTrainingDataError_shapes {activation : F → F} {network : neuralNetwork F}
    {trains : trainingData F} {o out : matrix F} {b inters : List (matrix F)} {e : F}
    (h : calculateTrainingDataError activation network trains o b = some (e, out, inters)) :
    matrixShape out = matrixShape o ∧ inters.map matrixShape = b.map matrixShape := by
  unfold calculateTrainingDataError applyNetwork at h
  simp only at h
  cases h1 : applyLayers activation (network.layers.take (network.numLayers - 1))
      trains.input b with
  | none => simp [h1] at h
  | some r1 =>
    obtain ⟨old1, i1⟩ := r1
    cases hlast : network.layers[network.numLayers - 1]? with
    | none => simp [h1, hlast] at h
    | some last =>
      simp only [h1, hlast, Option.some.injEq, Prod.mk.injEq] at h
      obtain ⟨_, rfl, rfl⟩ := h
      exact ⟨rfl, applyLayers_shapes activation _ _ _ _ _ h1⟩

/-- One cycle keeps the recorded errors true to their networks. -/
theorem annealCycle_errors {activation expf : F → F} {randomNetF : Nat → F} {maxCycles : Nat}
    {train : trainingData F} {cycle : Nat} {s s1 : annealState F}
    (hcur : s.current.layers.map layerShape = s.mutant.layers.map layerShape)
    (hbest : s.best.layers.map layerShape = s.mutant.layers.map layerShape)
    (hce : (calculateTrainingDataError activation s.current train s.output
      s.intermediates).map (fun r => r.1) = some s.currentStateError)
    (hbe : (calculateTrainingDataError activation s.best train s.output
      s.intermediates).map (fun r => r.1) = some s.bestStateError)
    (h : annealCycle activation expf randomNetF maxCycles train cycle s = some s1) :
    (calculateTrainingDataError activation s1.current train s1.output
      s1.intermediates).map (fun r => r.1) = some s1.currentStateError ∧
    (calculateTrainingDataError activation s1.best train s1.output
      s1.intermediates).map (fun r => r.1) = some s1.bestStateError := by
  obtain ⟨copied, e, out, inters, hcopy, hmut, hcalc, hout, hint, _, _, _, _, _, hacc, hrec⟩ :=
    annealCycle_inv h
  obtain ⟨hso, hsi⟩ := calculateTrainingDataError_shapes hcalc
  have hsame : ∀ net : neuralNetwork F,
      (calculateTrainingDataError activation net train s1.output s1.intermediates).map
        (fun r => r.1)
      = (calculateTrainingDataError activation net train s.output s.intermediates).map
        (fun r => r.1) := by
    intro net
    rw [hout, hint]
    exact calculateTrainingDataError_congr activation net train out s.output inters
      s.intermediates hso hsi
  have hme : (calculateTrainingDataError activation s1.mutant train s.output
      s.intermediates).map (fun r => r.1) = some e := by
    rw [hcalc]
    rfl
  have hms : s1.mutant.layers.map layerShape = s.mutant.layers.map layerShape := by
    rw [hmut]
    simp only
    rw [mutateLayers_shape, copyNeuralNetwork_shape hcopy]
  constructor
  · rcases acceptOrReset_value (hms.trans hcur.symm) (hbest.trans hcur.symm) hacc with
      ⟨_, h1, h2, _⟩ | ⟨_, _, h1, h2, _⟩ | ⟨_, _, h1, h2, _⟩
    · rw [hsame, h1, h2, hme]
    · rw [hsame, h1, h2, hbe]
    · rw [hsame, h1, h2, hce]
  · rcases recordBest_value (hms.trans hbest.symm) hrec with ⟨_, h1, h2⟩ | ⟨_, h1, h2⟩
    · rw [hsame, h1, h2, hme]
    · rw [hsame, h1, h2, hbe]

/-- On every state of a run the recorded errors are the errors of `current`
and of `best`. -/
theorem annealStates_true_errors (activation expf : F → F) (randomNetF : Nat → F)
    (maxCycles : Nat) (original : neuralNetwork F) (train : trainingData F) :
    ∀ (cycles : Nat) (s : annealState F),
      annealStates activation expf randomNetF maxCycles original train cycles = some s →
      (calculateTrainingDataError activation s.current train s.output
        s.intermediates).map (fun r => r.1) = some s.currentStateError ∧
      (calculateTrainingDataError activation s.best train s.output
        s.intermediates).map (fun r => r.1) = some s.bestStateError := by
  intro cycles
  induction cycles with
  | zero =>
    intro s h
    obtain ⟨outputs, _, hcalc, hc, hb, _, hce, hbe, _⟩ := annealInit_inv h
    obtain ⟨hso, hsi⟩ := calculateTrainingDataError_shapes hcalc
    have hinit : (calculateTrainingDataError activation original train s.output
        s.intermediates).map (fun r => r.1) = some s.initialError := by
      rw [calculateTrainingDataError_congr activation original train s.output
        (createMatrix train.output.height outputs) s.intermediates
        (createNetworkIntermediates original (getTrainingDataCount train)) hso hsi, hcalc]
      rfl
    rw [hc, hb, hce, hbe]
    exact ⟨hinit, hinit⟩
  | succ n ih =>
    intro s1 h
    obtain ⟨s, hs, hstep⟩ := annealStates_succ h
    obtain ⟨h1, h2, h3⟩ :=
      annealStates_shape activation expf randomNetF maxCycles original train n s hs
    obtain ⟨hce, hbe⟩ := ih s hs
    exact annealCycle_errors (h1.trans h3.symm) (h2.trans h3.symm) hce hbe hstep

end ErrorLemmas

section RecordedErrorClaim

variable {F : Type} [LinearOrderedField F]

/-- Claim C19. At the start of the loop of `annealNetwork` and at the end of
every cycle, `currentStateError` is the error `calculateTrainingDataError`
gives for `current` on the training data, and `bestStateError` is the error it
gives for `best`. -/
theorem recorded_errors_match (activation expf : F → F) (randomNetF : Nat → F)
    (maxCycles : Nat) (original : neuralNetwork F) (train : trainingData F)
    (hne : original.layers ≠ []) :
    ∀ cycles : Nat, ∃ s,
      annealStates activation expf randomNetF maxCycles original train cycles = some s ∧
      (calculateTrainingDataError activation s.current train s.output
        s.intermediates).map (fun r => r.1) = some s.currentStateError ∧
      (calculateTrainingDataError activation s.best train s.output
        s.intermediates).map (fun r => r.1) = some s.bestStateError := by
  intro cycles
  obtain ⟨s, hs, _⟩ :=
    annealStates_some activation expf randomNetF maxCycles original train hne cycles
  exact ⟨s, hs,
    annealStates_true_errors activation expf randomNetF maxCycles original train cycles s hs⟩

/-- Claim C19 on the single-bias network. -/
theorem recorded_errors_match_witness :
    biasNet.layers ≠ [] ∧
    ∀ cycles : Nat, ∃ s,
      annealStates id toyExp toyRand 4 biasNet biasTrain cycles = some s ∧
      (calculateTrainingDataError id s.current biasTrain s.output
        s.intermediates).map (fun r => r.1) = some s.currentStateError ∧
      (calculateTrainingDataError id s.best biasTrain s.output
        s.intermediates).map (fun r => r.1) = some s.bestStateError :=
  ⟨by decide, recorded_errors_match id toyExp toyRand 4 biasNet biasTrain (by decide)⟩

end RecordedErrorClaim

/-! ## The reset counter and the temperature -/

section CounterLemmas

variable {F : Type} [LinearOrderedField F]

end CounterLemmas

section CounterClaims

variable {F : Type} [LinearOrderedField F]

end CounterClaims

section TemperatureLemmas

variable {F : Type} [LinearOrderedField F]

/-- The argument of `expf` in the temperature update is never positive and
does not grow with the cycle. -/
theorem schedule_argument (maxCycles cycle : Nat) :
    -(7 / 2) * (cycle : F) / (maxCycles : F) ≤ 0 ∧
    -(7 / 2) * ((cycle + 1 : Nat) : F) / (maxCycles : F)
      ≤ -(7 / 2) * (cycle : F) / (maxCycles : F) := by
  have hm : (0 : F) ≤ (maxCycles : F) := Nat.cast_nonneg maxCycles
  have hc : (0 : F) ≤ (cycle : F) := Nat.cast_nonneg cycle
  constructor
  · apply div_nonpos_of_nonpos_of_nonneg _ hm
    have : (0 : F) ≤ 7 / 2 * (cycle : F) := mul_nonneg (by norm_num) hc
    linarith
  · apply div_le_div_of_nonneg_right _ hm
    push_cast
    have : (0 : F) < 7 / 2 := by norm_num
    nlinarith

/-- The temperature of every state of a run: 5 at the start, and after cycle
`c` the value of the schedule at `c`. -/
theorem annealStates_temp (activation expf : F → F) (randomNetF : Nat → F) (maxCycles : Nat)
    (original : neuralNetwork F) (train : trainingData F) :
    (∀ s, annealStates activation expf randomNetF maxCycles original train 0 = some s →
      s.temp = 5) ∧
    ∀ (cycle : Nat) (s1 : annealState F),
      annealStates activation expf randomNetF maxCycles original train (cycle + 1) = some s1 →
      s1.temp = 5 * expf (-(7 / 2) * (cycle : F) / (maxCycles : F)) := by
  constructor
  · intro s h
    obtain ⟨_, _, _, _, _, _, _, _, ht, _⟩ := annealInit_inv h
    exact ht
  · intro cycle s1 h
    obtain ⟨s, _, hstep⟩ := annealStates_succ h
    obtain ⟨_, _, _, _, _, _, _, _, _, _, _, ht, _⟩ := annealCycle_inv hstep
    exact ht

end TemperatureLemmas

section TemperatureClaim

variable {F : Type} [LinearOrderedField F]

/-- Claim C17. For an `expf` that is positive, monotone and 1 at 0, as the
exponential is: the acceptance test of cycle 0 uses the temperature 5, and the
temperature after cycle `c`, for `c < maxCycles`, is
`5 * expf(-3.5 * c / maxCycles)`. The
temperature an acceptance test uses is positive and at most 5, and the
temperature after a cycle is no greater than the one the cycle used. -/
theorem temperature_schedule (activation expf : F → F) (randomNetF : Nat → F)
    (maxCycles : Nat) (original : neuralNetwork F) (train : trainingData F)
    (hexp_pos : ∀ x, 0 < expf x) (hexp_mono : ∀ x y, x ≤ y → expf x ≤ expf y)
    (hexp_zero : expf 0 = 1) (hne : original.layers ≠ []) :
    (∃ s0, annealStates activation expf randomNetF maxCycles original train 0 = some s0 ∧
      s0.temp = 5) ∧
    ∀ cycle : Nat, cycle < maxCycles → ∃ s s1,
      annealStates activation expf randomNetF maxCycles original train cycle = some s ∧
      annealStates activation expf randomNetF maxCycles original train (cycle + 1)
        = some s1 ∧
      s1.temp = 5 * expf (-(7 / 2) * (cycle : F) / (maxCycles : F)) ∧
      0 < s.temp ∧ s.temp ≤ 5 ∧ s1.temp ≤ s.temp := by
  obtain ⟨hinit, hlater⟩ :=
    annealStates_temp activation expf randomNetF maxCycles original train
  have hle1 : ∀ c : Nat, expf (-(7 / 2) * (c : F) / (maxCycles : F)) ≤ 1 := by
    intro c
    rw [← hexp_zero]
    exact hexp_mono _ _ (schedule_argument maxCycles c).1
  constructor
  · obtain ⟨s0, hs0, _⟩ :=
      annealStates_some activation expf randomNetF maxCycles original train hne 0
    exact ⟨s0, hs0, hinit s0 hs0⟩
  · intro cycle _
    obtain ⟨s1, hs1, _⟩ :=
      annealStates_some activation expf randomNetF maxCycles original train hne (cycle + 1)
    obtain ⟨s, hs, _⟩ := annealStates_succ hs1
    have ht1 := hlater cycle s1 hs1
    refine ⟨s, s1, hs, hs1, ht1, ?_⟩
    cases cycle with
    | zero =>
      have ht := hinit s hs
      rw [ht, ht1]
      refine ⟨by norm_num, le_refl _, ?_⟩
      have := hle1 0
      linarith
    | succ k =>
      have ht := hlater k s hs
      rw [ht, ht1]
      have hpos := hexp_pos (-(7 / 2) * (k : F) / (maxCycles : F))
      have hk := hle1 k
      have hstep := hexp_mono _ _ (schedule_argument (F := F) maxCycles k).2
      refine ⟨by linarith, by linarith, by linarith⟩

/-- Claim C17 with the real exponential, on a single-bias network and the 500000
cycles of the source. -/
theorem temperature_schedule_witness :
    (∀ x, 0 < Real.exp x) ∧ (∀ x y, x ≤ y → Real.exp x ≤ Real.exp y) ∧ Real.exp 0 = 1 ∧
    (⟨[⟨0, 1, ⟨0, 1, []⟩, [0]⟩]⟩ : neuralNetwork ℝ).layers ≠ [] ∧
    ((∃ s0, annealStates id Real.exp (fun _ => 0) 500000
        (⟨[⟨0, 1, ⟨0, 1, []⟩, [0]⟩]⟩ : neuralNetwork ℝ) ⟨⟨1, 0, []⟩, ⟨1, 1, [0]⟩⟩ 0
        = some s0 ∧ s0.temp = 5) ∧
    ∀ cycle : Nat, cycle < 500000 → ∃ s s1,
      annealStates id Real.exp (fun _ => 0) 500000
        (⟨[⟨0, 1, ⟨0, 1, []⟩, [0]⟩]⟩ : neuralNetwork ℝ) ⟨⟨1, 0, []⟩, ⟨1, 1, [0]⟩⟩ cycle
        = some s ∧
      annealStates id Real.exp (fun _ => 0) 500000
        (⟨[⟨0, 1, ⟨0, 1, []⟩, [0]⟩]⟩ : neuralNetwork ℝ) ⟨⟨1, 0, []⟩, ⟨1, 1, [0]⟩⟩ (cycle + 1)
        = some s1 ∧
      s1.temp = 5 * Real.exp (-(7 / 2) * (cycle : ℝ) / ((500000 : Nat) : ℝ)) ∧
      0 < s.temp ∧ s.temp ≤ 5 ∧ s1.temp ≤ s.temp) :=
  ⟨Real.exp_pos, fun _ _ h => Real.exp_le_exp.mpr h, Real.exp_zero, by simp,
    temperature_schedule id Real.exp (fun _ => 0) 500000
      (⟨[⟨0, 1, ⟨0, 1, []⟩, [0]⟩]⟩ : neuralNetwork ℝ) ⟨⟨1, 0, []⟩, ⟨1, 1, [0]⟩⟩
      Real.exp_pos (fun _ _ h => Real.exp_le_exp.mpr h) Real.exp_zero (by simp)⟩

end TemperatureClaim

/-! ## The best error -/

section BestErrorClaim

variable {F : Type} [LinearOrderedField F]

/-- Claim C20. For an `expf` that is positive and at least 1 from 0 on, and
draws in `[0, 1)`: on every run the temperature is positive, `bestStateError`
is at most `currentStateError` at the start of the loop and at the end of every
cycle, and `bestStateError` never grows. The mutant of a rejected cycle has an
error above `bestStateError`, so a rejected cycle, and with it every cycle that
resets `current`, leaves `best` and `bestStateError` as they are. -/
theorem best_error_bounds (activation expf : F → F) (randomNetF : Nat → F)
    (maxCycles : Nat) (original : neuralNetwork F) (train : trainingData F)
    (hexp_pos : ∀ x, 0 < expf x) (hexp_ge : ∀ x, 0 ≤ x → 1 ≤ expf x)
    (hrand : ∀ k, randomNetF k < 1) (hne : original.layers ≠ []) :
    ∀ cycle : Nat, ∃ s s1,
      annealStates activation expf randomNetF maxCycles original train cycle = some s ∧
      annealStates activation expf randomNetF maxCycles original train (cycle + 1)
        = some s1 ∧
      0 < s.temp ∧
      s.bestStateError ≤ s.currentStateError ∧ s1.bestStateError ≤ s1.currentStateError ∧
      s1.bestStateError ≤ s.bestStateError ∧
      (s1.accepted = false → ∃ e, s1.mutantErrors.head? = some e ∧ s.bestStateError < e ∧
        s1.best = s.best ∧ s1.bestStateError = s.bestStateError) ∧
      (s1.reset = true → s1.accepted = false ∧ s1.best = s.best ∧
        s1.bestStateError = s.bestStateError) := by
  intro cycle
  obtain ⟨s1, hs1, _⟩ :=
    annealStates_some activation expf randomNetF maxCycles original train hne (cycle + 1)
  obtain ⟨s, hs, hstep⟩ := annealStates_succ hs1
  have hready := annealStates_ready activation expf randomNetF maxCycles original train
    hexp_pos hexp_ge hrand cycle s hs
  have hready1 := annealStates_ready activation expf randomNetF maxCycles original train
    hexp_pos hexp_ge hrand (cycle + 1) s1 hs1
  obtain ⟨copied, e, out, inters, _, _, _, _, _, herrs, _, _, _, hreset, _, hrec⟩ :=
    annealCycle_inv hstep
  have hmin := (recordBest_length hrec).2
  have hrejected : s1.accepted = false → ∃ e, s1.mutantErrors.head? = some e ∧
      s.bestStateError < e ∧ s1.best = s.best ∧ s1.bestStateError = s.bestStateError := by
    intro hrej
    obtain ⟨e1, he1, hlt⟩ := rejected_cycle hexp_ge hrand hready.1 hstep hrej
    have hee : e1 = e := by
      rw [herrs] at he1
      exact (List.cons.inj he1).1.symm
    subst hee
    have hbe : s.bestStateError < e1 := lt_of_le_of_lt hready.2.1 hlt
    refine ⟨e1, by rw [herrs]; rfl, hbe, ?_⟩
    unfold recordBest at hrec
    rw [if_neg (not_lt.mpr (le_of_lt hbe))] at hrec
    simp only [Option.some.injEq, Prod.mk.injEq] at hrec
    exact ⟨hrec.2.symm, hrec.1.symm⟩
  refine ⟨s, s1, hs, hs1, hready.1, hready.2.1, hready1.2.1, ?_, hrejected, ?_⟩
  · rw [hmin]
    exact min_le_right _ _
  · intro hr
    have hrej : s1.accepted = false := by
      rw [hreset] at hr
      cases hacc : s1.accepted with
      | true => rw [hacc] at hr; simp at hr
      | false => rfl
    obtain ⟨_, _, _, hb, hbe⟩ := hrejected hrej
    exact ⟨hrej, hb, hbe⟩

/-- Claim C20 on the single-bias network. -/
theorem best_error_bounds_witness :
    (∀ x, 0 < toyExp x) ∧ (∀ x, 0 ≤ x → 1 ≤ toyExp x) ∧ (∀ k, toyRand k < 1) ∧
    biasNet.layers ≠ [] ∧
    ∀ cycle : Nat, ∃ s s1,
      annealStates id toyExp toyRand 4 biasNet biasTrain cycle = some s ∧
      annealStates id toyExp toyRand 4 biasNet biasTrain (cycle + 1) = some s1 ∧
      0 < s.temp ∧
      s.bestStateError ≤ s.currentStateError ∧ s1.bestStateError ≤ s1.currentStateError ∧
      s1.bestStateError ≤ s.bestStateError ∧
      (s1.accepted = false → ∃ e, s1.mutantErrors.head? = some e ∧ s.bestStateError < e ∧
        s1.best = s.best ∧ s1.bestStateError = s.bestStateError) ∧
      (s1.reset = true → s1.accepted = false ∧ s1.best = s.best ∧
        s1.bestStateError = s.bestStateError) :=
  ⟨toyExp_pos, toyExp_ge, toyRand_lt, by decide,
    best_error_bounds id toyExp toyRand 4 biasNet biasTrain toyExp_pos toyExp_ge toyRand_lt
      (by decide)⟩

end BestErrorClaim

/-! ## The returned network and the acceptance of improvements -/

section ReturnedLemmas

variable {F : Type} [LinearOrderedField F]

/-- The error recorded for the mutant of a cycle is the error
`calculateTrainingDataError` gives for it. -/
theorem annealStates_mutant_error (activation expf : F → F) (randomNetF : Nat → F)
    (maxCycles : Nat) (original : neuralNetwork F) (train : trainingData F) (cycle : Nat)
    (s1 : annealState F)
    (h : annealStates activation expf randomNetF maxCycles original train (cycle + 1)
      = some s1) :
    ∃ e, s1.mutantErrors.head? = some e ∧
      (calculateTrainingDataError activation s1.mutant train s1.output
        s1.intermediates).map (fun r => r.1) = some e := by
  obtain ⟨s, _, hstep⟩ := annealStates_succ h
  obtain ⟨copied, e, out, inters, _, _, hcalc, hout, hint, herrs, _⟩ := annealCycle_inv hstep
  obtain ⟨hso, hsi⟩ := calculateTrainingDataError_shapes hcalc
  refine ⟨e, by rw [herrs]; rfl, ?_⟩
  rw [hout, hint, calculateTrainingDataError_congr activation s1.mutant train out s.output
    inters s.intermediates hso hsi, hcalc]
  rfl

/-- The errors of the mutants evaluated so far stay in the list. -/
theorem annealStates_errors_kept (activation expf : F → F) (randomNetF : Nat → F)
    (maxCycles : Nat) (original : neuralNetwork F) (train : trainingData F) (cycle : Nat)
    (s : annealState F)
    (hs : annealStates activation expf randomNetF maxCycles original train cycle = some s) :
    ∀ (k : Nat) (sk : annealState F),
      annealStates activation expf randomNetF maxCycles original train (cycle + k) = some sk →
      ∀ e ∈ s.mutantErrors, e ∈ sk.mutantErrors := by
  intro k
  induction k with
  | zero =>
    intro sk hsk e he
    rw [Nat.add_zero, hs] at hsk
    cases hsk
    exact he
  | succ k ih =>
    intro sk hsk e he
    have hsk1 : annealStates activation expf randomNetF maxCycles original train
        (cycle + k + 1) = some sk := hsk
    obtain ⟨sp, hsp, hstep⟩ := annealStates_succ hsk1
    obtain ⟨_, e1, _, _, _, _, _, _, _, herrs, _⟩ := annealCycle_inv hstep
    rw [herrs]
    exact List.mem_cons_of_mem e1 (ih sp hsp e he)

end ReturnedLemmas

theorem roundedExp_ge (x : ℚ) (hx : 0 ≤ x) : 1 ≤ roundedExp x := by
  unfold roundedExp
  split
  · exact le_refl 1
  · exact toyExp_ge x hx

theorem driftStart_cycle :
    annealCycle id toyExp upRand 2 biasTrain 0 driftStart = some driftStep := by
  decide!

theorem driftNet_trained :
    annealNetworkFor id toyExp upRand 2 driftNet biasTrain
      = some ⟨[⟨0, 1, ⟨0, 1, []⟩, [-1 / 2]⟩]⟩ := by
  decide!

section ReturnedClaims

variable {F : Type} [LinearOrderedField F]

/-- Claim C7. For every starting network (with at least one layer), training
data, cycle count and sequence of random draws, `annealNetwork` returns the
network `best` of the final state. The error `calculateTrainingDataError`
gives for the returned network is the recorded `bestStateError`, and that is
the minimum of the error of the initial network and the errors of all mutants
evaluated: it is no greater than the initial error, and no greater than the
error `calculateTrainingDataError` gives for the mutant of any cycle. -/
theorem annealNetwork_returns_lowest (activation expf : F → F) (randomNetF : Nat → F)
    (maxCycles : Nat) (original : neuralNetwork F) (train : trainingData F)
    (hne : original.layers ≠ []) :
    ∃ s r, annealStates activation expf randomNetF maxCycles original train maxCycles
        = some s ∧
      annealNetworkFor activation expf randomNetF maxCycles original train = some r ∧
      r = s.best ∧
      (calculateTrainingDataError activation r train s.output s.intermediates).map
        (fun x => x.1) = some s.bestStateError ∧
      (∃ outputs out inters, getNetworkOutputs original = some outputs ∧
        calculateTrainingDataError activation original train
          (createMatrix train.output.height outputs)
          (createNetworkIntermediates original (getTrainingDataCount train))
          = some (s.initialError, out, inters)) ∧
      s.mutantErrors.length = maxCycles ∧
      s.bestStateError = s.mutantErrors.foldr min s.initialError ∧
      s.bestStateError ≤ s.initialError ∧
      (∀ e ∈ s.mutantErrors, s.bestStateError ≤ e) ∧
      ∀ cycle, cycle < maxCycles → ∃ sc e,
        annealStates activation expf randomNetF maxCycles original train (cycle + 1)
          = some sc ∧
        (calculateTrainingDataError activation sc.mutant train sc.output
          sc.intermediates).map (fun x => x.1) = some e ∧
        s.bestStateError ≤ e := by
  obtain ⟨s0, h0, _, _, _, _, _, _, _, _, _, hinit⟩ :=
    annealInit_some activation original train hne
  obtain ⟨s, hs, _⟩ := annealStates_some activation expf randomNetF maxCycles original train
    hne maxCycles
  obtain ⟨hi, hl, hb⟩ := annealStates_errors activation expf randomNetF maxCycles original
    train s0 h0 maxCycles s hs
  obtain ⟨hle, hall⟩ := foldr_min_le s.initialError s.mutantErrors
  have htrue := (annealStates_true_errors activation expf randomNetF maxCycles original train
    maxCycles s hs).2
  have hmem : ∀ e ∈ s.mutantErrors, s.bestStateError ≤ e := by
    intro e he; rw [hb]; exact hall e he
  refine ⟨s, s.best, hs, by simp [annealNetworkFor, hs], rfl, htrue, ?_, hl, hb,
    by rw [hb]; exact hle, hmem, ?_⟩
  · rw [hi]; exact hinit
  · intro cycle hc
    obtain ⟨sc, hsc, _⟩ := annealStates_some activation expf randomNetF maxCycles original
      train hne (cycle + 1)
    obtain ⟨e, hhead, herr⟩ := annealStates_mutant_error activation expf randomNetF maxCycles
      original train cycle sc hsc
    refine ⟨sc, e, hsc, herr, hmem e ?_⟩
    have hk : cycle + 1 + (maxCycles - (cycle + 1)) = maxCycles := by omega
    apply annealStates_errors_kept activation expf randomNetF maxCycles original train
      (cycle + 1) sc hsc (maxCycles - (cycle + 1)) s (by rw [hk]; exact hs) e
    cases hm : sc.mutantErrors with
    | nil => rw [hm] at hhead; simp at hhead
    | cons x xs =>
      rw [hm] at hhead
      simp only [List.head?_cons, Option.some.injEq] at hhead
      rw [hhead]
      exact List.mem_cons_self e xs

/-- Claim C7 on a run that improves twice: from `driftNet` (bias -1, error 1)
with the generator `upRand`, two cycles return the network with bias -1/2. -/
theorem annealNetwork_returns_lowest_witness :
    driftNet.layers ≠ [] ∧
    annealNetworkFor id toyExp upRand 2 driftNet biasTrain
      = some ⟨[⟨0, 1, ⟨0, 1, []⟩, [-1 / 2]⟩]⟩ ∧
    ∃ s r, annealStates id toyExp upRand 2 driftNet biasTrain 2 = some s ∧
      annealNetworkFor id toyExp upRand 2 driftNet biasTrain = some r ∧
      r = s.best ∧
      (calculateTrainingDataError id r biasTrain s.output s.intermediates).map
        (fun x => x.1) = some s.bestStateError ∧
      (∃ outputs out inters, getNetworkOutputs driftNet = some outputs ∧
        calculateTrainingDataError id driftNet biasTrain
          (createMatrix biasTrain.output.height outputs)
          (createNetworkIntermediates driftNet (getTrainingDataCount biasTrain))
          = some (s.initialError, out, inters)) ∧
      s.mutantErrors.length = 2 ∧
      s.bestStateError = s.mutantErrors.foldr min s.initialError ∧
      s.bestStateError ≤ s.initialError ∧
      (∀ e ∈ s.mutantErrors, s.bestStateError ≤ e) ∧
      ∀ cycle, cycle < 2 → ∃ sc e,
        annealStates id toyExp upRand 2 driftNet biasTrain (cycle + 1) = some sc ∧
        (calculateTrainingDataError id sc.mutant biasTrain sc.output
          sc.intermediates).map (fun x => x.1) = some e ∧
        s.bestStateError ≤ e :=
  ⟨by decide, driftNet_trained,
    annealNetwork_returns_lowest id toyExp upRand 2 driftNet biasTrain (by decide)⟩

/-- Claim C8, as the code computes it. For every positive temperature and
every pair of errors with `mutantError < currentError`, the value of
`determineAcceptanceThreshold` is `expf((currentError - mutantError) * 500 /
temperature)` with a positive argument. For an `expf` that is at least 1 from
0 on, as the single precision `expf` is, the value is at least 1; it is
greater than 1 where `expf` is greater than 1 on positive arguments, as the
exact exponential is. In a cycle of `annealNetwork` at that temperature and
current error whose mutant has that error, the acceptance test succeeds for
every random draw in `[0, 1)`: the mutant error becomes the current error and
the weights and biases of the mutant become those of `current`. -/
theorem improvement_always_accepted (expf : F → F) (temp currentError mutantError : F)
    (hexp_ge : ∀ x, 0 ≤ x → 1 ≤ expf x) (htemp : 0 < temp)
    (hlt : mutantError < currentError) :
    determineAcceptanceThreshold expf temp currentError mutantError
      = expf ((currentError - mutantError) * 500 / temp) ∧
    0 < (currentError - mutantError) * 500 / temp ∧
    1 ≤ determineAcceptanceThreshold expf temp currentError mutantError ∧
    ((∀ x, 0 < x → 1 < expf x) →
      1 < determineAcceptanceThreshold expf temp currentError mutantError) ∧
    ∀ (activation : F → F) (randomNetF : Nat → F) (maxCycles cycle : Nat)
      (train : trainingData F) (s s1 : annealState F),
      (∀ k, 0 ≤ randomNetF k ∧ randomNetF k < 1) →
      s.temp = temp → s.currentStateError = currentError →
      annealCycle activation expf randomNetF maxCycles train cycle s = some s1 →
      s1.mutantErrors.head? = some mutantError →
      s1.accepted = true ∧ s1.currentStateError = mutantError ∧
      s1.current.layers.map layerParams = s1.mutant.layers.map layerParams := by
  have harg : 0 < (currentError - mutantError) * 500 / temp :=
    div_pos (mul_pos (sub_pos.mpr hlt) (by norm_num)) htemp
  have hthr : 1 ≤ determineAcceptanceThreshold expf temp currentError mutantError :=
    hexp_ge _ (le_of_lt harg)
  refine ⟨rfl, harg, hthr, fun hstrict => hstrict _ harg, ?_⟩
  intro activation randomNetF maxCycles cycle train s s1 hrand ht hc hstep hhead
  obtain ⟨copied, e, out, inters, _, _, _, _, _, hme, _, _, hacc, _, _, _⟩ :=
    annealCycle_inv hstep
  rw [hme] at hhead
  simp only [List.head?_cons, Option.some.injEq] at hhead
  subst hhead
  have hacc1 : s1.accepted = true := by
    rw [hacc, ht, hc]
    exact decide_eq_true (lt_of_lt_of_le (hrand _).2 hthr)
  obtain ⟨h1, h2⟩ := accepted_cycle hstep hacc1
  rw [hme] at h1
  simp only [List.head?_cons, Option.some.injEq] at h1
  exact ⟨hacc1, h1.symm, h2⟩

end ReturnedClaims

/-- Claim C8 at temperature 5, current error 1 and mutant error 9/16, and in
the cycle from `driftStart` to `driftStep`, whose mutant has that error. -/
theorem improvement_always_accepted_witness :
    (∀ x, 0 ≤ x → 1 ≤ toyExp x) ∧ (0 : ℚ) < 5 ∧ (9 / 16 : ℚ) < 1 ∧
    determineAcceptanceThreshold toyExp 5 1 (9 / 16) = toyExp ((1 - 9 / 16) * 500 / 5) ∧
    0 < ((1 : ℚ) - 9 / 16) * 500 / 5 ∧
    1 ≤ determineAcceptanceThreshold toyExp 5 1 (9 / 16) ∧
    annealCycle id toyExp upRand 2 biasTrain 0 driftStart = some driftStep ∧
    driftStep.mutantErrors.head? = some (9 / 16) ∧
    driftStep.accepted = true ∧ driftStep.currentStateError = 9 / 16 ∧
    driftStep.current.layers.map layerParams = driftStep.mutant.layers.map layerParams :=
  have h := improvement_always_accepted toyExp 5 1 (9 / 16) toyExp_ge (by norm_num)
    (by norm_num)
  ⟨toyExp_ge, by norm_num, by norm_num, h.1, h.2.1, h.2.2.1, driftStart_cycle, rfl,
    h.2.2.2.2 id upRand 2 0 biasTrain driftStart driftStep
      (fun _ => ⟨by norm_num [upRand], by norm_num [upRand]⟩) rfl rfl driftStart_cycle rfl⟩

/-- Claim C8 fails as stated for the exponential as the program computes it:
at temperature 5, current error `2^-40` and mutant error 0 the argument is
`100 * 2^-40`, below `2^-25`, and the threshold is exactly 1, not greater. -/
theorem threshold_rounds_to_one :
    (0 : ℚ) < 5 ∧ (0 : ℚ) < 1 / 2 ^ 40 ∧
    ((1 : ℚ) / 2 ^ 40 - 0) * 500 / 5 < 1 / 2 ^ 25 ∧
    determineAcceptanceThreshold roundedExp 5 (1 / 2 ^ 40) 0 = 1 ∧
    ¬ 1 < determineAcceptanceThreshold roundedExp 5 (1 / 2 ^ 40) 0 := by
  decide!

end CSubNet
